import Mathlib

/-!
# Verification of the r2dec IR simplifier and CFG dominance analyses

This development is a shallow embedding of `src/core2/analysis/ir/simplify.js`
(the expression-rewriting engine) and the directed-graph / dominator-tree
module bundled in the same source file.

The expression data model (`Expr.Val`, `Expr.Add`, …, with `equals`,
`iter_operands` and `replace`) lives in `core2/analysis/ir/expressions`,
which is not part of the sources; it is modelled from the specification:
expressions are a closed family of tagged tree variants, `Value` carries a
numeric `value` and a bit-width `size`, structural equality compares
variant, size, scalar attributes and operands recursively, and the driver's
in-place `replace` is rendered functionally by rebuilding the spine of the
tree around the rewritten subexpression.

Numeric values are JavaScript numbers.  Within the spec's integer-only
scope they behave as exact signed integers; division can produce
non-integers and the IEEE special values, so the value domain is modelled
as rationals extended with `+∞`, `-∞` and `NaN`.  The bitwise operators
(`&`, `|`, `^`, `<<`) and `~` coerce through 32-bit integers exactly as in
JavaScript (`ToInt32`/`ToUint32`).
-/

/-- Modelled from the spec: the domain of the `value` attribute of a
`Value` expression.  JavaScript numbers restricted to the spec's
integer-only scope, extended with the rationals (produced by `/`) and the
IEEE special values (produced by `/ 0`, `% 0` and infinite operands).
`nan` compares equal to itself here because the spec defines structural
equality of `Value`s as equality of the scalar `value` attribute. -/
inductive JSNum where
  | num (q : ℚ)
  | posInf
  | negInf
  | nan
deriving DecidableEq, Repr

namespace JSNum

/-- JavaScript `+` on numbers. -/
def jsAdd : JSNum → JSNum → JSNum
  | nan, _ => nan
  | _, nan => nan
  | num a, num b => num (a + b)
  | num _, posInf => posInf
  | num _, negInf => negInf
  | posInf, num _ => posInf
  | negInf, num _ => negInf
  | posInf, posInf => posInf
  | posInf, negInf => nan
  | negInf, posInf => nan
  | negInf, negInf => negInf

/-- JavaScript `-` on numbers. -/
def jsSub : JSNum → JSNum → JSNum
  | nan, _ => nan
  | _, nan => nan
  | num a, num b => num (a - b)
  | num _, posInf => negInf
  | num _, negInf => posInf
  | posInf, num _ => posInf
  | negInf, num _ => negInf
  | posInf, posInf => nan
  | posInf, negInf => posInf
  | negInf, posInf => negInf
  | negInf, negInf => nan

/-- JavaScript `*` on numbers. -/
def jsMul : JSNum → JSNum → JSNum
  | nan, _ => nan
  | _, nan => nan
  | num a, num b => num (a * b)
  | num a, posInf => if a > 0 then posInf else if a < 0 then negInf else nan
  | num a, negInf => if a > 0 then negInf else if a < 0 then posInf else nan
  | posInf, num b => if b > 0 then posInf else if b < 0 then negInf else nan
  | negInf, num b => if b > 0 then negInf else if b < 0 then posInf else nan
  | posInf, posInf => posInf
  | posInf, negInf => negInf
  | negInf, posInf => negInf
  | negInf, negInf => posInf

/-- Truncation of a rational toward zero, as JavaScript obtains integers
from numbers. -/
def jtrunc (q : ℚ) : ℤ := Int.tdiv q.num q.den

/-- JavaScript `/` on numbers.  Division by zero yields an infinity whose
sign follows the dividend, or `NaN` for `0 / 0`; no exception. -/
def jsDiv : JSNum → JSNum → JSNum
  | nan, _ => nan
  | _, nan => nan
  | num a, num b =>
      if b = 0 then (if a > 0 then posInf else if a < 0 then negInf else nan)
      else num (a / b)
  | num _, posInf => num 0
  | num _, negInf => num 0
  | posInf, num b => if 0 ≤ b then posInf else negInf
  | negInf, num b => if 0 ≤ b then negInf else posInf
  | posInf, posInf => nan
  | posInf, negInf => nan
  | negInf, posInf => nan
  | negInf, negInf => nan

/-- JavaScript `%` on numbers: truncated remainder carrying the sign of
the dividend; `x % 0` is `NaN`. -/
def jsMod : JSNum → JSNum → JSNum
  | nan, _ => nan
  | _, nan => nan
  | num a, num b =>
      if b = 0 then nan else num (a - b * (jtrunc (a / b) : ℚ))
  | num a, posInf => num a
  | num a, negInf => num a
  | posInf, _ => nan
  | negInf, _ => nan

/-- `ToUint32` applied to an integer. -/
def toUint32 (i : ℤ) : ℕ := (i % 2 ^ 32).toNat

/-- Reinterpret a 32-bit unsigned value as a signed 32-bit integer. -/
def ofUint32 (n : ℕ) : ℤ := if n < 2 ^ 31 then (n : ℤ) else (n : ℤ) - 2 ^ 32

/-- `ToInt32` applied to an integer. -/
def toInt32I (i : ℤ) : ℤ := ofUint32 (toUint32 i)

/-- The unsigned 32-bit pattern JavaScript's bitwise operators extract
from a number (`ToInt32`/`ToUint32` agree on the bit pattern). -/
def bits32 : JSNum → ℕ
  | num q => toUint32 (jtrunc q)
  | _ => 0

/-- JavaScript `&`: both operands coerced through 32 bits. -/
def jsAnd (a b : JSNum) : JSNum := num ((ofUint32 (bits32 a &&& bits32 b) : ℤ) : ℚ)

/-- JavaScript `|`. -/
def jsOr (a b : JSNum) : JSNum := num ((ofUint32 (bits32 a ||| bits32 b) : ℤ) : ℚ)

/-- JavaScript `^`. -/
def jsXor (a b : JSNum) : JSNum := num ((ofUint32 (bits32 a ^^^ bits32 b) : ℤ) : ℚ)

/-- The shift count JavaScript uses for `<<`: `ToUint32` masked to 5 bits. -/
def shiftCount : JSNum → ℕ
  | num q => toUint32 (jtrunc q) % 32
  | _ => 0

/-- JavaScript `(1 << s) - 1` for a width `s` held in an optional `size`
attribute (an absent size behaves as `NaN`, so the shift count is 0).
The shift wraps at 32 bits and its result is a signed 32-bit integer. -/
def ffInt : Option ℕ → ℤ
  | some s => toInt32I (2 ^ (s % 32)) - 1
  | none => 0

/-- JavaScript `~((1 << c) - 1)` where `c` is a `Value`'s number:
the mask the `(x >> c) << c` rewrite builds. -/
def maskInt (c : JSNum) : ℤ :=
  -(toInt32I (toInt32I (2 ^ shiftCount c) - 1)) - 1

/-- JavaScript `x < 0` test on a number (`NaN < 0` is false). -/
def jlt0 : JSNum → Bool
  | num q => q < 0
  | negInf => true
  | _ => false

/-- JavaScript `Math.abs`. -/
def jabs : JSNum → JSNum
  | num q => num |q|
  | posInf => posInf
  | negInf => posInf
  | nan => nan

end JSNum

open JSNum

/-- Modelled from the spec: unary expression variants of the expressions
module (`Neg`, `Not`, `BoolNot`, `AddrOf`, `Deref`). -/
inductive UnOp where
  | uneg
  | unot
  | uboolNot
  | uaddrOf
  | uderef
deriving DecidableEq, Repr

/-- Modelled from the spec: binary expression variants (arithmetic,
bitwise, boolean and comparison operators; `NE`/`NEQ`, `LE`/`LTE` and
`GE`/`GTE` are aliases of one another and are therefore single variants). -/
inductive BinOp where
  | badd
  | bsub
  | bmul
  | bdiv
  | bmod
  | band
  | bor
  | bxor
  | bshl
  | bshr
  | bboolAnd
  | bboolOr
  | beq
  | bne
  | blt
  | ble
  | bgt
  | bge
deriving DecidableEq, Repr

/-- Modelled from the spec: the expression tree.  `val` is a literal with
its numeric value and optional bit width (the width slot is `none` when a
rule constructs a `Value` without passing a size, leaving the attribute
undefined); `reg` stands for the leaf placeholders (registers, variables,
memory references), compared structurally by identity via their id.
Structural equality (`equals` in the spec) is definitional equality of
this type. -/
inductive Expr where
  | val (v : JSNum) (sz : Option ℕ)
  | reg (id : ℕ) (sz : ℕ)
  | un (op : UnOp) (a : Expr)
  | bin (op : BinOp) (a b : Expr)
deriving DecidableEq, Repr

namespace Expr

/-- Modelled from the spec: every node carries a bit-width attribute; for
interior nodes it is inherited from the left (first) operand, matching the
spec's rule that result widths inherit the left operand's size. -/
def esize : Expr → Option ℕ
  | val _ sz => sz
  | reg _ sz => some sz
  | un _ a => esize a
  | bin _ a _ => esize a

/-- `_correct_arith`: identity elimination.  `rhand.equals(new Val(0, rhand.size))`
holds exactly when the right operand is a `Value` whose value is `0`
(the fabricated constant copies the right operand's own size). -/
def _correct_arith : Expr → Option Expr
  | bin .badd a (val v _) => if v = .num 0 then some a else none
  | bin .bsub a (val v _) => if v = .num 0 then some a else none
  | bin .bmul a (val v _) => if v = .num 1 then some a else none
  | bin .bdiv a (val v _) => if v = .num 1 then some a else none
  | _ => none

/-- `_correct_sign`: `x + (-c) → x - c` and `x - (-c) → x + c` for a
negative right-hand `Value`; the replacement value is `Math.abs` of the
old one and keeps the old size. -/
def _correct_sign : Expr → Option Expr
  | bin .badd a (val v s) =>
      if jlt0 v then some (bin .bsub a (val (jabs v) s)) else none
  | bin .bsub a (val v s) =>
      if jlt0 v then some (bin .badd a (val (jabs v) s)) else none
  | _ => none

/-- `_correct_ref`: `&*x → x` and `*&x → x`. -/
def _correct_ref : Expr → Option Expr
  | un .uaddrOf (un .uderef x) => some x
  | un .uderef (un .uaddrOf x) => some x
  | _ => none

/-- The zero constant `_correct_bitwise` fabricates: `new Val(0, lhand.size)`. -/
def zeroOf (a : Expr) : Expr := val (.num 0) (esize a)

/-- The all-ones constant `_correct_bitwise` fabricates:
`new Val((1 << lhand.size) - 1, lhand.size)`. -/
def ffOf (a : Expr) : Expr := val (.num ((ffInt (esize a) : ℤ) : ℚ)) (esize a)

/-- `_correct_bitwise`: identities on `Xor`/`Or`/`And` against the zero
and all-ones constants of the left operand's size, plus the
`(x >> c) << c → x & ~((1 << c) - 1)` rewrite.  The all-ones constant is
computed by the JavaScript expression `(1 << size) - 1`, whose shift
wraps at 32 bits. -/
def _correct_bitwise : Expr → Option Expr
  | bin .bxor a b =>
      if b = zeroOf a then some a
      else if b = a then some (zeroOf a)
      else if b = ffOf a then some (un .unot a)
      else none
  | bin .bor a b =>
      if b = zeroOf a ∨ b = a then some a
      else if b = ffOf a then some (ffOf a)
      else none
  | bin .band a b =>
      if b = zeroOf a ∨ b = a then some b
      else if b = ffOf a then some a
      else none
  | bin .bshl (bin .bshr x (val ic isz)) (val c cs) =>
      if (val ic isz : Expr) = val c cs then
        some (bin .band x (val (.num ((maskInt c : ℤ) : ℚ)) cs))
      else none
  | _ => none

/-- `_equality`: rewrites of `EQ` nodes.  When the left operand is a
binary expression with a `Value` right operand and the right-hand side is
a `Value`, `Add`/`Sub` combine the constants into a `Value` built without
a size; otherwise, when the right-hand side is a `Value` equal to zero,
`Sub` drops to a plain comparison and `Add` compares against a negation. -/
def _equality : Expr → Option Expr
  | bin .beq (bin .badd x (val c1 _)) (val c2 _) =>
      some (bin .beq x (val (jsSub c2 c1) none))
  | bin .beq (bin .bsub x (val c1 _)) (val c2 _) =>
      some (bin .beq x (val (jsAdd c2 c1) none))
  | bin .beq (bin .bsub x y) (val c2 _) =>
      if c2 = .num 0 then some (bin .beq x y) else none
  | bin .beq (bin .badd x y) (val c2 _) =>
      if c2 = .num 0 then some (bin .beq x (un .uneg y)) else none
  | _ => none

/-- `_negate`: pushes `BoolNot` inward (De Morgan, comparison inversion,
double negation, and the `!(x ± y)` heuristics). -/
def _negate : Expr → Option Expr
  | un .uboolNot (bin .bboolAnd a b) =>
      some (bin .bboolOr (un .uboolNot a) (un .uboolNot b))
  | un .uboolNot (bin .bboolOr a b) =>
      some (bin .bboolAnd (un .uboolNot a) (un .uboolNot b))
  | un .uboolNot (bin .beq a b) => some (bin .bne a b)
  | un .uboolNot (bin .bne a b) => some (bin .beq a b)
  | un .uboolNot (bin .bgt a b) => some (bin .ble a b)
  | un .uboolNot (bin .bge a b) => some (bin .blt a b)
  | un .uboolNot (bin .blt a b) => some (bin .bge a b)
  | un .uboolNot (bin .ble a b) => some (bin .bgt a b)
  | un .uboolNot (bin .badd a b) => some (bin .beq a (un .uneg b))
  | un .uboolNot (bin .bsub a b) => some (bin .beq a b)
  | un .uboolNot (un .uboolNot x) => some x
  | _ => none

/-- `_converged_cond`: merges a `BoolOr` of two comparisons over equal
operand pairs. -/
def _converged_cond : Expr → Option Expr
  | bin .bboolOr (bin .bgt x0 y0) (bin .beq x1 y1) =>
      if x0 = x1 ∧ y0 = y1 then some (bin .bge x0 y0) else none
  | bin .bboolOr (bin .blt x0 y0) (bin .beq x1 y1) =>
      if x0 = x1 ∧ y0 = y1 then some (bin .ble x0 y0) else none
  | bin .bboolOr (bin .blt x0 y0) (bin .bgt x1 y1) =>
      if x0 = x1 ∧ y0 = y1 then some (bin .bne x0 y0) else none
  | _ => none

/-- The operator table of `_constant_folding`: only `Add`, `Sub`, `Mul`,
`Div`, `Mod`, `And`, `Or`, `Xor` are folded, each with its JavaScript
semantics. -/
def foldOp? : BinOp → Option (JSNum → JSNum → JSNum)
  | .badd => some jsAdd
  | .bsub => some jsSub
  | .bmul => some jsMul
  | .bdiv => some jsDiv
  | .bmod => some jsMod
  | .band => some jsAnd
  | .bor => some jsOr
  | .bxor => some jsXor
  | _ => none

/-- `_constant_folding`: a binary expression over two `Value`s whose
operator is in the table folds to a single `Value`; the result inherits
the left operand's size.  There is no division-by-zero guard: `Div` and
`Mod` fold like every other operator, with JavaScript's `x / 0` and
`x % 0` results. -/
def _constant_folding : Expr → Option Expr
  | bin .badd (val a sa) (val b _) => some (val (jsAdd a b) sa)
  | bin .bsub (val a sa) (val b _) => some (val (jsSub a b) sa)
  | bin .bmul (val a sa) (val b _) => some (val (jsMul a b) sa)
  | bin .bdiv (val a sa) (val b _) => some (val (jsDiv a b) sa)
  | bin .bmod (val a sa) (val b _) => some (val (jsMod a b) sa)
  | bin .band (val a sa) (val b _) => some (val (jsAnd a b) sa)
  | bin .bor (val a sa) (val b _) => some (val (jsOr a b) sa)
  | bin .bxor (val a sa) (val b _) => some (val (jsXor a b) sa)
  | _ => none

/-- `_ctx_fold_assoc`: `((x op c1) op c0) → (x op (c1 op c0))` for equal
associative operators and `Value`s `c0`, `c1`. -/
def _ctx_fold_assoc : Expr → Option Expr
  | bin .badd (bin .badd x (val c1 s1)) (val c0 s0) =>
      some (bin .badd x (bin .badd (val c1 s1) (val c0 s0)))
  | bin .bmul (bin .bmul x (val c1 s1)) (val c0 s0) =>
      some (bin .bmul x (bin .bmul (val c1 s1) (val c0 s0)))
  | bin .band (bin .band x (val c1 s1)) (val c0 s0) =>
      some (bin .band x (bin .band (val c1 s1) (val c0 s0)))
  | bin .bor (bin .bor x (val c1 s1)) (val c0 s0) =>
      some (bin .bor x (bin .bor (val c1 s1) (val c0 s0)))
  | bin .bxor (bin .bxor x (val c1 s1)) (val c0 s0) =>
      some (bin .bxor x (bin .bxor (val c1 s1) (val c0 s0)))
  | _ => none

/-- `_ctx_fold_arith`: `((x op1 c1) op0 c0) → (x op0 (sign · c1 + c0))`
for `op0, op1 ∈ {Add, Sub}`, with `sign = 1` when the operators agree and
`-1` otherwise; the fresh `Value` keeps `c1`'s size. -/
def _ctx_fold_arith : Expr → Option Expr
  | bin .badd (bin .badd x (val c1 s1)) (val c0 _) =>
      some (bin .badd x (val (jsAdd (jsMul c1 (.num 1)) c0) s1))
  | bin .badd (bin .bsub x (val c1 s1)) (val c0 _) =>
      some (bin .badd x (val (jsAdd (jsMul c1 (.num (-1))) c0) s1))
  | bin .bsub (bin .badd x (val c1 s1)) (val c0 _) =>
      some (bin .bsub x (val (jsAdd (jsMul c1 (.num (-1))) c0) s1))
  | bin .bsub (bin .bsub x (val c1 s1)) (val c0 _) =>
      some (bin .bsub x (val (jsAdd (jsMul c1 (.num 1)) c0) s1))
  | _ => none

/-- The rule list, in the fixed priority order of the source. -/
def rules : List (Expr → Option Expr) :=
  [_correct_arith, _correct_sign, _correct_ref, _correct_bitwise,
   _equality, _negate, _converged_cond, _constant_folding,
   _ctx_fold_assoc, _ctx_fold_arith]

/-- Try a list of rules in order; first non-null result wins. -/
def tryRules : List (Expr → Option Expr) → Expr → Option Expr
  | [], _ => none
  | r :: rs, e =>
    match r e with
    | some e' => some e'
    | none => tryRules rs e

/-- Apply the rule list to a single node. -/
def applyRules (e : Expr) : Option Expr := tryRules rules e

/-- `_reduce_expr_once`: walk the subexpressions in post-order (children
before node, left before right) and rewrite the first node where any rule
fires, rebuilding the spine around it; `none` when no rule fires
anywhere. -/
def _reduce_expr_once : Expr → Option Expr
  | val v s => applyRules (val v s)
  | reg i s => applyRules (reg i s)
  | un op a =>
    match _reduce_expr_once a with
    | some a' => some (un op a')
    | none => applyRules (un op a)
  | bin op a b =>
    match _reduce_expr_once a with
    | some a' => some (bin op a' b)
    | none =>
      match _reduce_expr_once b with
      | some b' => some (bin op a b')
      | none => applyRules (bin op a b)

/-- Weight of an expression: a termination measure component.  `BoolNot`
doubles the weight of its operand (De Morgan trades one `BoolNot` over a
conjunction for two over its operands but halves the doubled weight);
every other node adds one. -/
def wt : Expr → ℕ
  | val _ _ => 1
  | reg _ _ => 1
  | un .uboolNot a => 2 * wt a
  | un _ a => wt a + 1
  | bin _ a b => wt a + wt b + 1

/-- Node count of an expression. -/
def esz : Expr → ℕ
  | val _ _ => 1
  | reg _ _ => 1
  | un _ a => esz a + 1
  | bin _ a b => esz a + esz b + 1

/-- Sum over all binary nodes of the node count of their left subtree:
strictly decreases under re-association. -/
def lsum : Expr → ℕ
  | val _ _ => 0
  | reg _ _ => 0
  | un _ a => lsum a
  | bin _ a b => lsum a + lsum b + esz a

/-- Number of `Value` leaves with a negative value: strictly decreases
under sign correction. -/
def negc : Expr → ℕ
  | val v _ => if jlt0 v then 1 else 0
  | reg _ _ => 0
  | un _ a => negc a
  | bin _ a b => negc a + negc b

/-- The combined termination measure for the rewriting driver. -/
def M (e : Expr) : ℕ := wt e ^ 3 + 2 * lsum e + negc e

/-- `_reduce_expr` driven by explicit fuel: repeat single-rewrite passes,
stopping as soon as a pass rewrites nothing. -/
def _reduce_fuel : ℕ → Expr → Expr
  | 0, e => e
  | n + 1, e =>
    match _reduce_expr_once e with
    | none => e
    | some e' => _reduce_fuel n e'

/-- `_reduce_expr`: keep simplifying until no rule fires anywhere (the
measure `M` strictly decreases at each pass, so `M e` passes always
suffice to reach the fixed point). -/
def _reduce_expr (e : Expr) : Expr := _reduce_fuel (M e) e

end Expr

namespace Expr

/-- The decrease relation established by every rewrite rule: either the
weight drops, or the shape is preserved and the left-subtree measure
drops with the negative-value count unchanged, or both are preserved and
the negative-value count drops. -/
def Dec (e e' : Expr) : Prop :=
  wt e' < wt e ∨
    (wt e' = wt e ∧ esz e' = esz e ∧ negc e' = negc e ∧ lsum e' < lsum e) ∨
    (wt e' = wt e ∧ esz e' = esz e ∧ lsum e' = lsum e ∧ negc e' < negc e)

/-- Every `Value` leaf of the expression carries a defined size. -/
def sizedVals : Expr → Bool
  | val _ sz => sz.isSome
  | reg _ _ => true
  | un _ a => sizedVals a
  | bin _ a b => sizedVals a && sizedVals b

end Expr


namespace Expr

/-- The operator table of `_constant_folding` as a single function, for
stating the folding-agreement law (operators outside the table are not
folded; the default arm is never used by the claims). -/
def foldFn : BinOp → JSNum → JSNum → JSNum
  | .badd => jsAdd
  | .bsub => jsSub
  | .bmul => jsMul
  | .bdiv => jsDiv
  | .bmod => jsMod
  | .band => jsAnd
  | .bor => jsOr
  | .bxor => jsXor
  | _ => fun a _ => a

end Expr
/-!
## The directed-graph / dominator-tree module

Embedding of the second half of the source file: `Directed`,
`DFSpanningTree`, `DominatorTree` (Lengauer–Tarjan), `dominates` and
`dominanceFrontier`.  Node maps are JavaScript objects keyed by node key;
per the spec, key enumeration (`Object.keys`, `iterNodes`) is in
insertion order, so they are modelled as insertion-ordered association
lists.  Nodes are mutable records referenced from several places; the
references are rendered as keys into the association list, which is
threaded through the algorithms as explicit state.  The recursions of the
source (`explore`, `AncestorWithLowestSemi`, the bucket drain,
`dominates`, `dominanceFrontier`) are given explicit fuel; the
constructions supply fuel that dominates their call depth, so the
fuel-out defaults are never reached on the runs the claims examine.
-/

namespace CFG


/-- A graph node: key, adjacency, and the scratch fields the dominator
construction stores on nodes (`dfnum`, `semi`, `ancestor`, `best`,
`idom`, `samedom`, `bucket`).  Fields that hold node references in the
source hold node keys here; `none` is JavaScript `undefined`. -/
structure GNode where
  key : ℕ
  inbound : List ℕ
  outbound : List ℕ
  dfnum : ℕ
  semi : Option ℕ
  ancestor : Option ℕ
  best : Option ℕ
  idom : Option ℕ
  samedom : Option ℕ
  bucket : List ℕ
deriving DecidableEq, Repr

/-- `new Node(key)`. -/
def mkNode (k : ℕ) : GNode :=
  ⟨k, [], [], 0, none, none, none, none, none, []⟩

/-- The node map: a JavaScript object in insertion order. -/
abbrev NodeMap := List (ℕ × GNode)

/-- `this.nodes[key] = n`: overwrite in place, or append a new key. -/
def alSet : NodeMap → ℕ → GNode → NodeMap
  | [], k, n => [(k, n)]
  | (k', n') :: rest, k, n =>
      if k' = k then (k, n) :: rest else (k', n') :: alSet rest k n

/-- Update the node stored under a key (no-op when the key is absent;
the source would fault there, and the constructions never do). -/
def alUpdate (l : NodeMap) (k : ℕ) (f : GNode → GNode) : NodeMap :=
  l.map fun p => if p.1 = k then (p.1, f p.2) else p

/-- A directed graph: node map plus optional root key. -/
structure Directed where
  nodes : NodeMap
  root : Option ℕ
deriving DecidableEq, Repr

def getNode (g : Directed) (k : ℕ) : Option GNode := List.lookup k g.nodes

/-- `addNode`. -/
def addNode (g : Directed) (k : ℕ) : Directed :=
  { g with nodes := alSet g.nodes k (mkNode k) }

/-- `addEdge([src, dst])`: push onto `src.outbound` and `dst.inbound`. -/
def addEdge (g : Directed) (e : ℕ × ℕ) : Directed :=
  let n1 := alUpdate g.nodes e.1 (fun n => { n with outbound := n.outbound ++ [e.2] })
  let n2 := alUpdate n1 e.2 (fun n => { n with inbound := n.inbound ++ [e.1] })
  { g with nodes := n2 }

/-- `setRoot`: `this.root = this.getNode(key)` (undefined when absent). -/
def setRoot (g : Directed) (k : ℕ) : Directed :=
  { g with root := if (List.lookup k g.nodes).isSome then some k else none }

/-- The `Directed(nodes, edges, root)` constructor.  `if (root)` in the
source is JavaScript truthiness, so a root key `0` is skipped. -/
def mkDirected (ns : List ℕ) (es : List (ℕ × ℕ)) (r : ℕ) : Directed :=
  let g : Directed := ⟨[], none⟩
  let g := ns.foldl addNode g
  let g := es.foldl addEdge g
  if r ≠ 0 then setRoot g r else g

def outboundOf (g : Directed) (k : ℕ) : List ℕ :=
  ((List.lookup k g.nodes).map (·.outbound)).getD []

def inboundOf (g : Directed) (k : ℕ) : List ℕ :=
  ((List.lookup k g.nodes).map (·.inbound)).getD []

/-- The recursive `explore` of `DFSpanningTree`: push the node, then walk
successors in order, recursing into unvisited ones and recording tree
edges.  State is (visited nodes in visit order, tree edges). -/
def explore (g : Directed) : ℕ → (List ℕ × List (ℕ × ℕ)) → ℕ → (List ℕ × List (ℕ × ℕ))
  | 0, st, _ => st
  | fuel + 1, st, n =>
      let st1 := (st.1 ++ [n], st.2)
      (outboundOf g n).foldl
        (fun st succ =>
          if succ ∈ st.1 then st
          else explore g fuel (st.1, st.2 ++ [(n, succ)]) succ)
        st1

/-- The depth-first spanning tree: an underlying `Directed` whose nodes
carry `dfnum`, plus the key list in DFS (pre)order. -/
structure DFSpanningTree where
  dir : Directed
  keysDfs : List ℕ
deriving DecidableEq, Repr

/-- `DFSpanningTree(g)`. -/
def mkDFST (g : Directed) : DFSpanningTree :=
  match g.root with
  | none => ⟨⟨[], none⟩, []⟩
  | some r =>
    let st := explore g (g.nodes.length + 1) ([], []) r
    let d := mkDirected st.1 st.2 (st.1.headD 0)
    let nd := (st.1.enum).foldl
      (fun nd p => alUpdate nd p.2 fun n => { n with dfnum := p.1 }) d.nodes
    ⟨{ d with nodes := nd }, st.1⟩

/-- `parent(node)` in the spanning tree: the unique tree predecessor. -/
def parentOf (nd : NodeMap) (k : ℕ) : Option ℕ :=
  (((List.lookup k nd).map (·.inbound)).getD []).head?

def dfnumOf (nd : NodeMap) (k : ℕ) : ℕ :=
  ((List.lookup k nd).map (·.dfnum)).getD 0

def semiOf (nd : NodeMap) (k : ℕ) : Option ℕ :=
  ((List.lookup k nd).map (·.semi)).getD none

def ancestorOf (nd : NodeMap) (k : ℕ) : Option ℕ :=
  ((List.lookup k nd).map (·.ancestor)).getD none

def bestOf (nd : NodeMap) (k : ℕ) : Option ℕ :=
  ((List.lookup k nd).map (·.best)).getD none

def idomOf (nd : NodeMap) (k : ℕ) : Option ℕ :=
  ((List.lookup k nd).map (·.idom)).getD none

def samedomOf (nd : NodeMap) (k : ℕ) : Option ℕ :=
  ((List.lookup k nd).map (·.samedom)).getD none

def bucketOf (nd : NodeMap) (k : ℕ) : List ℕ :=
  ((List.lookup k nd).map (·.bucket)).getD []

/-- `AncestorWithLowestSemi`, with path compression.  Reads `v.ancestor`
before recursing; after the recursion it re-reads the (compressed)
ancestor of that node, exactly as the source does. -/
def AWLS (fuel : ℕ) (nd : NodeMap) (v : ℕ) : NodeMap × ℕ :=
  match fuel with
  | 0 => (nd, (bestOf nd v).getD v)
  | fuel + 1 =>
    match ancestorOf nd v with
    | none => (nd, (bestOf nd v).getD v)
    | some a =>
      match ancestorOf nd a with
      | none => (nd, (bestOf nd v).getD v)
      | some _ =>
        let r := AWLS fuel nd a
        let nd1 := r.1
        let b := r.2
        let nd2 := alUpdate nd1 v fun n => { n with ancestor := ancestorOf nd1 a }
        let bSemi := (semiOf nd2 b).getD 0
        let vBest := (bestOf nd2 v).getD v
        let vbSemi := (semiOf nd2 vBest).getD 0
        let nd3 :=
          if dfnumOf nd2 bSemi < dfnumOf nd2 vbSemi then
            alUpdate nd2 v fun n => { n with best := some b }
          else nd2
        (nd3, (bestOf nd3 v).getD v)

/-- One pop of the `while (p.bucket.length > 0)` drain: pop the last
bucket entry `v`, compute `y = AncestorWithLowestSemi(v)` and assign
`v.idom` or `v.samedom`. -/
def drainBucket (fuelA : ℕ) : ℕ → NodeMap → ℕ → NodeMap
  | 0, nd, _ => nd
  | fuel + 1, nd, p =>
    match (bucketOf nd p).getLast? with
    | none => nd
    | some v =>
      let nd := alUpdate nd p fun n => { n with bucket := n.bucket.dropLast }
      let r := AWLS fuelA nd v
      let nd := r.1
      let y := r.2
      let nd :=
        if semiOf nd y = semiOf nd v then
          alUpdate nd v fun n => { n with idom := some p }
        else
          alUpdate nd v fun n => { n with samedom := some y }
      drainBucket fuelA fuel nd p

/-- One iteration of the main Lengauer–Tarjan loop, for the node of
dfnum `i` (processed in decreasing `i`, excluding the root). -/
def ltStep (g : Directed) (keys : List ℕ) (N : ℕ) (nd : NodeMap) (i : ℕ) : NodeMap :=
  let n := keys.getD i 0
  let p := (parentOf nd n).getD 0
  let s0 := p
  let acc := (inboundOf g n).foldl
    (fun (acc : NodeMap × ℕ) pred =>
      let nd := acc.1
      let s := acc.2
      let st :=
        if dfnumOf nd pred ≤ dfnumOf nd n then (nd, pred)
        else
          let r := AWLS N nd pred
          (r.1, (semiOf r.1 r.2).getD 0)
      if dfnumOf st.1 st.2 < dfnumOf st.1 s then (st.1, st.2) else (st.1, s))
    (nd, s0)
  let nd := acc.1
  let s := acc.2
  let nd := alUpdate nd n fun m => { m with semi := some s }
  let nd :=
    if n ∈ bucketOf nd s then nd
    else alUpdate nd s fun m => { m with bucket := m.bucket ++ [n] }
  let nd := alUpdate nd n fun m => { m with ancestor := some p, best := some n }
  drainBucket N N nd p

/-- The dominator tree: the CFG it was computed from and the rebuilt
directed graph whose fresh nodes carry `idom = inbound[0]`. -/
structure DominatorTree where
  cfg : Directed
  dir : Directed
deriving DecidableEq, Repr

/-- The `init` phase of `DominatorTree(g)`: reset the scratch fields of
every spanning-tree node. -/
def ltInit (t : DFSpanningTree) : NodeMap :=
  t.dir.nodes.map fun p =>
    (p.1, { p.2 with semi := none, ancestor := none, best := none,
                     idom := none, samedom := none, bucket := [] })

/-- The main Lengauer–Tarjan loop: `ltStep` over `i = len-1, ..., 1`. -/
def ltRun (g : Directed) (keys : List ℕ) (N len : ℕ) (nd0 : NodeMap) : NodeMap :=
  (((List.range len).drop 1).reverse).foldl (ltStep g keys N) nd0

/-- One step of the second pass: resolve a pending `samedom` link of the
node of dfnum `i` and record its `idom` edge. -/
def ltResolveStep (keys : List ℕ) (acc : NodeMap × List (ℕ × ℕ)) (i : ℕ) :
    NodeMap × List (ℕ × ℕ) :=
  let nd := acc.1
  let es := acc.2
  let n := keys.getD i 0
  let nd :=
    match samedomOf nd n with
    | some sd => alUpdate nd n fun m => { m with idom := idomOf nd sd }
    | none => nd
  (nd, es ++ [((idomOf nd n).getD 0, n)])

/-- The second pass of `DominatorTree(g)`: walk `i = 1, ..., len-1` in
DFS order, resolving `samedom` links and collecting the `idom` edges. -/
def ltResolve (keys : List ℕ) (len : ℕ) (nd1 : NodeMap) :
    NodeMap × List (ℕ × ℕ) :=
  ((List.range len).drop 1).foldl (ltResolveStep keys) (nd1, [])

/-- `DominatorTree(g)`: initialize scratch fields, run the main loop in
reverse DFS order, resolve `samedom` links in DFS order while collecting
the `idom` edges, and rebuild a `Directed` over the same keys whose
nodes carry `idom = inbound[0]`. -/
def mkDominatorTree (g : Directed) : DominatorTree :=
  let t := mkDFST g
  let keys := t.keysDfs
  let len := keys.length
  let N := len + 1
  let acc := ltResolve keys len (ltRun g keys N len (ltInit t))
  let d := mkDirected keys acc.2 (keys.headD 0)
  let d := { d with nodes := d.nodes.map fun p => (p.1, { p.2 with idom := p.2.inbound.head? }) }
  ⟨g, d⟩

/-- `dominates(v, u)`: true when `u == v`, false when `u` is the root,
else recurse on `u.idom`.  Following an undefined `idom` (which faults in
the source) returns false here; it is never reached from the claims'
inputs. -/
def dominates (dt : DominatorTree) : ℕ → ℕ → ℕ → Bool
  | 0, _, _ => false
  | fuel + 1, v, u =>
    if u = v then true
    else if some u = dt.dir.root then false
    else
      match idomOf dt.dir.nodes u with
      | some w => dominates dt fuel v w
      | none => false

/-- `dominanceFrontier(n)`, recomputed purely (the source memoizes the
same value on the node). -/
def dominanceFrontier (dt : DominatorTree) : ℕ → ℕ → List ℕ
  | 0, _ => []
  | fuel + 1, n =>
    let S1 := (outboundOf dt.cfg n).foldl
      (fun S y =>
        if idomOf dt.dir.nodes y ≠ some n then (if y ∈ S then S else S ++ [y])
        else S)
      []
    (outboundOf dt.dir n).foldl
      (fun S c =>
        (dominanceFrontier dt fuel c).foldl
          (fun S w =>
            if (¬ dominates dt (dt.dir.nodes.length + 1) n w = true) ∨ n = w then
              (if w ∈ S then S else S ++ [w])
            else S)
          S)
      S1



/-! ### Association-list infrastructure -/

/-- The key list of a node map. -/
def ndKeys (nd : NodeMap) : List ℕ := nd.map Prod.fst

/-- Outbound list stored in a node map. -/
def ndOut (nd : NodeMap) (k : ℕ) : List ℕ := ((List.lookup k nd).map (·.outbound)).getD []

/-- Inbound list stored in a node map. -/
def ndIn (nd : NodeMap) (k : ℕ) : List ℕ := ((List.lookup k nd).map (·.inbound)).getD []

/-- The tree parent induced by an edge list: source of the first edge into `k`. -/
def parentE (E : List (ℕ × ℕ)) (k : ℕ) : Option ℕ :=
  ((E.filter (fun e => e.2 = k)).head?).map Prod.fst

/-- Proper-ancestor relation of the tree induced by an edge list. -/
inductive AncE (E : List (ℕ × ℕ)) : ℕ → ℕ → Prop
  | parent {a b : ℕ} : parentE E b = some a → AncE E a b
  | step {a p b : ℕ} : parentE E b = some p → AncE E a p → AncE E a b

/-- Edge paths in a graph; `GPath g a L b` is a nonempty path from `a` to `b`
whose internal nodes are `L` in order. -/
inductive GPath (g : Directed) : ℕ → List ℕ → ℕ → Prop
  | single {a b : ℕ} : b ∈ outboundOf g a → GPath g a [] b
  | cons {a z b : ℕ} {L : List ℕ} : z ∈ outboundOf g a → GPath g z L b → GPath g a (z :: L) b

/-- One step of the `explore` fold over the successors of `n`. -/
def foldStep (g : Directed) (F : ℕ) (n : ℕ) (st : List ℕ × List (ℕ × ℕ)) (succ : ℕ) :
    List ℕ × List (ℕ × ℕ) :=
  if succ ∈ st.1 then st else explore g F (st.1, st.2 ++ [(n, succ)]) succ

/-- Number of graph keys not yet visited. -/
def remCount (g : Directed) (V : List ℕ) : ℕ :=
  ((ndKeys g.nodes).filter (fun k => decide (k ∉ V))).length

/-- Invariant carried through the successor fold of `explore`. -/
def ExpInv (g : Directed) (V : List ℕ) (n : ℕ) (Δ : List ℕ) (nE : List (ℕ × ℕ)) : Prop :=
  (n :: Δ).Nodup ∧
  (∀ x ∈ n :: Δ, x ∉ V) ∧
  (∀ x ∈ Δ, x ∈ ndKeys g.nodes) ∧
  nE.map Prod.snd = Δ ∧
  (∀ e ∈ nE, e.2 ∈ outboundOf g e.1) ∧
  (∀ l1 e l2, nE = l1 ++ e :: l2 → e.1 ∈ n :: (l1.map Prod.snd)) ∧
  (∀ x ∈ Δ, ∃ P M Q, n :: Δ = P ++ x :: M ++ Q ∧
    (∀ e ∈ nE, e.2 ∈ M → e.1 ∈ x :: M) ∧
    (∀ e ∈ nE, e.1 ∈ x :: M → e.2 ∈ M) ∧
    (∀ s, s ∈ outboundOf g x → s ∈ (V ++ P) ++ x :: M))

/-- The facts the dominator development needs about one depth-first run:
preorder key list, tree edge list, and the block (subtree-interval)
structure of the preorder. -/
structure DfsFacts (g : Directed) (r : ℕ) (keys : List ℕ) (E₀ : List (ℕ × ℕ)) : Prop where
  nodup : keys.Nodup
  headEq : keys = r :: E₀.map Prod.snd
  gedge : ∀ e ∈ E₀, e.2 ∈ outboundOf g e.1
  src_mem : ∀ e ∈ E₀, e.1 ∈ keys
  edge_idx : ∀ e ∈ E₀, keys.indexOf e.1 < keys.indexOf e.2
  closed : ∀ x ∈ keys, ∀ s ∈ outboundOf g x, s ∈ keys
  keysmem : ∀ x ∈ keys, x ∈ ndKeys g.nodes
  blocks : ∀ x ∈ keys, ∃ P M Q, keys = P ++ x :: M ++ Q ∧
    (∀ e ∈ E₀, e.2 ∈ M → e.1 ∈ x :: M) ∧
    (∀ e ∈ E₀, e.1 ∈ x :: M → e.2 ∈ M) ∧
    (∀ s ∈ outboundOf g x, s ∈ P ++ x :: M)

/-- Static facts about the node map threaded through the main loop:
key set, dfnum, and stored inbound lists never change. -/
def Static (keys : List ℕ) (E₀ : List (ℕ × ℕ)) (nd : NodeMap) : Prop :=
  (∀ k, k ∈ ndKeys nd ↔ k ∈ keys) ∧
  (∀ k ∈ keys, dfnumOf nd k = keys.indexOf k) ∧
  (∀ k, ndIn nd k = (E₀.filter (fun e => e.2 = k)).map Prod.fst)

/-- Scratch-field invariant at stage `i`: nodes of dfnum `≥ i` are processed
and carry `semi`, `ancestor` and `best` values with the stated tree/path
properties; all other nodes have these fields unset. -/
def ScrInv (g : Directed) (keys : List ℕ) (E₀ : List (ℕ × ℕ)) (i : ℕ) (nd : NodeMap) : Prop :=
  (∀ k ∈ keys, i ≤ keys.indexOf k →
     (∃ s, semiOf nd k = some s ∧ s ∈ keys ∧ keys.indexOf s < keys.indexOf k ∧
        AncE E₀ s k ∧
        ∃ L, GPath g s L k ∧ ∀ z ∈ L, z ∈ keys ∧ keys.indexOf k < keys.indexOf z) ∧
     (∃ a, ancestorOf nd k = some a ∧ AncE E₀ a k) ∧
     (∃ b, bestOf nd k = some b ∧ (b = k ∨ AncE E₀ b k) ∧ b ∈ keys ∧ i ≤ keys.indexOf b)) ∧
  (∀ k, ¬(k ∈ keys ∧ i ≤ keys.indexOf k) →
     semiOf nd k = none ∧ ancestorOf nd k = none ∧ bestOf nd k = none)

/-- Resolution invariant at stage `i`: every processed node either has its
`idom` set below it, or a `samedom` link below it, or is parked in the
bucket of its semidominator. -/
def ResInv (keys : List ℕ) (i : ℕ) (nd : NodeMap) : Prop :=
  (∀ k ∈ keys, i ≤ keys.indexOf k →
     (∃ q, idomOf nd k = some q ∧ q ∈ keys ∧ keys.indexOf q < keys.indexOf k ∧
        samedomOf nd k = none) ∨
     (∃ y, samedomOf nd k = some y ∧ y ∈ keys ∧ 1 ≤ keys.indexOf y ∧
        keys.indexOf y < keys.indexOf k) ∨
     (idomOf nd k = none ∧ samedomOf nd k = none ∧
        ∃ s, semiOf nd k = some s ∧ k ∈ bucketOf nd s)) ∧
  (∀ k, ¬(k ∈ keys ∧ i ≤ keys.indexOf k) → idomOf nd k = none ∧ samedomOf nd k = none)

/-- Bucket invariant; `j` bounds the dfnum of the pending tree child whose
step will drain each parked node (normally `j = i`). -/
def BuckInv (keys : List ℕ) (E₀ : List (ℕ × ℕ)) (i j : ℕ) (nd : NodeMap) : Prop :=
  (∀ s k, k ∈ bucketOf nd s → k ∈ keys ∧ i ≤ keys.indexOf k ∧ semiOf nd k = some s ∧
     idomOf nd k = none ∧ samedomOf nd k = none ∧
     ∃ c, parentE E₀ c = some s ∧ c ∈ keys ∧ 1 ≤ keys.indexOf c ∧ keys.indexOf c < j ∧
       keys.indexOf c ≤ keys.indexOf k) ∧
  (∀ s, (bucketOf nd s).Nodup)

/-- The full loop invariant. -/
def LtInv (g : Directed) (keys : List ℕ) (E₀ : List (ℕ × ℕ)) (i : ℕ) (nd : NodeMap) : Prop :=
  Static keys E₀ nd ∧ ScrInv g keys E₀ i nd ∧ ResInv keys i nd ∧ BuckInv keys E₀ i i nd

/-- Resolution status of one node (as maintained by the bucket drain). -/
def ResStatus (keys : List ℕ) (nd : NodeMap) (k : ℕ) : Prop :=
  (∃ q, idomOf nd k = some q ∧ q ∈ keys ∧ keys.indexOf q < keys.indexOf k ∧
     samedomOf nd k = none) ∨
  (∃ y, samedomOf nd k = some y ∧ y ∈ keys ∧ 1 ≤ keys.indexOf y ∧
     keys.indexOf y < keys.indexOf k) ∨
  (idomOf nd k = none ∧ samedomOf nd k = none ∧
     ∃ s, semiOf nd k = some s ∧ k ∈ bucketOf nd s)

/-- Bucket entry conditions without the pending-drain witness. -/
def BuckEntries (keys : List ℕ) (i : ℕ) (nd : NodeMap) : Prop :=
  ∀ s k, k ∈ bucketOf nd s → k ∈ keys ∧ i ≤ keys.indexOf k ∧ semiOf nd k = some s ∧
    idomOf nd k = none ∧ samedomOf nd k = none

/-- One step of the semidominator-candidate fold of `ltStep`. -/
def candStep (g : Directed) (N n : ℕ) (acc : NodeMap × ℕ) (pred : ℕ) : NodeMap × ℕ :=
  let nd := acc.1
  let s := acc.2
  let st :=
    if dfnumOf nd pred ≤ dfnumOf nd n then (nd, pred)
    else
      let r := AWLS N nd pred
      (r.1, (semiOf r.1 r.2).getD 0)
  if dfnumOf st.1 st.2 < dfnumOf st.1 s then (st.1, st.2) else (st.1, s)

/-- Invariant of the second (resolution) pass after the nodes of dfnum
`1, ..., j` have been processed: their `idom` points strictly above them
in DFS order, the collected edge list has exactly one `idom` edge into
each of them and no other edge, and the remaining nodes are untouched. -/
def Res2Inv (keys : List ℕ) (nd1 : NodeMap) (j : ℕ) (acc : NodeMap × List (ℕ × ℕ)) : Prop :=
  (∀ k, k ∈ ndKeys acc.1 ↔ k ∈ ndKeys nd1) ∧
  (∀ k ∈ keys, 1 ≤ keys.indexOf k → keys.indexOf k ≤ j →
     ∃ q, idomOf acc.1 k = some q ∧ q ∈ keys ∧ keys.indexOf q < keys.indexOf k) ∧
  (∀ k, ¬(k ∈ keys ∧ 1 ≤ keys.indexOf k ∧ keys.indexOf k ≤ j) →
     idomOf acc.1 k = idomOf nd1 k ∧ samedomOf acc.1 k = samedomOf nd1 k) ∧
  (∀ k ∈ keys, 1 ≤ keys.indexOf k → keys.indexOf k ≤ j →
     ∃ q, acc.2.filter (fun e => e.2 = k) = [(q, k)] ∧ q ∈ keys ∧
       keys.indexOf q < keys.indexOf k) ∧
  (∀ k, ¬(k ∈ keys ∧ 1 ≤ keys.indexOf k ∧ keys.indexOf k ≤ j) →
     acc.2.filter (fun e => e.2 = k) = [])

/-- The edge list collected by the two Lengauer–Tarjan passes inside
`mkDominatorTree`. -/
def ltEdges (g : Directed) : List (ℕ × ℕ) :=
  (ltResolve (mkDFST g).keysDfs (mkDFST g).keysDfs.length
    (ltRun g (mkDFST g).keysDfs ((mkDFST g).keysDfs.length + 1)
      (mkDFST g).keysDfs.length (ltInit (mkDFST g)))).2

/-- The dominator-tree graph rebuilt from the collected `idom` edges,
before the `idom := inbound[0]` decoration. -/
def ltBase (g : Directed) : Directed :=
  mkDirected (mkDFST g).keysDfs (ltEdges g) ((mkDFST g).keysDfs.headD 0)

end CFG

namespace Claims

open CFG

/-- The diamond control-flow graph of the spec's worked scenario: nodes
A, B, C, D rendered as keys 1, 2, 3, 4, edges A→B, A→C, B→D, C→D and
root A. -/
def diamond : Directed := mkDirected [1, 2, 3, 4] [(1, 2), (1, 3), (2, 4), (3, 4)] 1

/-- The dominator tree the construction computes for `diamond`. -/
def diamondDT : DominatorTree := mkDominatorTree diamond


end Claims


namespace JSNum

/-- `Math.abs` never returns a negative number. -/
theorem jlt0_jabs (v : JSNum) : jlt0 (jabs v) = false := by
  cases v with
  | num q => simp [jlt0, jabs, abs_nonneg, not_lt.mpr (abs_nonneg q)]
  | posInf => rfl
  | negInf => rfl
  | nan => rfl

end JSNum
namespace Expr

theorem wt_pos (e : Expr) : 0 < wt e := by
  induction e with
  | val v s => simp [wt]
  | reg i s => simp [wt]
  | un op a ih => cases op <;> (simp only [wt]; omega)
  | bin op a b iha ihb => simp [wt]

theorem esz_pos (e : Expr) : 0 < esz e := by
  induction e with
  | val v s => simp [esz]
  | reg i s => simp [esz]
  | un op a ih => simp [esz]
  | bin op a b iha ihb => simp [esz]

theorem esz_le_wt (e : Expr) : esz e ≤ wt e := by
  induction e with
  | val v s => simp [esz, wt]
  | reg i s => simp [esz, wt]
  | un op a ih => have := wt_pos a; cases op <;> simp [esz, wt] <;> omega
  | bin op a b iha ihb => simp [esz, wt]; omega

theorem lsum_le_sq (e : Expr) : lsum e ≤ esz e * esz e := by
  induction e with
  | val v s => simp [lsum]
  | reg i s => simp [lsum]
  | un op a ih => simp only [lsum, esz]; nlinarith [esz_pos a]
  | bin op a b iha ihb => simp only [lsum, esz]; nlinarith [esz_pos a, esz_pos b]

theorem negc_le_esz (e : Expr) : negc e ≤ esz e := by
  induction e with
  | val v s => simp only [negc, esz]; split <;> omega
  | reg i s => simp [negc, esz]
  | un op a ih => simp only [negc, esz]; omega
  | bin op a b iha ihb => simp only [negc, esz]; omega


theorem M_dec {e e' : Expr} (h : Dec e e') : M e' < M e := by
  rcases h with h | ⟨hw, hs, hn, hl⟩ | ⟨hw, hs, hl, hn⟩
  · have h1 : lsum e' ≤ wt e' * wt e' :=
      le_trans (lsum_le_sq e') (Nat.mul_le_mul (esz_le_wt e') (esz_le_wt e'))
    have h2 : negc e' ≤ wt e' := le_trans (negc_le_esz e') (esz_le_wt e')
    have h4 : (wt e' + 1) ^ 3 ≤ wt e ^ 3 := Nat.pow_le_pow_left h 3
    simp only [M]
    nlinarith [h1, h2, h4]
  · simp only [M]; rw [hw, hn]
    generalize wt e ^ 3 = A
    omega
  · simp only [M]; rw [hw, hl]
    generalize wt e ^ 3 = A
    omega

theorem Dec_un {a a' : Expr} (op : UnOp) (h : Dec a a') : Dec (un op a) (un op a') := by
  rcases h with h | ⟨hw, hs, hn, hl⟩ | ⟨hw, hs, hl, hn⟩ <;>
    cases op <;> (simp only [Dec, wt, esz, lsum, negc]; omega)

theorem Dec_bin_left {a a' : Expr} (op : BinOp) (b : Expr) (h : Dec a a') :
    Dec (bin op a b) (bin op a' b) := by
  rcases h with h | ⟨hw, hs, hn, hl⟩ | ⟨hw, hs, hl, hn⟩ <;>
    (simp only [Dec, wt, esz, lsum, negc]; omega)

theorem Dec_bin_right {b b' : Expr} (op : BinOp) (a : Expr) (h : Dec b b') :
    Dec (bin op a b) (bin op a b') := by
  rcases h with h | ⟨hw, hs, hn, hl⟩ | ⟨hw, hs, hl, hn⟩ <;>
    (simp only [Dec, wt, esz, lsum, negc]; omega)

end Expr

namespace Expr

theorem _correct_arith_dec {e e' : Expr} (h : _correct_arith e = some e') : Dec e e' := by
  unfold _correct_arith at h
  split at h
  all_goals try exact Option.noConfusion h
  all_goals split at h
  all_goals try exact Option.noConfusion h
  all_goals obtain rfl := Option.some.inj h
  all_goals left
  all_goals simp only [wt]
  all_goals omega

theorem _correct_sign_dec {e e' : Expr} (h : _correct_sign e = some e') : Dec e e' := by
  unfold _correct_sign at h
  split at h
  all_goals try exact Option.noConfusion h
  all_goals split at h
  all_goals try exact Option.noConfusion h
  all_goals obtain rfl := Option.some.inj h
  all_goals refine Or.inr (Or.inr ⟨by simp only [wt], by simp only [esz],
    by simp only [lsum, esz], ?_⟩)
  all_goals simp only [negc, jlt0_jabs, Bool.false_eq_true, if_false]
  all_goals rename_i hv
  all_goals rw [if_pos hv]
  all_goals omega

theorem _correct_ref_dec {e e' : Expr} (h : _correct_ref e = some e') : Dec e e' := by
  unfold _correct_ref at h
  split at h
  all_goals try exact Option.noConfusion h
  all_goals obtain rfl := Option.some.inj h
  all_goals left
  all_goals simp only [wt]
  all_goals omega

theorem _correct_bitwise_dec {e e' : Expr} (h : _correct_bitwise e = some e') : Dec e e' := by
  unfold _correct_bitwise at h
  split at h
  · -- Xor row
    rename_i a b
    split at h
    · obtain rfl := Option.some.inj h
      left
      simp only [wt]
      omega
    · split at h
      · obtain rfl := Option.some.inj h
        left
        have := wt_pos a
        simp only [zeroOf, wt]
        omega
      · split at h
        · obtain rfl := Option.some.inj h
          left
          have := wt_pos b
          simp only [wt]
          omega
        · exact Option.noConfusion h
  · -- Or row
    rename_i a b
    split at h
    · obtain rfl := Option.some.inj h
      left
      simp only [wt]
      omega
    · split at h
      · obtain rfl := Option.some.inj h
        left
        have := wt_pos a
        simp only [ffOf, wt]
        omega
      · exact Option.noConfusion h
  · -- And row
    rename_i a b
    split at h
    · obtain rfl := Option.some.inj h
      left
      simp only [wt]
      omega
    · split at h
      · obtain rfl := Option.some.inj h
        left
        simp only [wt]
        omega
      · exact Option.noConfusion h
  · -- Shl row
    split at h
    · obtain rfl := Option.some.inj h
      left
      simp only [wt]
      omega
    · exact Option.noConfusion h
  · exact Option.noConfusion h

theorem _equality_dec {e e' : Expr} (h : _equality e = some e') : Dec e e' := by
  unfold _equality at h
  split at h
  all_goals try exact Option.noConfusion h
  all_goals try split at h
  all_goals try exact Option.noConfusion h
  all_goals obtain rfl := Option.some.inj h
  all_goals left
  all_goals simp only [wt]
  all_goals omega

theorem _negate_dec {e e' : Expr} (h : _negate e = some e') : Dec e e' := by
  unfold _negate at h
  split at h
  all_goals try exact Option.noConfusion h
  all_goals obtain rfl := Option.some.inj h
  all_goals try (left; simp only [wt]; omega)
  · -- BoolNot(Add) row
    rename_i a b
    left
    have := wt_pos a
    simp only [wt]
    omega
  · -- double BoolNot row
    rename_i x
    left
    have := wt_pos x
    simp only [wt]
    omega

theorem _converged_cond_dec {e e' : Expr} (h : _converged_cond e = some e') : Dec e e' := by
  unfold _converged_cond at h
  split at h
  all_goals try exact Option.noConfusion h
  all_goals split at h
  all_goals try exact Option.noConfusion h
  all_goals obtain rfl := Option.some.inj h
  all_goals left
  all_goals simp only [wt]
  all_goals omega

theorem _constant_folding_dec {e e' : Expr} (h : _constant_folding e = some e') : Dec e e' := by
  unfold _constant_folding at h
  split at h
  all_goals try exact Option.noConfusion h
  all_goals obtain rfl := Option.some.inj h
  all_goals left
  all_goals simp only [wt]
  all_goals omega

theorem _ctx_fold_assoc_dec {e e' : Expr} (h : _ctx_fold_assoc e = some e') : Dec e e' := by
  unfold _ctx_fold_assoc at h
  split at h
  all_goals try exact Option.noConfusion h
  all_goals obtain rfl := Option.some.inj h
  all_goals refine Or.inr (Or.inl ⟨by simp only [wt]; try omega,
    by simp only [esz]; try omega, by simp only [negc]; ring, ?_⟩)
  all_goals simp only [lsum, esz]
  all_goals omega

theorem _ctx_fold_arith_dec {e e' : Expr} (h : _ctx_fold_arith e = some e') : Dec e e' := by
  unfold _ctx_fold_arith at h
  split at h
  all_goals try exact Option.noConfusion h
  all_goals obtain rfl := Option.some.inj h
  all_goals left
  all_goals simp only [wt]
  all_goals omega

theorem tryRules_dec (rs : List (Expr → Option Expr))
    (hall : ∀ r ∈ rs, ∀ e e', r e = some e' → Dec e e') :
    ∀ e e', tryRules rs e = some e' → Dec e e' := by
  induction rs with
  | nil => intro e e' h; exact Option.noConfusion h
  | cons r rs ih =>
    intro e e' h
    simp only [tryRules] at h
    cases hr : r e with
    | some x =>
      rw [hr] at h
      obtain rfl := Option.some.inj h
      exact hall r (List.mem_cons_self r rs) e x hr
    | none =>
      rw [hr] at h
      exact ih (fun r' hr' => hall r' (List.mem_cons_of_mem r hr')) e e' h

theorem applyRules_dec {e e' : Expr} (h : applyRules e = some e') : Dec e e' := by
  refine tryRules_dec rules ?_ e e' h
  intro r hr e1 e2 h1
  simp only [rules, List.mem_cons, List.not_mem_nil, or_false] at hr
  rcases hr with rfl | rfl | rfl | rfl | rfl | rfl | rfl | rfl | rfl | rfl
  exacts [_correct_arith_dec h1, _correct_sign_dec h1, _correct_ref_dec h1,
    _correct_bitwise_dec h1, _equality_dec h1, _negate_dec h1,
    _converged_cond_dec h1, _constant_folding_dec h1,
    _ctx_fold_assoc_dec h1, _ctx_fold_arith_dec h1]

/-- A single rewriting pass strictly decreases the measure triple. -/
theorem _reduce_expr_once_dec {e e' : Expr} (h : _reduce_expr_once e = some e') :
    Dec e e' := by
  induction e generalizing e' with
  | val v s => exact applyRules_dec h
  | reg i s => exact applyRules_dec h
  | un op a ih =>
    simp only [_reduce_expr_once] at h
    cases ha : _reduce_expr_once a with
    | some a' =>
      rw [ha] at h
      obtain rfl := Option.some.inj h
      exact Dec_un op (ih ha)
    | none =>
      rw [ha] at h
      exact applyRules_dec h
  | bin op a b iha ihb =>
    simp only [_reduce_expr_once] at h
    cases ha : _reduce_expr_once a with
    | some a' =>
      rw [ha] at h
      obtain rfl := Option.some.inj h
      exact Dec_bin_left op b (iha ha)
    | none =>
      rw [ha] at h
      cases hb : _reduce_expr_once b with
      | some b' =>
        rw [hb] at h
        obtain rfl := Option.some.inj h
        exact Dec_bin_right op a (ihb hb)
      | none =>
        rw [hb] at h
        exact applyRules_dec h

theorem M_pos (e : Expr) : 0 < M e := by
  have := pow_pos (wt_pos e) 3
  simp only [M]
  omega

theorem _reduce_fuel_of_none {e : Expr} (h : _reduce_expr_once e = none) (n : ℕ) :
    _reduce_fuel n e = e := by
  cases n with
  | zero => rfl
  | succ n => simp only [_reduce_fuel, h]

/-- `M e` passes of the driver always reach the fixed point. -/
theorem fuel_adequate : ∀ (n : ℕ) (e : Expr), M e ≤ n →
    _reduce_expr_once (_reduce_fuel n e) = none := by
  intro n
  induction n with
  | zero => intro e hM; exact absurd hM (by have := M_pos e; omega)
  | succ n ih =>
    intro e hM
    cases he : _reduce_expr_once e with
    | none =>
      rw [_reduce_fuel_of_none he]
      exact he
    | some e' =>
      have hlt : M e' < M e := M_dec (_reduce_expr_once_dec he)
      simp only [_reduce_fuel, he]
      exact ih e' (by omega)

/-- No rule fires anywhere in the result of `_reduce_expr`. -/
theorem _reduce_expr_fix (e : Expr) : _reduce_expr_once (_reduce_expr e) = none :=
  fuel_adequate (M e) e le_rfl

theorem _reduce_expr_of_none {e : Expr} (h : _reduce_expr_once e = none) :
    _reduce_expr e = e := _reduce_fuel_of_none h (M e)

theorem fuel_mono : ∀ (n m : ℕ) (e : Expr), M e ≤ n → n ≤ m →
    _reduce_fuel n e = _reduce_fuel m e := by
  intro n
  induction n with
  | zero => intro m e hM _; exact absurd hM (by have := M_pos e; omega)
  | succ n ih =>
    intro m e hM hnm
    cases m with
    | zero => omega
    | succ m =>
      cases he : _reduce_expr_once e with
      | none => rw [_reduce_fuel_of_none he, _reduce_fuel_of_none he]
      | some e' =>
        have hlt : M e' < M e := M_dec (_reduce_expr_once_dec he)
        simp only [_reduce_fuel, he]
        exact ih m e' (by omega) (by omega)

/-- Rewriting one pass and then reducing gives the same result as
reducing the original expression. -/
theorem _reduce_expr_step {e e' : Expr} (h : _reduce_expr_once e = some e') :
    _reduce_expr e = _reduce_expr e' := by
  unfold _reduce_expr
  obtain ⟨k, hk⟩ : ∃ k, M e = k + 1 := ⟨M e - 1, by have := M_pos e; omega⟩
  have hlt : M e' < M e := M_dec (_reduce_expr_once_dec h)
  rw [hk]
  simp only [_reduce_fuel, h]
  exact (fuel_mono (M e') k e' le_rfl (by omega)).symm

end Expr

namespace Expr

theorem applyRules_val (v : JSNum) (s : Option ℕ) : applyRules (val v s) = none := rfl

theorem applyRules_reg (i s : ℕ) : applyRules (reg i s) = none := rfl

theorem _reduce_expr_once_val (v : JSNum) (s : Option ℕ) :
    _reduce_expr_once (val v s) = none := rfl

theorem _reduce_expr_once_reg (i s : ℕ) : _reduce_expr_once (reg i s) = none := rfl

theorem _reduce_expr_val (v : JSNum) (s : Option ℕ) : _reduce_expr (val v s) = val v s :=
  _reduce_expr_of_none (_reduce_expr_once_val v s)

theorem _reduce_expr_reg (i s : ℕ) : _reduce_expr (reg i s) = reg i s :=
  _reduce_expr_of_none (_reduce_expr_once_reg i s)

end Expr

namespace Claims

open Expr

/-- C1 counterexample: on `Div(Value(5, 32), Value(0, 32))` the
`constant_folding` rule does fire (it returns a replacement), and
`reduce_expr` does not leave the expression unchanged: it folds it to
`Value(Infinity, 32)`. -/
theorem c1_div_by_zero_counterexample :
    _constant_folding
        (bin .bdiv (val (num 5) (some 32)) (val (num 0) (some 32))) ≠ none ∧
    _reduce_expr (bin .bdiv (val (num 5) (some 32)) (val (num 0) (some 32))) ≠
      bin .bdiv (val (num 5) (some 32)) (val (num 0) (some 32)) := by
  constructor <;> decide

/-- C1 amended: for every `Div` or `Mod` whose operands are `Value`s and
whose right operand's value is `0`, `constant_folding` does fire:
`reduce_expr` folds `Div` to a `Value` carrying `+∞`, `-∞` or `NaN`
according to the dividend's sign, and `Mod` to a `Value` carrying `NaN`;
the result inherits the left operand's size.  No exception is raised
(JavaScript division by zero produces these values silently). -/
theorem c1_div_by_zero_folds (q : ℚ) (sa sb : Option ℕ) :
    _reduce_expr (bin .bdiv (val (num q) sa) (val (num 0) sb)) =
      val (if 0 < q then posInf else if q < 0 then negInf else nan) sa ∧
    _reduce_expr (bin .bmod (val (num q) sa) (val (num 0) sb)) = val nan sa := by
  have hdiv : _reduce_expr_once (bin .bdiv (val (num q) sa) (val (num 0) sb)) =
      some (val (jsDiv (num q) (num 0)) sa) := by
    simp [_reduce_expr_once, applyRules, rules, tryRules, _correct_arith,
      _correct_sign, _correct_ref, _correct_bitwise, _equality, _negate,
      _converged_cond, _constant_folding, _ctx_fold_assoc, _ctx_fold_arith, jlt0]
  have hmod : _reduce_expr_once (bin .bmod (val (num q) sa) (val (num 0) sb)) =
      some (val (jsMod (num q) (num 0)) sa) := by
    simp [_reduce_expr_once, applyRules, rules, tryRules, _correct_arith,
      _correct_sign, _correct_ref, _correct_bitwise, _equality, _negate,
      _converged_cond, _constant_folding, _ctx_fold_assoc, _ctx_fold_arith, jlt0]
  constructor
  · rw [_reduce_expr_step hdiv, _reduce_expr_val]
    simp [jsDiv]
  · rw [_reduce_expr_step hmod, _reduce_expr_val]
    simp [jsMod]

/-- C5: for every finite expression tree, the fixed-point loop of
`reduce_expr` terminates: some number of single-rewrite passes reaches a
tree on which no rule fires anywhere, and `_reduce_expr` itself lands on
such a tree. -/
theorem c5_reduce_expr_terminates (e : Expr) :
    (∃ n, _reduce_expr_once (_reduce_fuel n e) = none) ∧
    _reduce_expr_once (_reduce_expr e) = none :=
  ⟨⟨M e, fuel_adequate (M e) e le_rfl⟩, _reduce_expr_fix e⟩

/-- C6: `reduce_expr` is idempotent — re-reducing an already reduced tree
performs no rewrite, so the result is structurally unchanged. -/
theorem c6_reduce_expr_idempotent (e : Expr) :
    _reduce_expr (_reduce_expr e) = _reduce_expr e :=
  _reduce_expr_of_none (_reduce_expr_fix e)

/-- C7 counterexample: for the reducible left operand
`x = Add(Value(1, 32), Value(1, 32))`, `reduce_expr(Add(x, Value(0, 32)))`
yields `Value(2, 32)`, which is not structurally equal to `x`. -/
theorem c7_identity_counterexample :
    _reduce_expr (bin .badd
        (bin .badd (val (num 1) (some 32)) (val (num 1) (some 32)))
        (val (num 0) (some 32))) ≠
      bin .badd (val (num 1) (some 32)) (val (num 1) (some 32)) := by
  decide

/-- C7 amended: for every expression `x` and width `w`,
`reduce_expr(Add(x, Value(0, w)))` equals `reduce_expr(x)` (the identity
is eliminated, but the left operand is itself reduced as well; the result
equals `x` itself exactly when `x` is already fully reduced). -/
theorem c7_identity_elimination (x : Expr) (w : ℕ) :
    _reduce_expr (bin .badd x (val (num 0) (some w))) = _reduce_expr x := by
  obtain ⟨n, hn⟩ : ∃ n, M x ≤ n := ⟨M x, le_rfl⟩
  induction n generalizing x with
  | zero => exact absurd hn (by have := M_pos x; omega)
  | succ n ih =>
    cases hx : _reduce_expr_once x with
    | some x' =>
      have h1 : _reduce_expr_once (bin .badd x (val (num 0) (some w))) =
          some (bin .badd x' (val (num 0) (some w))) := by
        simp only [_reduce_expr_once, hx]
      rw [_reduce_expr_step h1, _reduce_expr_step hx]
      exact ih x' (by have := M_dec (_reduce_expr_once_dec hx); omega)
    | none =>
      have h1 : _reduce_expr_once (bin .badd x (val (num 0) (some w))) = some x := by
        simp only [_reduce_expr_once, hx, _reduce_expr_once_val]
        simp [applyRules, rules, tryRules, _correct_arith, _correct_sign,
          _correct_ref, _correct_bitwise, _equality, _negate, _converged_cond,
          _constant_folding, _ctx_fold_assoc, _ctx_fold_arith, jlt0]
      rw [_reduce_expr_step h1, _reduce_expr_of_none hx]

end Claims

namespace Expr

/-- For widths up to 30 the JavaScript mask computation is exact. -/
theorem ffInt_small {s : ℕ} (hs : s ≤ 30) : ffInt (some s) = 2 ^ s - 1 := by
  have h32 : s % 32 = s := Nat.mod_eq_of_lt (by omega)
  have hn : (2 : ℤ) ^ s = ((2 ^ s : ℕ) : ℤ) := by push_cast; ring
  have hlt31 : 2 ^ s < 2 ^ 31 :=
    lt_of_le_of_lt (Nat.pow_le_pow_right (by norm_num) hs) (by norm_num)
  have hlt32 : ((2 ^ s : ℕ) : ℤ) < 2 ^ 32 := by
    exact_mod_cast lt_of_le_of_lt (Nat.pow_le_pow_right (by norm_num) hs)
      (by norm_num : (2 : ℕ) ^ 30 < 2 ^ 32)
  simp only [ffInt, toInt32I, toUint32, ofUint32, h32, hn]
  rw [Int.emod_eq_of_lt (by positivity) hlt32, Int.toNat_natCast, if_pos hlt31]

end Expr

namespace Claims

open Expr

/-- C2 counterexample: for `size = 32` the computed mask `(1 << 32) - 1`
is `0`, not `2^32 - 1`, and `Xor(x, Value(2^32 - 1, 32))` is left alone
instead of being rewritten to `Not(x)`. -/
theorem c2_mask_counterexample :
    ffInt (some 32) ≠ 2 ^ 32 - 1 ∧
    _reduce_expr (bin .bxor (reg 0 32) (val (num ((2 ^ 32 - 1 : ℤ) : ℚ)) (some 32))) ≠
      un .unot (reg 0 32) := by
  constructor <;> decide

/-- C2 amended: the all-ones mask equals `2^size - 1` only for widths
`1 ≤ size ≤ 30` (the shift in `(1 << size) - 1` wraps at 32 bits, so for
`size ∈ {31, 32, 64}` — in particular 32 and 64 — the computed mask is
wrong and the all-ones `Xor` is not rewritten); within that range a `Xor`
whose right operand is the all-ones `Value` of the left operand's size is
rewritten to `Not(left)`. -/
theorem c2_all_ones_mask (s i : ℕ) (h1 : 1 ≤ s) (h2 : s ≤ 30) :
    ffInt (some s) = 2 ^ s - 1 ∧
    _reduce_expr (bin .bxor (reg i s) (val (num ((2 ^ s - 1 : ℤ) : ℚ)) (some s))) =
      un .unot (reg i s) := by
  have hff := ffInt_small h2
  have h6 : (2 : ℚ) ^ 1 ≤ 2 ^ s := pow_le_pow_right₀ (by norm_num) h1
  have hne0 : ((2 ^ s - 1 : ℤ) : ℚ) ≠ 0 := by
    intro hcon
    push_cast at hcon
    norm_num at h6
    linarith
  have hne0' : ¬((2 : ℚ) ^ s - 1 = 0) := by
    intro hcon
    norm_num at h6
    linarith
  refine ⟨hff, ?_⟩
  have hstep : _reduce_expr_once
      (bin .bxor (reg i s) (val (num ((2 ^ s - 1 : ℤ) : ℚ)) (some s))) =
      some (un .unot (reg i s)) := by
    simp only [_reduce_expr_once, _reduce_expr_once_reg, _reduce_expr_once_val]
    simp only [applyRules, rules, tryRules, _correct_arith, _correct_sign,
      _correct_ref, _correct_bitwise, _equality, _negate, _converged_cond,
      _constant_folding, _ctx_fold_assoc, _ctx_fold_arith]
    simp [zeroOf, ffOf, esize, hff, hne0, hne0', sub_eq_zero]
  rw [_reduce_expr_step hstep]
  have hnone : _reduce_expr_once (un .unot (reg i s)) = none := by
    simp [_reduce_expr_once, _reduce_expr_once_reg, applyRules, rules, tryRules,
      _correct_arith, _correct_sign, _correct_ref, _correct_bitwise, _equality,
      _negate, _converged_cond, _constant_folding, _ctx_fold_assoc,
      _ctx_fold_arith]
  exact _reduce_expr_of_none hnone

/-- C2 witness: the amended statement at the concrete width 8. -/
theorem c2_all_ones_mask_witness :
    ffInt (some 8) = 2 ^ 8 - 1 ∧
    _reduce_expr (bin .bxor (reg 0 8) (val (num ((2 ^ 8 - 1 : ℤ) : ℚ)) (some 8))) =
      un .unot (reg 0 8) :=
  c2_all_ones_mask 8 0 (by norm_num) (by norm_num)

/-- C8: the three rewrites of the `equality` rule fire exactly as
specified, as ordered cases of the rule: constants on `Add`/`Sub` are
combined into the right-hand side (the fresh `Value` carries the combined
number), and `EQ(Sub(x, y), Value(0))` with a non-`Value` `y` becomes
`EQ(x, y)`; in particular `reduce_expr(EQ(Sub(x, y), Value(0, 32)))`
yields `EQ(x, y)` for leaf unknowns `x`, `y`. -/
theorem c8_equality_rule (x : Expr) (c1 c2 : JSNum) (s1 s2 : Option ℕ) :
    _equality (bin .beq (bin .badd x (val c1 s1)) (val c2 s2)) =
      some (bin .beq x (val (jsSub c2 c1) none)) ∧
    _equality (bin .beq (bin .bsub x (val c1 s1)) (val c2 s2)) =
      some (bin .beq x (val (jsAdd c2 c1) none)) ∧
    (∀ y : Expr, (∀ v sz, y ≠ val v sz) → ∀ s0 : Option ℕ,
      _equality (bin .beq (bin .bsub x y) (val (num 0) s0)) =
        some (bin .beq x y)) ∧
    (∀ i j si sj : ℕ,
      _reduce_expr (bin .beq (bin .bsub (reg i si) (reg j sj)) (val (num 0) (some 32))) =
        bin .beq (reg i si) (reg j sj)) := by
  refine ⟨rfl, rfl, ?_, ?_⟩
  · intro y hy s0
    cases y with
    | val v sz => exact absurd rfl (hy v sz)
    | reg j sj => simp [_equality]
    | un op a => simp [_equality]
    | bin op a b => simp [_equality]
  · intro i j si sj
    have hstep : _reduce_expr_once
        (bin .beq (bin .bsub (reg i si) (reg j sj)) (val (num 0) (some 32))) =
        some (bin .beq (reg i si) (reg j sj)) := by
      simp [_reduce_expr_once, _reduce_expr_once_reg, _reduce_expr_once_val,
        applyRules, rules, tryRules, _correct_arith, _correct_sign, _correct_ref,
        _correct_bitwise, _equality, _negate, _converged_cond, _constant_folding,
        _ctx_fold_assoc, _ctx_fold_arith]
    rw [_reduce_expr_step hstep]
    have hnone : _reduce_expr_once (bin .beq (reg i si) (reg j sj)) = none := by
      simp [_reduce_expr_once, _reduce_expr_once_reg, applyRules, rules, tryRules,
        _correct_arith, _correct_sign, _correct_ref, _correct_bitwise, _equality,
        _negate, _converged_cond, _constant_folding, _ctx_fold_assoc,
        _ctx_fold_arith]
    exact _reduce_expr_of_none hnone

/-- C8 witness: the guarded third rewrite and the `reduce_expr` scenario
at concrete inputs. -/
theorem c8_equality_rule_witness :
    _equality (bin .beq (bin .bsub (reg 0 32) (reg 1 32)) (val (num 0) (some 32))) =
      some (bin .beq (reg 0 32) (reg 1 32)) ∧
    _reduce_expr (bin .beq (bin .bsub (reg 0 32) (reg 1 32)) (val (num 0) (some 32))) =
      bin .beq (reg 0 32) (reg 1 32) :=
  ⟨(c8_equality_rule (reg 0 32) nan nan none none).2.2.1 (reg 1 32)
      (fun _ _ h => Expr.noConfusion h) (some 32),
    (c8_equality_rule (reg 0 32) nan nan none none).2.2.2 0 1 32 32⟩

end Claims

namespace Expr


theorem esize_isSome {e : Expr} (h : sizedVals e = true) : (esize e).isSome = true := by
  induction e with
  | val v s => simpa [sizedVals, esize] using h
  | reg i s => simp [esize]
  | un op a ih =>
    simp only [sizedVals] at h
    simp only [esize]
    exact ih h
  | bin op a b iha ihb =>
    simp only [sizedVals, Bool.and_eq_true] at h
    simp only [esize]
    exact iha h.1

theorem _correct_arith_sized {e e' : Expr} (h : _correct_arith e = some e')
    (hs : sizedVals e = true) : sizedVals e' = true := by
  unfold _correct_arith at h
  split at h
  all_goals try exact Option.noConfusion h
  all_goals split at h
  all_goals try exact Option.noConfusion h
  all_goals obtain rfl := Option.some.inj h
  all_goals simp_all [sizedVals]

theorem _correct_sign_sized {e e' : Expr} (h : _correct_sign e = some e')
    (hs : sizedVals e = true) : sizedVals e' = true := by
  unfold _correct_sign at h
  split at h
  all_goals try exact Option.noConfusion h
  all_goals split at h
  all_goals try exact Option.noConfusion h
  all_goals obtain rfl := Option.some.inj h
  all_goals simp_all [sizedVals]

theorem _correct_ref_sized {e e' : Expr} (h : _correct_ref e = some e')
    (hs : sizedVals e = true) : sizedVals e' = true := by
  unfold _correct_ref at h
  split at h
  all_goals try exact Option.noConfusion h
  all_goals obtain rfl := Option.some.inj h
  all_goals simp_all [sizedVals]

theorem _correct_bitwise_sized {e e' : Expr} (h : _correct_bitwise e = some e')
    (hs : sizedVals e = true) : sizedVals e' = true := by
  unfold _correct_bitwise at h
  split at h
  · rename_i a b
    split at h
    · obtain rfl := Option.some.inj h
      simp_all [sizedVals]
    · split at h
      · obtain rfl := Option.some.inj h
        simp only [sizedVals, Bool.and_eq_true] at hs
        simp only [zeroOf, sizedVals]
        exact esize_isSome hs.1
      · split at h
        · obtain rfl := Option.some.inj h
          simp_all [sizedVals]
        · exact Option.noConfusion h
  · rename_i a b
    split at h
    · obtain rfl := Option.some.inj h
      simp_all [sizedVals]
    · split at h
      · obtain rfl := Option.some.inj h
        simp only [sizedVals, Bool.and_eq_true] at hs
        simp only [ffOf, sizedVals]
        exact esize_isSome hs.1
      · exact Option.noConfusion h
  · rename_i a b
    split at h
    · obtain rfl := Option.some.inj h
      simp_all [sizedVals]
    · split at h
      · obtain rfl := Option.some.inj h
        simp_all [sizedVals]
      · exact Option.noConfusion h
  · split at h
    · obtain rfl := Option.some.inj h
      simp_all [sizedVals]
    · exact Option.noConfusion h
  · exact Option.noConfusion h

theorem _negate_sized {e e' : Expr} (h : _negate e = some e')
    (hs : sizedVals e = true) : sizedVals e' = true := by
  unfold _negate at h
  split at h
  all_goals try exact Option.noConfusion h
  all_goals obtain rfl := Option.some.inj h
  all_goals simp_all [sizedVals]

theorem _converged_cond_sized {e e' : Expr} (h : _converged_cond e = some e')
    (hs : sizedVals e = true) : sizedVals e' = true := by
  unfold _converged_cond at h
  split at h
  all_goals try exact Option.noConfusion h
  all_goals split at h
  all_goals try exact Option.noConfusion h
  all_goals obtain rfl := Option.some.inj h
  all_goals simp_all [sizedVals]

theorem _constant_folding_sized {e e' : Expr} (h : _constant_folding e = some e')
    (hs : sizedVals e = true) : sizedVals e' = true := by
  unfold _constant_folding at h
  split at h
  all_goals try exact Option.noConfusion h
  all_goals obtain rfl := Option.some.inj h
  all_goals simp_all [sizedVals]

theorem _ctx_fold_assoc_sized {e e' : Expr} (h : _ctx_fold_assoc e = some e')
    (hs : sizedVals e = true) : sizedVals e' = true := by
  unfold _ctx_fold_assoc at h
  split at h
  all_goals try exact Option.noConfusion h
  all_goals obtain rfl := Option.some.inj h
  all_goals simp_all [sizedVals]

theorem _ctx_fold_arith_sized {e e' : Expr} (h : _ctx_fold_arith e = some e')
    (hs : sizedVals e = true) : sizedVals e' = true := by
  unfold _ctx_fold_arith at h
  split at h
  all_goals try exact Option.noConfusion h
  all_goals obtain rfl := Option.some.inj h
  all_goals simp_all [sizedVals]

end Expr

namespace Claims

open Expr

/-- C10: the constant `Value`s produced by the equality rule's
constant-combining rewrites are constructed without a size argument (the
size slot of the fresh `Value` is `none`, i.e. undefined), while every
other rule preserves the invariant that all `Value`s carry a defined
size. -/
theorem c10_equality_value_without_size :
    (∀ (x : Expr) (c1 c2 : JSNum) (s1 s2 : Option ℕ),
      _equality (bin .beq (bin .badd x (val c1 s1)) (val c2 s2)) =
        some (bin .beq x (val (jsSub c2 c1) none)) ∧
      _equality (bin .beq (bin .bsub x (val c1 s1)) (val c2 s2)) =
        some (bin .beq x (val (jsAdd c2 c1) none))) ∧
    (∀ e e' : Expr, _correct_arith e = some e' →
      sizedVals e = true → sizedVals e' = true) ∧
    (∀ e e' : Expr, _correct_sign e = some e' →
      sizedVals e = true → sizedVals e' = true) ∧
    (∀ e e' : Expr, _correct_ref e = some e' →
      sizedVals e = true → sizedVals e' = true) ∧
    (∀ e e' : Expr, _correct_bitwise e = some e' →
      sizedVals e = true → sizedVals e' = true) ∧
    (∀ e e' : Expr, _negate e = some e' →
      sizedVals e = true → sizedVals e' = true) ∧
    (∀ e e' : Expr, _converged_cond e = some e' →
      sizedVals e = true → sizedVals e' = true) ∧
    (∀ e e' : Expr, _constant_folding e = some e' →
      sizedVals e = true → sizedVals e' = true) ∧
    (∀ e e' : Expr, _ctx_fold_assoc e = some e' →
      sizedVals e = true → sizedVals e' = true) ∧
    (∀ e e' : Expr, _ctx_fold_arith e = some e' →
      sizedVals e = true → sizedVals e' = true) :=
  ⟨fun _ _ _ _ _ => ⟨rfl, rfl⟩,
   fun _ _ h hs => _correct_arith_sized h hs,
   fun _ _ h hs => _correct_sign_sized h hs,
   fun _ _ h hs => _correct_ref_sized h hs,
   fun _ _ h hs => _correct_bitwise_sized h hs,
   fun _ _ h hs => _negate_sized h hs,
   fun _ _ h hs => _converged_cond_sized h hs,
   fun _ _ h hs => _constant_folding_sized h hs,
   fun _ _ h hs => _ctx_fold_assoc_sized h hs,
   fun _ _ h hs => _ctx_fold_arith_sized h hs⟩

/-- C10 witness: the equality rule produces a size-less `Value` on a
concrete fully-sized input, while `correct_arith` preserves sized
`Value`s on a concrete input. -/
theorem c10_equality_value_without_size_witness :
    _equality (bin .beq (bin .badd (reg 0 32) (val (num 3) (some 32)))
        (val (num 7) (some 32))) =
      some (bin .beq (reg 0 32) (val (jsSub (num 7) (num 3)) none)) ∧
    sizedVals (reg 1 8) = true :=
  ⟨(c10_equality_value_without_size.1 (reg 0 32) (num 3) (num 7)
      (some 32) (some 32)).1,
    c10_equality_value_without_size.2.1
      (bin .badd (reg 1 8) (val (num 0) (some 8))) (reg 1 8)
      (by decide) (by decide)⟩

end Claims

namespace JSNum

theorem jtrunc_natCast (n : ℕ) : jtrunc (n : ℚ) = n := by
  simp [jtrunc, Rat.num_natCast, Rat.den_natCast, Int.tdiv_one]

theorem toUint32_natCast (n : ℕ) : toUint32 (n : ℤ) = n % 2 ^ 32 := by
  simp only [toUint32]
  norm_cast

theorem bits32_natCast (n : ℕ) : bits32 (num (n : ℚ)) = n % 2 ^ 32 := by
  simp [bits32, jtrunc_natCast, toUint32_natCast]

theorem ofUint32_small {n : ℕ} (h : n < 2 ^ 31) : ofUint32 n = n := if_pos h

theorem jsAdd_zero (a : JSNum) : jsAdd a (num 0) = a := by
  cases a <;> simp [jsAdd]

theorem jsSub_zero (a : JSNum) : jsSub a (num 0) = a := by
  cases a <;> simp [jsSub]

theorem jsMul_one (a : JSNum) : jsMul a (num 1) = a := by
  cases a <;> norm_num [jsMul]

theorem jabs_ne_zero {b : JSNum} (hb : jlt0 b = true) : jabs b ≠ num 0 := by
  cases b with
  | num q =>
    simp only [jlt0, decide_eq_true_eq] at hb
    simp only [jabs, ne_eq, num.injEq]
    intro hcon
    rw [abs_eq_zero] at hcon
    exact absurd hcon (by linarith)
  | posInf => simp [jlt0] at hb
  | negInf => simp [jabs]
  | nan => simp [jlt0] at hb

theorem jlt0_jabs_false {b : JSNum} : jlt0 (jabs b) = false := jlt0_jabs b

theorem jsSub_jabs (a b : JSNum) (hb : jlt0 b = true) : jsSub a (jabs b) = jsAdd a b := by
  cases a <;> cases b <;>
    simp_all [jsSub, jsAdd, jabs, jlt0, abs_of_neg, sub_neg_eq_add]

theorem jsAdd_jabs (a b : JSNum) (hb : jlt0 b = true) : jsAdd a (jabs b) = jsSub a b := by
  cases a <;> cases b <;>
    simp_all [jsSub, jsAdd, jabs, jlt0, abs_of_neg, sub_neg_eq_add, sub_eq_add_neg]

theorem lor_two_pow_sub_one_of_lt {x n : ℕ} (h : x < 2 ^ n) :
    x ||| (2 ^ n - 1) = 2 ^ n - 1 := by
  apply Nat.eq_of_testBit_eq
  intro i
  simp only [Nat.testBit_or, Nat.testBit_two_pow_sub_one]
  by_cases hi : i < n
  · simp [hi]
  · have hx : x.testBit i = false :=
      Nat.testBit_lt_two_pow
        (lt_of_lt_of_le h (Nat.pow_le_pow_right (by norm_num) (by omega)))
    simp [hi, hx]

end JSNum

namespace Claims

open Expr

/-- Folding agreement for the plain arithmetic operators: no earlier rule
disagrees with the fold (identity elimination and sign correction commute
with it). -/
theorem c3_arith_ops (op : BinOp) (hop : op = .badd ∨ op = .bsub ∨ op = .bmul)
    (a b : JSNum) (sa sb : Option ℕ) :
    _reduce_expr (bin op (val a sa) (val b sb)) = val (foldFn op a b) sa := by
  rcases hop with rfl | rfl | rfl
  · by_cases hb0 : b = num 0
    · subst hb0
      have hstep : _reduce_expr_once (bin .badd (val a sa) (val (num 0) sb)) =
          some (val a sa) := by
        simp [_reduce_expr_once, _reduce_expr_once_val, applyRules_val, applyRules, rules,
          tryRules, _correct_arith, _correct_sign, _correct_ref,
          _correct_bitwise, _equality, _negate, _converged_cond,
          _constant_folding, _ctx_fold_assoc, _ctx_fold_arith, jlt0]
      rw [_reduce_expr_step hstep, _reduce_expr_val]
      simp [foldFn, jsAdd_zero]
    · by_cases hneg : jlt0 b = true
      · have hstep1 : _reduce_expr_once (bin .badd (val a sa) (val b sb)) =
            some (bin .bsub (val a sa) (val (jabs b) sb)) := by
          simp [_reduce_expr_once, _reduce_expr_once_val, applyRules_val, applyRules, rules,
            tryRules, _correct_arith, _correct_sign, _correct_ref,
            _correct_bitwise, _equality, _negate, _converged_cond,
            _constant_folding, _ctx_fold_assoc, _ctx_fold_arith, hb0, hneg]
        have hstep2 : _reduce_expr_once (bin .bsub (val a sa) (val (jabs b) sb)) =
            some (val (jsSub a (jabs b)) sa) := by
          simp [_reduce_expr_once, _reduce_expr_once_val, applyRules_val, applyRules, rules,
            tryRules, _correct_arith, _correct_sign, _correct_ref,
            _correct_bitwise, _equality, _negate, _converged_cond,
            _constant_folding, _ctx_fold_assoc, _ctx_fold_arith,
            jabs_ne_zero hneg, jlt0_jabs]
        rw [_reduce_expr_step hstep1, _reduce_expr_step hstep2, _reduce_expr_val]
        simp [foldFn, jsSub_jabs a b hneg]
      · have hneg' : jlt0 b = false := by revert hneg; cases jlt0 b <;> simp
        have hstep : _reduce_expr_once (bin .badd (val a sa) (val b sb)) =
            some (val (jsAdd a b) sa) := by
          simp [_reduce_expr_once, _reduce_expr_once_val, applyRules_val, applyRules, rules,
            tryRules, _correct_arith, _correct_sign, _correct_ref,
            _correct_bitwise, _equality, _negate, _converged_cond,
            _constant_folding, _ctx_fold_assoc, _ctx_fold_arith, hb0, hneg']
        rw [_reduce_expr_step hstep, _reduce_expr_val]
        rfl
  · by_cases hb0 : b = num 0
    · subst hb0
      have hstep : _reduce_expr_once (bin .bsub (val a sa) (val (num 0) sb)) =
          some (val a sa) := by
        simp [_reduce_expr_once, _reduce_expr_once_val, applyRules_val, applyRules, rules,
          tryRules, _correct_arith, _correct_sign, _correct_ref,
          _correct_bitwise, _equality, _negate, _converged_cond,
          _constant_folding, _ctx_fold_assoc, _ctx_fold_arith, jlt0]
      rw [_reduce_expr_step hstep, _reduce_expr_val]
      simp [foldFn, jsSub_zero]
    · by_cases hneg : jlt0 b = true
      · have hstep1 : _reduce_expr_once (bin .bsub (val a sa) (val b sb)) =
            some (bin .badd (val a sa) (val (jabs b) sb)) := by
          simp [_reduce_expr_once, _reduce_expr_once_val, applyRules_val, applyRules, rules,
            tryRules, _correct_arith, _correct_sign, _correct_ref,
            _correct_bitwise, _equality, _negate, _converged_cond,
            _constant_folding, _ctx_fold_assoc, _ctx_fold_arith, hb0, hneg]
        have hstep2 : _reduce_expr_once (bin .badd (val a sa) (val (jabs b) sb)) =
            some (val (jsAdd a (jabs b)) sa) := by
          simp [_reduce_expr_once, _reduce_expr_once_val, applyRules_val, applyRules, rules,
            tryRules, _correct_arith, _correct_sign, _correct_ref,
            _correct_bitwise, _equality, _negate, _converged_cond,
            _constant_folding, _ctx_fold_assoc, _ctx_fold_arith,
            jabs_ne_zero hneg, jlt0_jabs]
        rw [_reduce_expr_step hstep1, _reduce_expr_step hstep2, _reduce_expr_val]
        simp [foldFn, jsAdd_jabs a b hneg]
      · have hneg' : jlt0 b = false := by revert hneg; cases jlt0 b <;> simp
        have hstep : _reduce_expr_once (bin .bsub (val a sa) (val b sb)) =
            some (val (jsSub a b) sa) := by
          simp [_reduce_expr_once, _reduce_expr_once_val, applyRules_val, applyRules, rules,
            tryRules, _correct_arith, _correct_sign, _correct_ref,
            _correct_bitwise, _equality, _negate, _converged_cond,
            _constant_folding, _ctx_fold_assoc, _ctx_fold_arith, hb0, hneg']
        rw [_reduce_expr_step hstep, _reduce_expr_val]
        rfl
  · by_cases hb1 : b = num 1
    · subst hb1
      have hstep : _reduce_expr_once (bin .bmul (val a sa) (val (num 1) sb)) =
          some (val a sa) := by
        simp [_reduce_expr_once, _reduce_expr_once_val, applyRules_val, applyRules, rules,
          tryRules, _correct_arith, _correct_sign, _correct_ref,
          _correct_bitwise, _equality, _negate, _converged_cond,
          _constant_folding, _ctx_fold_assoc, _ctx_fold_arith, jlt0]
      rw [_reduce_expr_step hstep, _reduce_expr_val]
      simp [foldFn, jsMul_one]
    · have hstep : _reduce_expr_once (bin .bmul (val a sa) (val b sb)) =
          some (val (jsMul a b) sa) := by
        simp [_reduce_expr_once, _reduce_expr_once_val, applyRules_val, applyRules, rules,
          tryRules, _correct_arith, _correct_sign, _correct_ref,
          _correct_bitwise, _equality, _negate, _converged_cond,
          _constant_folding, _ctx_fold_assoc, _ctx_fold_arith, hb1]
      rw [_reduce_expr_step hstep, _reduce_expr_val]
      rfl

end Claims

namespace Expr

theorem _reduce_expr_once_vv (op : BinOp) (a b : JSNum) (sa sb : Option ℕ) :
    _reduce_expr_once (bin op (val a sa) (val b sb)) =
      applyRules (bin op (val a sa) (val b sb)) := by
  simp only [_reduce_expr_once, applyRules_val]

theorem applyRules_of_bitwise {e x : Expr} (h1 : _correct_arith e = none)
    (h2 : _correct_sign e = none) (h3 : _correct_ref e = none)
    (h4 : _correct_bitwise e = some x) : applyRules e = some x := by
  simp only [applyRules, rules, tryRules, h1, h2, h3, h4]

theorem applyRules_of_folding {e x : Expr} (h1 : _correct_arith e = none)
    (h2 : _correct_sign e = none) (h3 : _correct_ref e = none)
    (h4 : _correct_bitwise e = none) (h5 : _equality e = none)
    (h6 : _negate e = none) (h7 : _converged_cond e = none)
    (h8 : _constant_folding e = some x) : applyRules e = some x := by
  simp only [applyRules, rules, tryRules, h1, h2, h3, h4, h5, h6, h7, h8]

end Expr

namespace JSNum

theorem bits32_zero : bits32 (num 0) = 0 := rfl

theorem ofUint32_zero : ofUint32 0 = 0 := by norm_num [ofUint32]

theorem jsAnd_zero_r (a : JSNum) : jsAnd a (num 0) = num 0 := by
  simp [jsAnd, bits32_zero, ofUint32_zero]

theorem jsOr_zero_r (x : ℕ) (h : x < 2 ^ 31) : jsOr (num (x : ℚ)) (num 0) = num (x : ℚ) := by
  have h32 : x < 2 ^ 32 := lt_of_lt_of_le h (by norm_num)
  simp only [jsOr, bits32_natCast, bits32_zero, Nat.or_zero, Nat.mod_eq_of_lt h32,
    ofUint32_small h, Int.cast_natCast]

theorem jsXor_zero_r (x : ℕ) (h : x < 2 ^ 31) : jsXor (num (x : ℚ)) (num 0) = num (x : ℚ) := by
  have h32 : x < 2 ^ 32 := lt_of_lt_of_le h (by norm_num)
  simp only [jsXor, bits32_natCast, bits32_zero, Nat.xor_zero, Nat.mod_eq_of_lt h32,
    ofUint32_small h, Int.cast_natCast]

theorem jsAnd_self_n (x : ℕ) (h : x < 2 ^ 31) :
    jsAnd (num (x : ℚ)) (num (x : ℚ)) = num (x : ℚ) := by
  have h32 : x < 2 ^ 32 := lt_of_lt_of_le h (by norm_num)
  simp only [jsAnd, bits32_natCast, Nat.mod_eq_of_lt h32, Nat.and_self,
    ofUint32_small h, Int.cast_natCast]

theorem jsOr_self_n (x : ℕ) (h : x < 2 ^ 31) :
    jsOr (num (x : ℚ)) (num (x : ℚ)) = num (x : ℚ) := by
  have h32 : x < 2 ^ 32 := lt_of_lt_of_le h (by norm_num)
  simp only [jsOr, bits32_natCast, Nat.mod_eq_of_lt h32, Nat.or_self,
    ofUint32_small h, Int.cast_natCast]

theorem jsXor_self_n (x : ℕ) (h : x < 2 ^ 32) :
    jsXor (num (x : ℚ)) (num (x : ℚ)) = num 0 := by
  simp only [jsXor, bits32_natCast, Nat.mod_eq_of_lt h, Nat.xor_self,
    ofUint32_zero, Int.cast_zero]

theorem jsAnd_mask (x u : ℕ) (hx : x < 2 ^ u) (hu : u ≤ 30) :
    jsAnd (num (x : ℚ)) (num ((2 ^ u - 1 : ℕ) : ℚ)) = num (x : ℚ) := by
  have hu32 : (2 : ℕ) ^ u ≤ 2 ^ 30 := Nat.pow_le_pow_right (by norm_num) hu
  have hx31 : x < 2 ^ 31 := by omega
  have hx32 : x < 2 ^ 32 := by omega
  have hm32 : 2 ^ u - 1 < 2 ^ 32 := by omega
  simp only [jsAnd, bits32_natCast, Nat.mod_eq_of_lt hx32, Nat.mod_eq_of_lt hm32,
    Nat.and_pow_two_sub_one_of_lt_two_pow hx, ofUint32_small hx31, Int.cast_natCast]

theorem jsOr_mask (x u : ℕ) (hx : x < 2 ^ u) (hu : u ≤ 30) :
    jsOr (num (x : ℚ)) (num ((2 ^ u - 1 : ℕ) : ℚ)) = num ((2 ^ u - 1 : ℕ) : ℚ) := by
  have hu32 : (2 : ℕ) ^ u ≤ 2 ^ 30 := Nat.pow_le_pow_right (by norm_num) hu
  have hx32 : x < 2 ^ 32 := by omega
  have hm31 : 2 ^ u - 1 < 2 ^ 31 := by omega
  have hm32 : 2 ^ u - 1 < 2 ^ 32 := by omega
  simp only [jsOr, bits32_natCast, Nat.mod_eq_of_lt hx32, Nat.mod_eq_of_lt hm32,
    lor_two_pow_sub_one_of_lt hx, ofUint32_small hm31, Int.cast_natCast]

end JSNum

namespace Claims

open Expr

/-- Folding agreement for the bitwise operators in range: the zero,
idempotence and all-ones identity rewrites of `correct_bitwise` coincide
with the JavaScript fold, except for `Xor` against the all-ones mask,
which is excluded. -/
theorem c3_bitwise_ops (op : BinOp) (hop : op = .band ∨ op = .bor ∨ op = .bxor)
    (va vb s t : ℕ) (hva : va < 2 ^ s) (hs31 : s ≤ 31)
    (hxff : op = .bxor →
      ¬((val (num (vb : ℚ)) (some t) : Expr) =
          ffOf (val (num (va : ℚ)) (some s)))) :
    _reduce_expr (bin op (val (num (va : ℚ)) (some s)) (val (num (vb : ℚ)) (some t))) =
      val (foldFn op (num (va : ℚ)) (num (vb : ℚ))) (some s) := by
  have hva31 : va < 2 ^ 31 :=
    lt_of_lt_of_le hva (Nat.pow_le_pow_right (by norm_num) hs31)
  have hva32 : va < 2 ^ 32 := lt_of_lt_of_le hva31 (by norm_num)
  rcases hop with rfl | rfl | rfl
  · -- And
    by_cases h1 : (val (num (vb : ℚ)) (some t) : Expr) =
        zeroOf (val (num (va : ℚ)) (some s))
    · have h4 : _correct_bitwise
          (bin .band (val (num (va : ℚ)) (some s)) (val (num (vb : ℚ)) (some t))) =
          some (val (num (vb : ℚ)) (some t)) := by
        simp only [_correct_bitwise]
        rw [if_pos (Or.inl h1)]
      have hstep : _reduce_expr_once
          (bin .band (val (num (va : ℚ)) (some s)) (val (num (vb : ℚ)) (some t))) =
          some (val (num (vb : ℚ)) (some t)) := by
        rw [_reduce_expr_once_vv]
        exact applyRules_of_bitwise rfl rfl rfl h4
      rw [_reduce_expr_step hstep, _reduce_expr_val]
      simp only [zeroOf, esize, val.injEq, num.injEq, Option.some.injEq] at h1
      obtain ⟨hvb, ht⟩ := h1
      have ht2 : s = t := ht.symm
      subst ht2
      rw [hvb]
      simp only [foldFn]
      rw [jsAnd_zero_r]
    · by_cases h2 : (val (num (vb : ℚ)) (some t) : Expr) =
          val (num (va : ℚ)) (some s)
      · have h4 : _correct_bitwise
            (bin .band (val (num (va : ℚ)) (some s)) (val (num (vb : ℚ)) (some t))) =
            some (val (num (vb : ℚ)) (some t)) := by
          simp only [_correct_bitwise]
          rw [if_pos (Or.inr h2)]
        have hstep : _reduce_expr_once
            (bin .band (val (num (va : ℚ)) (some s)) (val (num (vb : ℚ)) (some t))) =
            some (val (num (vb : ℚ)) (some t)) := by
          rw [_reduce_expr_once_vv]
          exact applyRules_of_bitwise rfl rfl rfl h4
        rw [_reduce_expr_step hstep, _reduce_expr_val]
        simp only [val.injEq, num.injEq, Option.some.injEq] at h2
        obtain ⟨hvb, ht⟩ := h2
        have ht2 : s = t := ht.symm
        subst ht2
        rw [hvb]
        simp only [foldFn]
        rw [jsAnd_self_n va hva31]
      · by_cases h3 : (val (num (vb : ℚ)) (some t) : Expr) =
            ffOf (val (num (va : ℚ)) (some s))
        · have h4 : _correct_bitwise
              (bin .band (val (num (va : ℚ)) (some s)) (val (num (vb : ℚ)) (some t))) =
              some (val (num (va : ℚ)) (some s)) := by
            simp only [_correct_bitwise]
            rw [if_neg (not_or.mpr ⟨h1, h2⟩), if_pos h3]
          have hstep : _reduce_expr_once
              (bin .band (val (num (va : ℚ)) (some s)) (val (num (vb : ℚ)) (some t))) =
              some (val (num (va : ℚ)) (some s)) := by
            rw [_reduce_expr_once_vv]
            exact applyRules_of_bitwise rfl rfl rfl h4
          rw [_reduce_expr_step hstep, _reduce_expr_val]
          simp only [ffOf, esize, val.injEq, num.injEq, Option.some.injEq] at h3
          obtain ⟨hvb, ht⟩ := h3
          have ht2 : s = t := ht.symm
          subst ht2
          have hz : (vb : ℤ) = ffInt (some s) := by exact_mod_cast hvb
          rcases Nat.lt_or_ge s 31 with hs30 | hs31'
          · have h2s : 1 ≤ 2 ^ s := Nat.one_le_two_pow
            have hcast : ((2 ^ s - 1 : ℕ) : ℤ) = ffInt (some s) := by
              rw [ffInt_small (by omega), Nat.cast_sub h2s]
              push_cast
              ring
            have hvbq : (vb : ℚ) = ((2 ^ s - 1 : ℕ) : ℚ) := by
              rw [hvb, ← hcast]
              rw [Int.cast_natCast]
            rw [hvbq]
            simp only [foldFn]
            rw [jsAnd_mask va s hva (by omega)]
          · have hseq : s = 31 := le_antisymm hs31 hs31'
            subst hseq
            rw [show ffInt (some 31) = -2147483649 from by decide] at hz
            have := Int.natCast_nonneg vb
            omega
        · have h4 : _correct_bitwise
              (bin .band (val (num (va : ℚ)) (some s)) (val (num (vb : ℚ)) (some t))) =
              none := by
            simp only [_correct_bitwise]
            rw [if_neg (not_or.mpr ⟨h1, h2⟩), if_neg h3]
          have hstep : _reduce_expr_once
              (bin .band (val (num (va : ℚ)) (some s)) (val (num (vb : ℚ)) (some t))) =
              some (val (jsAnd (num (va : ℚ)) (num (vb : ℚ))) (some s)) := by
            rw [_reduce_expr_once_vv]
            exact applyRules_of_folding rfl rfl rfl h4 rfl rfl rfl rfl
          rw [_reduce_expr_step hstep, _reduce_expr_val]
          rfl
  · -- Or
    by_cases h1 : (val (num (vb : ℚ)) (some t) : Expr) =
        zeroOf (val (num (va : ℚ)) (some s))
    · have h4 : _correct_bitwise
          (bin .bor (val (num (va : ℚ)) (some s)) (val (num (vb : ℚ)) (some t))) =
          some (val (num (va : ℚ)) (some s)) := by
        simp only [_correct_bitwise]
        rw [if_pos (Or.inl h1)]
      have hstep : _reduce_expr_once
          (bin .bor (val (num (va : ℚ)) (some s)) (val (num (vb : ℚ)) (some t))) =
          some (val (num (va : ℚ)) (some s)) := by
        rw [_reduce_expr_once_vv]
        exact applyRules_of_bitwise rfl rfl rfl h4
      rw [_reduce_expr_step hstep, _reduce_expr_val]
      simp only [zeroOf, esize, val.injEq, num.injEq, Option.some.injEq] at h1
      obtain ⟨hvb, ht⟩ := h1
      have ht2 : s = t := ht.symm
      subst ht2
      rw [hvb]
      simp only [foldFn]
      rw [jsOr_zero_r va hva31]
    · by_cases h2 : (val (num (vb : ℚ)) (some t) : Expr) =
          val (num (va : ℚ)) (some s)
      · have h4 : _correct_bitwise
            (bin .bor (val (num (va : ℚ)) (some s)) (val (num (vb : ℚ)) (some t))) =
            some (val (num (va : ℚ)) (some s)) := by
          simp only [_correct_bitwise]
          rw [if_pos (Or.inr h2)]
        have hstep : _reduce_expr_once
            (bin .bor (val (num (va : ℚ)) (some s)) (val (num (vb : ℚ)) (some t))) =
            some (val (num (va : ℚ)) (some s)) := by
          rw [_reduce_expr_once_vv]
          exact applyRules_of_bitwise rfl rfl rfl h4
        rw [_reduce_expr_step hstep, _reduce_expr_val]
        simp only [val.injEq, num.injEq, Option.some.injEq] at h2
        obtain ⟨hvb, ht⟩ := h2
        have ht2 : s = t := ht.symm
        subst ht2
        rw [hvb]
        simp only [foldFn]
        rw [jsOr_self_n va hva31]
      · by_cases h3 : (val (num (vb : ℚ)) (some t) : Expr) =
            ffOf (val (num (va : ℚ)) (some s))
        · have h4 : _correct_bitwise
              (bin .bor (val (num (va : ℚ)) (some s)) (val (num (vb : ℚ)) (some t))) =
              some (ffOf (val (num (va : ℚ)) (some s))) := by
            simp only [_correct_bitwise]
            rw [if_neg (not_or.mpr ⟨h1, h2⟩), if_pos h3]
          have hstep : _reduce_expr_once
              (bin .bor (val (num (va : ℚ)) (some s)) (val (num (vb : ℚ)) (some t))) =
              some (ffOf (val (num (va : ℚ)) (some s))) := by
            rw [_reduce_expr_once_vv]
            exact applyRules_of_bitwise rfl rfl rfl h4
          rw [_reduce_expr_step hstep]
          simp only [ffOf, esize]
          rw [_reduce_expr_val]
          simp only [ffOf, esize, val.injEq, num.injEq, Option.some.injEq] at h3
          obtain ⟨hvb, ht⟩ := h3
          have ht2 : s = t := ht.symm
          subst ht2
          have hz : (vb : ℤ) = ffInt (some s) := by exact_mod_cast hvb
          rcases Nat.lt_or_ge s 31 with hs30 | hs31'
          · have h2s : 1 ≤ 2 ^ s := Nat.one_le_two_pow
            have hcast : ((2 ^ s - 1 : ℕ) : ℤ) = ffInt (some s) := by
              rw [ffInt_small (by omega), Nat.cast_sub h2s]
              push_cast
              ring
            have hvbq : (vb : ℚ) = ((2 ^ s - 1 : ℕ) : ℚ) := by
              rw [hvb, ← hcast]
              rw [Int.cast_natCast]
            rw [hvbq]
            simp only [foldFn]
            rw [jsOr_mask va s hva (by omega)]
            rw [show ((ffInt (some s) : ℤ) : ℚ) = ((2 ^ s - 1 : ℕ) : ℚ) from by
              rw [← hcast, Int.cast_natCast]]
          · have hseq : s = 31 := le_antisymm hs31 hs31'
            subst hseq
            rw [show ffInt (some 31) = -2147483649 from by decide] at hz
            have := Int.natCast_nonneg vb
            omega
        · have h4 : _correct_bitwise
              (bin .bor (val (num (va : ℚ)) (some s)) (val (num (vb : ℚ)) (some t))) =
              none := by
            simp only [_correct_bitwise]
            rw [if_neg (not_or.mpr ⟨h1, h2⟩), if_neg h3]
          have hstep : _reduce_expr_once
              (bin .bor (val (num (va : ℚ)) (some s)) (val (num (vb : ℚ)) (some t))) =
              some (val (jsOr (num (va : ℚ)) (num (vb : ℚ))) (some s)) := by
            rw [_reduce_expr_once_vv]
            exact applyRules_of_folding rfl rfl rfl h4 rfl rfl rfl rfl
          rw [_reduce_expr_step hstep, _reduce_expr_val]
          rfl
  · -- Xor
    have h3 : ¬((val (num (vb : ℚ)) (some t) : Expr) =
        ffOf (val (num (va : ℚ)) (some s))) := hxff rfl
    by_cases h1 : (val (num (vb : ℚ)) (some t) : Expr) =
        zeroOf (val (num (va : ℚ)) (some s))
    · have h4 : _correct_bitwise
          (bin .bxor (val (num (va : ℚ)) (some s)) (val (num (vb : ℚ)) (some t))) =
          some (val (num (va : ℚ)) (some s)) := by
        simp only [_correct_bitwise]
        rw [if_pos h1]
      have hstep : _reduce_expr_once
          (bin .bxor (val (num (va : ℚ)) (some s)) (val (num (vb : ℚ)) (some t))) =
          some (val (num (va : ℚ)) (some s)) := by
        rw [_reduce_expr_once_vv]
        exact applyRules_of_bitwise rfl rfl rfl h4
      rw [_reduce_expr_step hstep, _reduce_expr_val]
      simp only [zeroOf, esize, val.injEq, num.injEq, Option.some.injEq] at h1
      obtain ⟨hvb, ht⟩ := h1
      have ht2 : s = t := ht.symm
      subst ht2
      rw [hvb]
      simp only [foldFn]
      rw [jsXor_zero_r va hva31]
    · by_cases h2 : (val (num (vb : ℚ)) (some t) : Expr) =
          val (num (va : ℚ)) (some s)
      · have h4 : _correct_bitwise
            (bin .bxor (val (num (va : ℚ)) (some s)) (val (num (vb : ℚ)) (some t))) =
            some (zeroOf (val (num (va : ℚ)) (some s))) := by
          simp only [_correct_bitwise]
          rw [if_neg h1, if_pos h2]
        have hstep : _reduce_expr_once
            (bin .bxor (val (num (va : ℚ)) (some s)) (val (num (vb : ℚ)) (some t))) =
            some (zeroOf (val (num (va : ℚ)) (some s))) := by
          rw [_reduce_expr_once_vv]
          exact applyRules_of_bitwise rfl rfl rfl h4
        rw [_reduce_expr_step hstep]
        simp only [zeroOf, esize]
        rw [_reduce_expr_val]
        simp only [val.injEq, num.injEq, Option.some.injEq] at h2
        obtain ⟨hvb, ht⟩ := h2
        have ht2 : s = t := ht.symm
        subst ht2
        rw [hvb]
        simp only [foldFn]
        rw [jsXor_self_n va hva32]
      · have h4 : _correct_bitwise
            (bin .bxor (val (num (va : ℚ)) (some s)) (val (num (vb : ℚ)) (some t))) =
            none := by
          simp only [_correct_bitwise]
          rw [if_neg h1, if_neg h2, if_neg h3]
        have hstep : _reduce_expr_once
            (bin .bxor (val (num (va : ℚ)) (some s)) (val (num (vb : ℚ)) (some t))) =
            some (val (jsXor (num (va : ℚ)) (num (vb : ℚ))) (some s)) := by
          rw [_reduce_expr_once_vv]
          exact applyRules_of_folding rfl rfl rfl h4 rfl rfl rfl rfl
        rw [_reduce_expr_step hstep, _reduce_expr_val]
        rfl

end Claims

namespace Claims

open Expr

/-- C3 counterexample: for `a = Value(5, 8)`, `b = Value(255, 8)` (255 is
the all-ones mask for width 8), `reduce_expr(Xor(a, b))` yields
`Not(Value(5, 8))` — not the single `Value` the claim promises. -/
theorem c3_folding_counterexample :
    _reduce_expr (bin .bxor (val (num 5) (some 8)) (val (num 255) (some 8))) =
      un .unot (val (num 5) (some 8)) ∧
    _reduce_expr (bin .bxor (val (num 5) (some 8)) (val (num 255) (some 8))) ≠
      val (foldFn .bxor (num 5) (num 255)) (some 8) := by
  constructor <;> decide

/-- C3 amended: folding agreement, with `op` the JavaScript operator
semantics of the folding table.  For `Add`, `Sub`, `Mul` it holds for all
`Value` operands.  For `And`, `Or`, `Xor` it holds for natural values
with the left value in range for its size and size at most 31, except
that `Xor` whose right operand equals the fabricated all-ones `Value`
rewrites to `Not(left)` instead and is excluded. -/
theorem c3_folding_agreement :
    (∀ op : BinOp, (op = .badd ∨ op = .bsub ∨ op = .bmul) →
      ∀ (a b : JSNum) (sa sb : Option ℕ),
        _reduce_expr (bin op (val a sa) (val b sb)) = val (foldFn op a b) sa) ∧
    (∀ op : BinOp, (op = .band ∨ op = .bor ∨ op = .bxor) →
      ∀ va vb s t : ℕ, va < 2 ^ s → s ≤ 31 →
        (op = .bxor →
          ¬((val (num (vb : ℚ)) (some t) : Expr) =
              ffOf (val (num (va : ℚ)) (some s)))) →
        _reduce_expr
            (bin op (val (num (va : ℚ)) (some s)) (val (num (vb : ℚ)) (some t))) =
          val (foldFn op (num (va : ℚ)) (num (vb : ℚ))) (some s)) :=
  ⟨fun op hop a b sa sb => c3_arith_ops op hop a b sa sb,
   fun op hop va vb s t h1 h2 h3 => c3_bitwise_ops op hop va vb s t h1 h2 h3⟩

/-- C3 witness: folding agreement at concrete inputs for `Add` and for an
in-range `Xor` that is not the all-ones case. -/
theorem c3_folding_agreement_witness :
    _reduce_expr (bin .badd (val (num 2) (some 32)) (val (num 3) (some 32))) =
      val (foldFn .badd (num 2) (num 3)) (some 32) ∧
    _reduce_expr (bin .bxor (val (num ((5 : ℕ) : ℚ)) (some 8))
        (val (num ((250 : ℕ) : ℚ)) (some 8))) =
      val (foldFn .bxor (num ((5 : ℕ) : ℚ)) (num ((250 : ℕ) : ℚ))) (some 8) :=
  ⟨c3_folding_agreement.1 .badd (Or.inl rfl) (num 2) (num 3) (some 32) (some 32),
   c3_folding_agreement.2 .bxor (Or.inr (Or.inr rfl)) 5 250 8 8 (by norm_num)
     (by norm_num) (fun _ => by decide)⟩

end Claims

namespace CFG

theorem ndKeys_alSet (l : NodeMap) (k : ℕ) (n : GNode) :
    ndKeys (alSet l k n) = if k ∈ ndKeys l then ndKeys l else ndKeys l ++ [k] := by
  induction l with
  | nil => simp [ndKeys, alSet]
  | cons p rest ih =>
    by_cases h : p.1 = k
    · subst h
      simp [ndKeys, alSet]
    · simp only [alSet, if_neg h, ndKeys, List.map_cons, List.mem_cons]
      simp only [ndKeys] at ih
      rw [ih]
      by_cases h2 : k ∈ rest.map Prod.fst
      · simp [h2, Ne.symm h]
      · simp [h2, Ne.symm h]

theorem lookup_alSet_self (l : NodeMap) (k : ℕ) (n : GNode) :
    List.lookup k (alSet l k n) = some n := by
  induction l with
  | nil => simp [alSet, List.lookup]
  | cons p rest ih =>
    by_cases h : p.1 = k
    · subst h; simp [alSet, List.lookup]
    · simp only [alSet, if_neg h, List.lookup]
      rw [show (k == p.1) = false from beq_eq_false_iff_ne.mpr (fun hc => h hc.symm)]
      exact ih

theorem lookup_alSet_ne (l : NodeMap) (k k' : ℕ) (n : GNode) (h : k' ≠ k) :
    List.lookup k' (alSet l k n) = List.lookup k' l := by
  induction l with
  | nil =>
    simp only [alSet, List.lookup]
    rw [show (k' == k) = false from beq_eq_false_iff_ne.mpr h]
  | cons p rest ih =>
    by_cases h2 : p.1 = k
    · subst h2
      simp only [alSet, if_pos rfl, List.lookup]
      rw [show (k' == p.1) = false from beq_eq_false_iff_ne.mpr h]
    · simp only [alSet, if_neg h2, List.lookup]
      cases hb : (k' == p.1) <;> simp [ih]

theorem ndKeys_alUpdate (l : NodeMap) (k : ℕ) (f : GNode → GNode) :
    ndKeys (alUpdate l k f) = ndKeys l := by
  simp only [ndKeys, alUpdate, List.map_map]
  congr 1
  funext p
  by_cases h : p.1 = k <;> simp [h]

theorem lookup_alUpdate_self (l : NodeMap) (k : ℕ) (f : GNode → GNode) :
    List.lookup k (alUpdate l k f) = (List.lookup k l).map f := by
  induction l with
  | nil => simp [alUpdate, List.lookup]
  | cons p rest ih =>
    simp only [alUpdate, List.map_cons]
    by_cases h : p.1 = k
    · subst h
      rw [if_pos rfl]
      simp [List.lookup]
    · rw [if_neg h]
      simp only [List.lookup]
      rw [show (k == p.1) = false from beq_eq_false_iff_ne.mpr (fun hc => h hc.symm)]
      simpa [alUpdate] using ih

theorem lookup_alUpdate_ne (l : NodeMap) (k k' : ℕ) (f : GNode → GNode) (h : k' ≠ k) :
    List.lookup k' (alUpdate l k f) = List.lookup k' l := by
  induction l with
  | nil => simp [alUpdate, List.lookup]
  | cons p rest ih =>
    simp only [alUpdate, List.map_cons]
    by_cases h2 : p.1 = k
    · subst h2
      rw [if_pos rfl]
      simp only [List.lookup]
      rw [show (k' == p.1) = false from beq_eq_false_iff_ne.mpr h]
      simpa [alUpdate] using ih
    · rw [if_neg h2]
      simp only [List.lookup]
      cases hb : (k' == p.1)
      · simpa [alUpdate] using ih
      · simp [alUpdate]

theorem lookup_isSome_iff_mem (nd : NodeMap) (k : ℕ) :
    (List.lookup k nd).isSome = true ↔ k ∈ ndKeys nd := by
  induction nd with
  | nil => simp [List.lookup, ndKeys]
  | cons p rest ih =>
    simp only [List.lookup, ndKeys, List.map_cons, List.mem_cons]
    by_cases h : k = p.1
    · simp [h]
    · rw [show (k == p.1) = false from beq_eq_false_iff_ne.mpr h]
      simp only [ndKeys] at ih
      simp [ih, h]


/-! ### Projection frame lemmas -/

theorem dfnumOf_alUpdate_frame (nd : NodeMap) (k : ℕ) (f : GNode → GNode)
    (h : ∀ m, (f m).dfnum = m.dfnum) (q : ℕ) :
    dfnumOf (alUpdate nd k f) q = dfnumOf nd q := by
  by_cases hk : q = k
  · subst hk
    simp only [dfnumOf, lookup_alUpdate_self]
    cases List.lookup q nd <;> simp [h]
  · simp [dfnumOf, lookup_alUpdate_ne _ _ _ _ hk]

theorem dfnumOf_alUpdate_self (nd : NodeMap) (k : ℕ) (f : GNode → GNode) (m : GNode)
    (h : List.lookup k nd = some m) :
    dfnumOf (alUpdate nd k f) k = (f m).dfnum := by
  simp [dfnumOf, lookup_alUpdate_self, h]

theorem dfnumOf_alUpdate_ne (nd : NodeMap) (k q : ℕ) (f : GNode → GNode) (h : q ≠ k) :
    dfnumOf (alUpdate nd k f) q = dfnumOf nd q := by
  simp [dfnumOf, lookup_alUpdate_ne _ _ _ _ h]

theorem semiOf_alUpdate_frame (nd : NodeMap) (k : ℕ) (f : GNode → GNode)
    (h : ∀ m, (f m).semi = m.semi) (q : ℕ) :
    semiOf (alUpdate nd k f) q = semiOf nd q := by
  by_cases hk : q = k
  · subst hk
    simp only [semiOf, lookup_alUpdate_self]
    cases List.lookup q nd <;> simp [h]
  · simp [semiOf, lookup_alUpdate_ne _ _ _ _ hk]

theorem semiOf_alUpdate_self (nd : NodeMap) (k : ℕ) (f : GNode → GNode) (m : GNode)
    (h : List.lookup k nd = some m) :
    semiOf (alUpdate nd k f) k = (f m).semi := by
  simp [semiOf, lookup_alUpdate_self, h]

theorem semiOf_alUpdate_ne (nd : NodeMap) (k q : ℕ) (f : GNode → GNode) (h : q ≠ k) :
    semiOf (alUpdate nd k f) q = semiOf nd q := by
  simp [semiOf, lookup_alUpdate_ne _ _ _ _ h]

theorem ancestorOf_alUpdate_frame (nd : NodeMap) (k : ℕ) (f : GNode → GNode)
    (h : ∀ m, (f m).ancestor = m.ancestor) (q : ℕ) :
    ancestorOf (alUpdate nd k f) q = ancestorOf nd q := by
  by_cases hk : q = k
  · subst hk
    simp only [ancestorOf, lookup_alUpdate_self]
    cases List.lookup q nd <;> simp [h]
  · simp [ancestorOf, lookup_alUpdate_ne _ _ _ _ hk]

theorem ancestorOf_alUpdate_self (nd : NodeMap) (k : ℕ) (f : GNode → GNode) (m : GNode)
    (h : List.lookup k nd = some m) :
    ancestorOf (alUpdate nd k f) k = (f m).ancestor := by
  simp [ancestorOf, lookup_alUpdate_self, h]

theorem ancestorOf_alUpdate_ne (nd : NodeMap) (k q : ℕ) (f : GNode → GNode) (h : q ≠ k) :
    ancestorOf (alUpdate nd k f) q = ancestorOf nd q := by
  simp [ancestorOf, lookup_alUpdate_ne _ _ _ _ h]

theorem bestOf_alUpdate_frame (nd : NodeMap) (k : ℕ) (f : GNode → GNode)
    (h : ∀ m, (f m).best = m.best) (q : ℕ) :
    bestOf (alUpdate nd k f) q = bestOf nd q := by
  by_cases hk : q = k
  · subst hk
    simp only [bestOf, lookup_alUpdate_self]
    cases List.lookup q nd <;> simp [h]
  · simp [bestOf, lookup_alUpdate_ne _ _ _ _ hk]

theorem bestOf_alUpdate_self (nd : NodeMap) (k : ℕ) (f : GNode → GNode) (m : GNode)
    (h : List.lookup k nd = some m) :
    bestOf (alUpdate nd k f) k = (f m).best := by
  simp [bestOf, lookup_alUpdate_self, h]

theorem bestOf_alUpdate_ne (nd : NodeMap) (k q : ℕ) (f : GNode → GNode) (h : q ≠ k) :
    bestOf (alUpdate nd k f) q = bestOf nd q := by
  simp [bestOf, lookup_alUpdate_ne _ _ _ _ h]

theorem idomOf_alUpdate_frame (nd : NodeMap) (k : ℕ) (f : GNode → GNode)
    (h : ∀ m, (f m).idom = m.idom) (q : ℕ) :
    idomOf (alUpdate nd k f) q = idomOf nd q := by
  by_cases hk : q = k
  · subst hk
    simp only [idomOf, lookup_alUpdate_self]
    cases List.lookup q nd <;> simp [h]
  · simp [idomOf, lookup_alUpdate_ne _ _ _ _ hk]

theorem idomOf_alUpdate_self (nd : NodeMap) (k : ℕ) (f : GNode → GNode) (m : GNode)
    (h : List.lookup k nd = some m) :
    idomOf (alUpdate nd k f) k = (f m).idom := by
  simp [idomOf, lookup_alUpdate_self, h]

theorem idomOf_alUpdate_ne (nd : NodeMap) (k q : ℕ) (f : GNode → GNode) (h : q ≠ k) :
    idomOf (alUpdate nd k f) q = idomOf nd q := by
  simp [idomOf, lookup_alUpdate_ne _ _ _ _ h]

theorem samedomOf_alUpdate_frame (nd : NodeMap) (k : ℕ) (f : GNode → GNode)
    (h : ∀ m, (f m).samedom = m.samedom) (q : ℕ) :
    samedomOf (alUpdate nd k f) q = samedomOf nd q := by
  by_cases hk : q = k
  · subst hk
    simp only [samedomOf, lookup_alUpdate_self]
    cases List.lookup q nd <;> simp [h]
  · simp [samedomOf, lookup_alUpdate_ne _ _ _ _ hk]

theorem samedomOf_alUpdate_self (nd : NodeMap) (k : ℕ) (f : GNode → GNode) (m : GNode)
    (h : List.lookup k nd = some m) :
    samedomOf (alUpdate nd k f) k = (f m).samedom := by
  simp [samedomOf, lookup_alUpdate_self, h]

theorem samedomOf_alUpdate_ne (nd : NodeMap) (k q : ℕ) (f : GNode → GNode) (h : q ≠ k) :
    samedomOf (alUpdate nd k f) q = samedomOf nd q := by
  simp [samedomOf, lookup_alUpdate_ne _ _ _ _ h]

theorem bucketOf_alUpdate_frame (nd : NodeMap) (k : ℕ) (f : GNode → GNode)
    (h : ∀ m, (f m).bucket = m.bucket) (q : ℕ) :
    bucketOf (alUpdate nd k f) q = bucketOf nd q := by
  by_cases hk : q = k
  · subst hk
    simp only [bucketOf, lookup_alUpdate_self]
    cases List.lookup q nd <;> simp [h]
  · simp [bucketOf, lookup_alUpdate_ne _ _ _ _ hk]

theorem bucketOf_alUpdate_self (nd : NodeMap) (k : ℕ) (f : GNode → GNode) (m : GNode)
    (h : List.lookup k nd = some m) :
    bucketOf (alUpdate nd k f) k = (f m).bucket := by
  simp [bucketOf, lookup_alUpdate_self, h]

theorem bucketOf_alUpdate_ne (nd : NodeMap) (k q : ℕ) (f : GNode → GNode) (h : q ≠ k) :
    bucketOf (alUpdate nd k f) q = bucketOf nd q := by
  simp [bucketOf, lookup_alUpdate_ne _ _ _ _ h]

theorem parentOf_alUpdate_frame (nd : NodeMap) (k : ℕ) (f : GNode → GNode)
    (h : ∀ m, (f m).inbound = m.inbound) (q : ℕ) :
    parentOf (alUpdate nd k f) q = parentOf nd q := by
  by_cases hk : q = k
  · subst hk
    simp only [parentOf, lookup_alUpdate_self]
    cases List.lookup q nd <;> simp [h]
  · simp [parentOf, lookup_alUpdate_ne _ _ _ _ hk]


/-! ### Characterizing the `Directed` constructor -/

theorem outboundOf_eq_ndOut (g : Directed) (k : ℕ) : outboundOf g k = ndOut g.nodes k := rfl

theorem inboundOf_eq_ndIn (g : Directed) (k : ℕ) : inboundOf g k = ndIn g.nodes k := rfl

theorem ndOut_alUpdate_frame (nd : NodeMap) (k : ℕ) (f : GNode → GNode)
    (h : ∀ m, (f m).outbound = m.outbound) (q : ℕ) :
    ndOut (alUpdate nd k f) q = ndOut nd q := by
  by_cases hk : q = k
  · subst hk
    simp only [ndOut, lookup_alUpdate_self]
    cases List.lookup q nd <;> simp [h]
  · simp [ndOut, lookup_alUpdate_ne _ _ _ _ hk]

theorem ndOut_alUpdate_self (nd : NodeMap) (k : ℕ) (f : GNode → GNode) (m : GNode)
    (h : List.lookup k nd = some m) :
    ndOut (alUpdate nd k f) k = (f m).outbound := by
  simp [ndOut, lookup_alUpdate_self, h]

theorem ndOut_alUpdate_ne (nd : NodeMap) (k q : ℕ) (f : GNode → GNode) (h : q ≠ k) :
    ndOut (alUpdate nd k f) q = ndOut nd q := by
  simp [ndOut, lookup_alUpdate_ne _ _ _ _ h]

theorem ndIn_alUpdate_frame (nd : NodeMap) (k : ℕ) (f : GNode → GNode)
    (h : ∀ m, (f m).inbound = m.inbound) (q : ℕ) :
    ndIn (alUpdate nd k f) q = ndIn nd q := by
  by_cases hk : q = k
  · subst hk
    simp only [ndIn, lookup_alUpdate_self]
    cases List.lookup q nd <;> simp [h]
  · simp [ndIn, lookup_alUpdate_ne _ _ _ _ hk]

theorem ndIn_alUpdate_self (nd : NodeMap) (k : ℕ) (f : GNode → GNode) (m : GNode)
    (h : List.lookup k nd = some m) :
    ndIn (alUpdate nd k f) k = (f m).inbound := by
  simp [ndIn, lookup_alUpdate_self, h]

theorem ndIn_alUpdate_ne (nd : NodeMap) (k q : ℕ) (f : GNode → GNode) (h : q ≠ k) :
    ndIn (alUpdate nd k f) q = ndIn nd q := by
  simp [ndIn, lookup_alUpdate_ne _ _ _ _ h]

theorem addEdge_nodes_eq (g : Directed) (e : ℕ × ℕ) :
    (addEdge g e).nodes =
      alUpdate (alUpdate g.nodes e.1 (fun n => { n with outbound := n.outbound ++ [e.2] }))
        e.2 (fun n => { n with inbound := n.inbound ++ [e.1] }) := rfl

theorem ndKeys_addEdge (g : Directed) (e : ℕ × ℕ) :
    ndKeys (addEdge g e).nodes = ndKeys g.nodes := by
  rw [addEdge_nodes_eq, ndKeys_alUpdate, ndKeys_alUpdate]

theorem ndOut_addEdge (g : Directed) (e : ℕ × ℕ) (he : e.1 ∈ ndKeys g.nodes) (k : ℕ) :
    ndOut (addEdge g e).nodes k =
      ndOut g.nodes k ++ (if e.1 = k then [e.2] else []) := by
  obtain ⟨m, hm⟩ := Option.isSome_iff_exists.mp ((lookup_isSome_iff_mem _ _).mpr he)
  rw [addEdge_nodes_eq, ndOut_alUpdate_frame _ e.2
    (fun n => { n with inbound := n.inbound ++ [e.1] }) (fun m => rfl)]
  by_cases hk : e.1 = k
  · subst hk
    rw [ndOut_alUpdate_self _ _ _ m hm, if_pos rfl]
    simp [ndOut, hm]
  · rw [ndOut_alUpdate_ne _ _ _ _ (fun hc => hk hc.symm), if_neg hk, List.append_nil]

theorem ndIn_addEdge (g : Directed) (e : ℕ × ℕ) (he : e.2 ∈ ndKeys g.nodes) (k : ℕ) :
    ndIn (addEdge g e).nodes k =
      ndIn g.nodes k ++ (if e.2 = k then [e.1] else []) := by
  have hmem : e.2 ∈ ndKeys (alUpdate g.nodes e.1
      (fun n => { n with outbound := n.outbound ++ [e.2] })) := by
    rwa [ndKeys_alUpdate]
  obtain ⟨m, hm⟩ := Option.isSome_iff_exists.mp ((lookup_isSome_iff_mem _ _).mpr hmem)
  rw [addEdge_nodes_eq]
  by_cases hk : e.2 = k
  · subst hk
    rw [ndIn_alUpdate_self _ _ _ m hm, if_pos rfl]
    have h2 : ndIn (alUpdate g.nodes e.1
        (fun n => { n with outbound := n.outbound ++ [e.2] })) e.2 = ndIn g.nodes e.2 :=
      ndIn_alUpdate_frame _ e.1 (fun n => { n with outbound := n.outbound ++ [e.2] })
        (fun m => rfl) _
    simp only [ndIn, hm] at h2
    simpa [ndIn] using h2
  · rw [ndIn_alUpdate_ne _ _ _ _ (fun hc => hk hc.symm), if_neg hk, List.append_nil]
    exact ndIn_alUpdate_frame _ e.1 (fun n => { n with outbound := n.outbound ++ [e.2] })
      (fun m => rfl) _

theorem foldl_addNode_lookup (ns : List ℕ) : ∀ (g : Directed) (k : ℕ),
    List.lookup k ((ns.foldl addNode g).nodes) =
      if k ∈ ns then some (mkNode k) else List.lookup k g.nodes := by
  induction ns with
  | nil => intro g k; simp
  | cons n rest ih =>
    intro g k
    rw [List.foldl_cons, ih]
    by_cases h1 : k ∈ rest
    · simp [h1]
    · by_cases h2 : k = n
      · subst h2
        simp [h1, addNode, lookup_alSet_self]
      · simp only [addNode]
        rw [lookup_alSet_ne _ _ _ _ h2]
        simp [h1, h2]

theorem foldl_addNode_mem_keys (ns : List ℕ) (g : Directed) (k : ℕ) :
    k ∈ ndKeys (ns.foldl addNode g).nodes ↔ k ∈ ns ∨ k ∈ ndKeys g.nodes := by
  rw [← lookup_isSome_iff_mem, ← lookup_isSome_iff_mem, foldl_addNode_lookup]
  by_cases h : k ∈ ns <;> simp [h]

theorem foldl_addNode_keys_nodup (ns : List ℕ) : ∀ (g : Directed),
    (ndKeys g.nodes).Nodup → (ndKeys (ns.foldl addNode g).nodes).Nodup := by
  induction ns with
  | nil => intro g h; simpa using h
  | cons n rest ih =>
    intro g h
    rw [List.foldl_cons]
    apply ih
    show (ndKeys (alSet g.nodes n (mkNode n))).Nodup
    rw [ndKeys_alSet]
    by_cases hm : n ∈ ndKeys g.nodes
    · simpa [hm] using h
    · simp [hm, List.nodup_append, h]

theorem foldl_addEdge_keys (es : List (ℕ × ℕ)) : ∀ (g : Directed),
    ndKeys ((es.foldl addEdge g).nodes) = ndKeys g.nodes := by
  induction es with
  | nil => intro g; rfl
  | cons e rest ih =>
    intro g
    rw [List.foldl_cons, ih, ndKeys_addEdge]

theorem foldl_addEdge_ndOut (es : List (ℕ × ℕ)) : ∀ (g : Directed),
    (∀ e ∈ es, e.1 ∈ ndKeys g.nodes) → ∀ k,
    ndOut ((es.foldl addEdge g).nodes) k =
      ndOut g.nodes k ++ (es.filter (fun e => e.1 = k)).map Prod.snd := by
  induction es with
  | nil => intro g _ k; simp
  | cons e rest ih =>
    intro g h k
    rw [List.foldl_cons, ih (addEdge g e)
      (fun e2 he2 => by rw [ndKeys_addEdge]; exact h e2 (List.mem_cons_of_mem _ he2)) k,
      ndOut_addEdge g e (h e (List.mem_cons_self _ _)) k]
    by_cases hk : e.1 = k
    · simp [hk, List.filter_cons]
    · simp [hk, List.filter_cons]

theorem foldl_addEdge_ndIn (es : List (ℕ × ℕ)) : ∀ (g : Directed),
    (∀ e ∈ es, e.2 ∈ ndKeys g.nodes) → ∀ k,
    ndIn ((es.foldl addEdge g).nodes) k =
      ndIn g.nodes k ++ (es.filter (fun e => e.2 = k)).map Prod.fst := by
  induction es with
  | nil => intro g _ k; simp
  | cons e rest ih =>
    intro g h k
    rw [List.foldl_cons, ih (addEdge g e)
      (fun e2 he2 => by rw [ndKeys_addEdge]; exact h e2 (List.mem_cons_of_mem _ he2)) k,
      ndIn_addEdge g e (h e (List.mem_cons_self _ _)) k]
    by_cases hk : e.2 = k
    · simp [hk, List.filter_cons]
    · simp [hk, List.filter_cons]

theorem foldl_addEdge_root (es : List (ℕ × ℕ)) : ∀ (g : Directed),
    (es.foldl addEdge g).root = g.root := by
  induction es with
  | nil => intro g; rfl
  | cons e rest ih => intro g; rw [List.foldl_cons, ih]; rfl

theorem mkDirected_nodes_eq (ns : List ℕ) (es : List (ℕ × ℕ)) (r : ℕ) :
    (mkDirected ns es r).nodes = (es.foldl addEdge (ns.foldl addNode ⟨[], none⟩)).nodes := by
  simp only [mkDirected, setRoot]
  split <;> rfl

theorem mkDirected_mem_keys (ns : List ℕ) (es : List (ℕ × ℕ)) (r k : ℕ) :
    k ∈ ndKeys (mkDirected ns es r).nodes ↔ k ∈ ns := by
  rw [mkDirected_nodes_eq, foldl_addEdge_keys, foldl_addNode_mem_keys]
  simp [ndKeys]

theorem mkDirected_keys_nodup (ns : List ℕ) (es : List (ℕ × ℕ)) (r : ℕ) :
    (ndKeys (mkDirected ns es r).nodes).Nodup := by
  rw [mkDirected_nodes_eq, foldl_addEdge_keys]
  exact foldl_addNode_keys_nodup ns _ (by simp [ndKeys])

theorem mkDirected_outbound (ns : List ℕ) (es : List (ℕ × ℕ)) (r : ℕ)
    (hes : ∀ e ∈ es, e.1 ∈ ns) (k : ℕ) :
    outboundOf (mkDirected ns es r) k = (es.filter (fun e => e.1 = k)).map Prod.snd := by
  rw [outboundOf_eq_ndOut, mkDirected_nodes_eq, foldl_addEdge_ndOut es _
    (fun e he => (foldl_addNode_mem_keys ns _ e.1).mpr (Or.inl (hes e he)))]
  have hbase : ndOut ((ns.foldl addNode ⟨[], none⟩).nodes) k = [] := by
    simp only [ndOut, foldl_addNode_lookup]
    by_cases h : k ∈ ns <;> simp [h, mkNode]
  rw [hbase, List.nil_append]

theorem mkDirected_inbound (ns : List ℕ) (es : List (ℕ × ℕ)) (r : ℕ)
    (hes : ∀ e ∈ es, e.2 ∈ ns) (k : ℕ) :
    inboundOf (mkDirected ns es r) k = (es.filter (fun e => e.2 = k)).map Prod.fst := by
  rw [inboundOf_eq_ndIn, mkDirected_nodes_eq, foldl_addEdge_ndIn es _
    (fun e he => (foldl_addNode_mem_keys ns _ e.2).mpr (Or.inl (hes e he)))]
  have hbase : ndIn ((ns.foldl addNode ⟨[], none⟩).nodes) k = [] := by
    simp only [ndIn, foldl_addNode_lookup]
    by_cases h : k ∈ ns <;> simp [h, mkNode]
  rw [hbase, List.nil_append]

theorem mkDirected_root (ns : List ℕ) (es : List (ℕ × ℕ)) (r : ℕ) :
    (mkDirected ns es r).root = if r ≠ 0 ∧ r ∈ ns then some r else none := by
  simp only [mkDirected]
  by_cases hr : r ≠ 0
  · simp only [if_pos hr, setRoot]
    have : (List.lookup r (es.foldl addEdge (ns.foldl addNode ⟨[], none⟩)).nodes).isSome = true
        ↔ r ∈ ns := by
      rw [lookup_isSome_iff_mem, foldl_addEdge_keys, foldl_addNode_mem_keys]
      simp [ndKeys]
    by_cases hm : r ∈ ns
    · simp [this, hm, hr]
    · simp only [hr, hm, and_false, if_false]
      rw [if_neg]
      simp [this, hm]
  · simp only [if_neg hr]
    rw [foldl_addEdge_root]
    have : ∀ (g : Directed) (l : List ℕ), (l.foldl addNode g).root = g.root := by
      intro g l
      induction l generalizing g with
      | nil => rfl
      | cons x xs ih => rw [List.foldl_cons, ih]; rfl
    rw [this]
    simp [hr]


/-! ### The depth-first spanning tree: parent, ancestors, paths -/

theorem AncE_trans {E : List (ℕ × ℕ)} {a b c : ℕ} (h1 : AncE E a b) (h2 : AncE E b c) :
    AncE E a c := by
  induction h2 with
  | parent hp => exact AncE.step hp h1
  | step hp _ ih => exact AncE.step hp ih

theorem explore_succ_eq (g : Directed) (F : ℕ) (V : List ℕ) (E : List (ℕ × ℕ)) (n : ℕ) :
    explore g (F + 1) (V, E) n = List.foldl (foldStep g F n) (V ++ [n], E) (outboundOf g n) :=
  rfl

theorem remCount_lt (g : Directed) {V V' : List ℕ} {n : ℕ}
    (hVV : ∀ x ∈ V, x ∈ V') (hk : n ∈ ndKeys g.nodes) (hnV : n ∉ V) (hnV' : n ∈ V') :
    remCount g V' < remCount g V := by
  unfold remCount
  have hsub : (ndKeys g.nodes).filter (fun k => decide (k ∉ V')) =
      ((ndKeys g.nodes).filter (fun k => decide (k ∉ V))).filter (fun k => decide (k ∉ V')) := by
    rw [List.filter_filter]
    apply List.filter_congr
    intro x _
    by_cases h1 : x ∈ V'
    · simp [h1]
    · have h2 : x ∉ V := fun hx => h1 (hVV x hx)
      simp [h1, h2]
  rw [hsub]
  have hmem : n ∈ (ndKeys g.nodes).filter (fun k => decide (k ∉ V)) := by
    simp [List.mem_filter, hk, hnV]
  calc (((ndKeys g.nodes).filter (fun k => decide (k ∉ V))).filter
          (fun k => decide (k ∉ V'))).length
      < ((ndKeys g.nodes).filter (fun k => decide (k ∉ V))).length := by
        apply List.length_filter_lt_length_iff_exists.mpr
        exact ⟨n, hmem, by simp [hnV']⟩

theorem srcs_mem_of_split {nE : List (ℕ × ℕ)} {n : ℕ}
    (h : ∀ l1 e l2, nE = l1 ++ e :: l2 → e.1 ∈ n :: (l1.map Prod.snd)) :
    ∀ e ∈ nE, e.1 ∈ n :: nE.map Prod.snd := by
  intro e he
  obtain ⟨l1, l2, rfl⟩ := List.append_of_mem he
  have h2 := h l1 e l2 rfl
  rcases List.mem_cons.mp h2 with h3 | h3
  · exact List.mem_cons.mpr (Or.inl h3)
  · refine List.mem_cons.mpr (Or.inr ?_)
    simp only [List.map_append, List.map_cons, List.mem_append]
    exact Or.inl h3

theorem head_notin_mid {n x : ℕ} {Δ P M Q : List ℕ} (hnd : (n :: Δ).Nodup)
    (hd : n :: Δ = P ++ x :: M ++ Q) : n ∉ M := by
  intro hn
  have hΔ : n ∈ Δ := by
    cases P with
    | nil =>
      have h2 : Δ = M ++ Q := by simpa using congrArg List.tail hd
      rw [h2]
      exact List.mem_append_left _ hn
    | cons p P2 =>
      have h2 : Δ = P2 ++ x :: M ++ Q := by simpa using congrArg List.tail hd
      rw [h2]
      simp only [List.mem_append, List.mem_cons]
      exact Or.inl (Or.inr (Or.inr hn))
  exact (List.nodup_cons.mp hnd).1 hΔ

theorem mem_of_mem_mid {n x : ℕ} {Δ P M Q : List ℕ}
    (hd : n :: Δ = P ++ x :: M ++ Q) {y : ℕ} (hy : y ∈ x :: M) : y ∈ n :: Δ := by
  rw [hd]
  rcases List.mem_cons.mp hy with h | h
  · subst h
    simp
  · simp [h]

theorem ExpInv_extend (g : Directed) {V : List ℕ} {n succ : ℕ} {Δ₀ : List ℕ}
    {nE₀ : List (ℕ × ℕ)} {Δc : List ℕ} {nEc : List (ℕ × ℕ)}
    (hInv : ExpInv g V n Δ₀ nE₀)
    (hic : ExpInv g (V ++ n :: Δ₀) succ Δc nEc)
    (hso : succ ∈ outboundOf g n)
    (hsk : succ ∈ ndKeys g.nodes)
    (hsucc_out : ∀ s ∈ outboundOf g succ, s ∈ (V ++ n :: Δ₀) ++ succ :: Δc) :
    ExpInv g V n (Δ₀ ++ succ :: Δc) (nE₀ ++ (n, succ) :: nEc) := by
  obtain ⟨i1, i2, i3, i4, i5, i6, i7⟩ := hInv
  obtain ⟨c1, c2, c3, c4, c5, c6, c7⟩ := hic
  have hfresh : ∀ y ∈ succ :: Δc, y ∉ V ++ n :: Δ₀ := c2
  have hsrc0 : ∀ e ∈ nE₀, e.1 ∈ n :: Δ₀ := by
    have h := srcs_mem_of_split i6
    rwa [i4] at h
  have hsrcc : ∀ e ∈ nEc, e.1 ∈ succ :: Δc := by
    have h := srcs_mem_of_split c6
    rwa [c4] at h
  have hdst0 : ∀ e ∈ nE₀, e.2 ∈ Δ₀ := by
    intro e he
    rw [← i4]
    exact List.mem_map_of_mem Prod.snd he
  have hdstc : ∀ e ∈ nEc, e.2 ∈ Δc := by
    intro e he
    rw [← c4]
    exact List.mem_map_of_mem Prod.snd he
  refine ⟨?_, ?_, ?_, ?_, ?_, ?_, ?_⟩
  · -- nodup
    show (n :: (Δ₀ ++ succ :: Δc)).Nodup
    have h2 : n :: (Δ₀ ++ succ :: Δc) = (n :: Δ₀) ++ succ :: Δc := by simp
    rw [h2, List.nodup_append]
    refine ⟨i1, c1, ?_⟩
    intro a ha hb
    exact hfresh a hb (List.mem_append_right _ ha)
  · -- fresh w.r.t. V
    intro x hx
    rcases List.mem_cons.mp hx with rfl | hx2
    · exact i2 x (List.mem_cons_self _ _)
    · rcases List.mem_append.mp hx2 with h | h
      · exact i2 x (List.mem_cons_of_mem _ h)
      · exact fun hv => hfresh x h (List.mem_append_left _ hv)
  · -- keys
    intro x hx
    rcases List.mem_append.mp hx with h | h
    · exact i3 x h
    · rcases List.mem_cons.mp h with rfl | h2
      · exact hsk
      · exact c3 x h2
  · -- dst list
    simp [i4, c4]
  · -- edges are graph edges
    intro e he
    rcases List.mem_append.mp he with h | h
    · exact i5 e h
    · rcases List.mem_cons.mp h with rfl | h2
      · exact hso
      · exact c5 e h2
  · -- split source condition
    intro l1 e l2 heq
    rcases List.append_eq_append_iff.mp heq with ⟨m, hm1, hm2⟩ | ⟨m, hm1, hm2⟩
    · cases m with
      | nil =>
        simp only [List.nil_append] at hm2
        have he2 : (n, succ) = e := (List.cons.injEq _ _ _ _ ▸ hm2).1
        rw [← he2]
        exact List.mem_cons_self _ _
      | cons f m2 =>
        have hm2b : (n, succ) = f ∧ nEc = m2 ++ e :: l2 := by
          have := hm2
          simp only [List.cons_append] at this
          exact (List.cons.injEq _ _ _ _ ▸ this)
        obtain ⟨hf, hrest⟩ := hm2b
        have h6 := c6 m2 e l2 hrest
        subst hm1
        rcases List.mem_cons.mp h6 with h | h
        · refine List.mem_cons.mpr (Or.inr ?_)
          rw [← hf]
          simp [h]
        · refine List.mem_cons.mpr (Or.inr ?_)
          rw [← hf]
          simp only [List.map_append, List.map_cons, List.mem_append, List.mem_cons]
          right
          right
          exact h
    · cases m with
      | nil =>
        simp only [List.append_nil] at hm1
        simp only [List.nil_append] at hm2
        have he2 : e = (n, succ) := (List.cons.injEq _ _ _ _ ▸ hm2).1
        rw [he2]
        exact List.mem_cons_self _ _
      | cons f m2 =>
        have hm2b : e = f ∧ l2 = m2 ++ (n, succ) :: nEc := by
          have := hm2
          simp only [List.cons_append] at this
          exact (List.cons.injEq _ _ _ _ ▸ this)
        obtain ⟨hf, _⟩ := hm2b
        exact i6 l1 e m2 (by rw [hm1, hf])
  · -- blocks
    intro x hx
    rcases List.mem_append.mp hx with hx0 | hxc
    · -- old block
      obtain ⟨P, M, Q, hdec, hB1, hB2, hB3⟩ := i7 x hx0
      refine ⟨P, M, Q ++ succ :: Δc, ?_, ?_, ?_, ?_⟩
      · rw [show n :: (Δ₀ ++ succ :: Δc) = (n :: Δ₀) ++ succ :: Δc by simp, hdec]
        simp
      · intro e he hedst
        have hMsub : ∀ y ∈ x :: M, y ∈ n :: Δ₀ := fun y hy => mem_of_mem_mid hdec hy
        rcases List.mem_append.mp he with h | h
        · exact hB1 e h hedst
        · exfalso
          have hM2 : e.2 ∈ n :: Δ₀ := hMsub e.2 (List.mem_cons_of_mem _ hedst)
          rcases List.mem_cons.mp h with rfl | h2
          · exact hfresh succ (List.mem_cons_self _ _) (List.mem_append_right _ hM2)
          · have := hdstc e h2
            have hfr := hfresh e.2 (List.mem_cons_of_mem _ this)
            exact hfr (List.mem_append_right _ hM2)
      · intro e he hesrc
        have hMsub : ∀ y ∈ x :: M, y ∈ n :: Δ₀ := fun y hy => mem_of_mem_mid hdec hy
        rcases List.mem_append.mp he with h | h
        · exact hB2 e h hesrc
        · exfalso
          have hM2 : e.1 ∈ n :: Δ₀ := hMsub e.1 hesrc
          rcases List.mem_cons.mp h with rfl | h2
          · -- e = (n, succ), e.1 = n ∈ x :: M: but n ∉ x :: M
            have hxn : x ≠ n := by
              intro hc
              subst hc
              exact (List.nodup_cons.mp i1).1 hx0
            have hnM : n ∉ M := head_notin_mid i1 hdec
            rcases List.mem_cons.mp hesrc with h3 | h3
            · exact hxn h3.symm
            · exact hnM h3
          · have := hsrcc e h2
            exact hfresh e.1 this (List.mem_append_right _ hM2)
      · exact hB3
    · -- new block: x in child's activation
      rcases List.mem_cons.mp hxc with hxeq | hxc2
      · -- x = succ: block is the whole child area
        subst hxeq
        refine ⟨n :: Δ₀, Δc, [], by simp, ?_, ?_, ?_⟩
        · intro e he hedst
          rcases List.mem_append.mp he with h | h
          · exfalso
            have := hdst0 e h
            exact hfresh e.2 (List.mem_cons_of_mem _ hedst)
              (List.mem_append_right _ (List.mem_cons_of_mem _ this))
          · rcases List.mem_cons.mp h with rfl | h2
            · exfalso
              exact (List.nodup_cons.mp c1).1 hedst
            · exact hsrcc e h2
        · intro e he hesrc
          rcases List.mem_append.mp he with h | h
          · exfalso
            have := hsrc0 e h
            exact hfresh e.1 hesrc (List.mem_append_right _ this)
          · rcases List.mem_cons.mp h with rfl | h2
            · exfalso
              have hnmem : (n : ℕ) ∈ V ++ n :: Δ₀ :=
                List.mem_append_right _ (List.mem_cons_self _ _)
              exact hfresh _ hesrc hnmem
            · exact hdstc e h2
        · intro s hs
          have := hsucc_out s hs
          simpa using this
      · -- x strictly inside child's block
        obtain ⟨Pc, Mc, Qc, hdec, hB1, hB2, hB3⟩ := c7 x hxc2
        refine ⟨n :: Δ₀ ++ Pc, Mc, Qc, ?_, ?_, ?_, ?_⟩
        · rw [show n :: (Δ₀ ++ succ :: Δc) = (n :: Δ₀) ++ succ :: Δc by simp, hdec]
          simp
        · intro e he hedst
          have hMsub : ∀ y ∈ x :: Mc, y ∈ succ :: Δc := fun y hy => mem_of_mem_mid hdec hy
          rcases List.mem_append.mp he with h | h
          · exfalso
            have h2 := hdst0 e h
            have h3 : e.2 ∈ succ :: Δc := hMsub e.2 (List.mem_cons_of_mem _ hedst)
            exact hfresh e.2 h3 (List.mem_append_right _ (List.mem_cons_of_mem _ h2))
          · rcases List.mem_cons.mp h with rfl | h2
            · exfalso
              have hsuccM : succ ∉ Mc := head_notin_mid c1 hdec
              exact hsuccM hedst
            · exact hB1 e h2 hedst
        · intro e he hesrc
          have hMsub : ∀ y ∈ x :: Mc, y ∈ succ :: Δc := fun y hy => mem_of_mem_mid hdec hy
          rcases List.mem_append.mp he with h | h
          · exfalso
            have h2 := hsrc0 e h
            have h3 : e.1 ∈ succ :: Δc := hMsub e.1 hesrc
            exact hfresh e.1 h3 (List.mem_append_right _ h2)
          · rcases List.mem_cons.mp h with rfl | h2
            · exfalso
              have h3 : (n, succ).1 ∈ succ :: Δc := hMsub _ hesrc
              have : (n : ℕ) ∈ V ++ n :: Δ₀ :=
                List.mem_append_right _ (List.mem_cons_self _ _)
              exact hfresh _ h3 this
            · exact hB2 e h2 hesrc
        · intro s hs
          have h2 := hB3 s hs
          have harr : ((V ++ n :: Δ₀) ++ Pc) ++ x :: Mc = (V ++ (n :: Δ₀ ++ Pc)) ++ x :: Mc := by
            simp
          rw [harr] at h2
          exact h2

theorem explore_fold_aux (g : Directed)
    (Hout : ∀ k x, x ∈ outboundOf g k → x ∈ ndKeys g.nodes) (F : ℕ)
    (IH : ∀ (V : List ℕ) (E : List (ℕ × ℕ)) (n : ℕ), n ∉ V → n ∈ ndKeys g.nodes →
      remCount g V < F →
      ∃ Δ nE, explore g F (V, E) n = (V ++ n :: Δ, E ++ nE) ∧ ExpInv g V n Δ nE ∧
        (∀ s ∈ outboundOf g n, s ∈ V ++ n :: Δ))
    (n : ℕ) (V : List ℕ) (E : List (ℕ × ℕ)) :
    ∀ (l : List ℕ) (Δ₀ : List ℕ) (nE₀ : List (ℕ × ℕ)),
    (∀ s ∈ l, s ∈ outboundOf g n) →
    ExpInv g V n Δ₀ nE₀ →
    remCount g (V ++ n :: Δ₀) < F →
    ∃ Δ₁ nE₁,
      List.foldl (foldStep g F n) (V ++ n :: Δ₀, E ++ nE₀) l
        = (V ++ n :: (Δ₀ ++ Δ₁), E ++ (nE₀ ++ nE₁)) ∧
      ExpInv g V n (Δ₀ ++ Δ₁) (nE₀ ++ nE₁) ∧
      (∀ s ∈ l, s ∈ V ++ n :: (Δ₀ ++ Δ₁)) := by
  intro l
  induction l with
  | nil =>
    intro Δ₀ nE₀ _ hInv _
    exact ⟨[], [], by simp, by simpa using hInv, by simp⟩
  | cons succ rest ihl =>
    intro Δ₀ nE₀ hl hInv hfuel
    rw [List.foldl_cons]
    by_cases hv : succ ∈ V ++ n :: Δ₀
    · have hstep : foldStep g F n (V ++ n :: Δ₀, E ++ nE₀) succ = (V ++ n :: Δ₀, E ++ nE₀) := by
        simp [foldStep, hv]
      rw [hstep]
      obtain ⟨Δ₁, nE₁, he, hi, hs⟩ :=
        ihl Δ₀ nE₀ (fun s hs => hl s (List.mem_cons_of_mem _ hs)) hInv hfuel
      refine ⟨Δ₁, nE₁, he, hi, ?_⟩
      intro s hs2
      rcases List.mem_cons.mp hs2 with rfl | hs3
      · rcases List.mem_append.mp hv with h | h
        · exact List.mem_append_left _ h
        · refine List.mem_append_right _ ?_
          rcases List.mem_cons.mp h with h2 | h2
          · exact List.mem_cons.mpr (Or.inl h2)
          · exact List.mem_cons.mpr (Or.inr (List.mem_append_left _ h2))
      · exact hs s hs3
    · have hso : succ ∈ outboundOf g n := hl succ (List.mem_cons_self _ _)
      have hsk : succ ∈ ndKeys g.nodes := Hout n succ hso
      obtain ⟨Δc, nEc, hec, hic, hsc⟩ :=
        IH (V ++ n :: Δ₀) (E ++ nE₀ ++ [(n, succ)]) succ hv hsk hfuel
      have hstep : foldStep g F n (V ++ n :: Δ₀, E ++ nE₀) succ =
          ((V ++ n :: Δ₀) ++ succ :: Δc, (E ++ nE₀ ++ [(n, succ)]) ++ nEc) := by
        simp only [foldStep, if_neg hv]
        exact hec
      have hInv2 : ExpInv g V n (Δ₀ ++ succ :: Δc) (nE₀ ++ (n, succ) :: nEc) :=
        ExpInv_extend g hInv hic hso hsk hsc
      have hfuel2 : remCount g (V ++ n :: (Δ₀ ++ succ :: Δc)) < F := by
        have hlt := @remCount_lt g (V ++ n :: Δ₀) (V ++ n :: (Δ₀ ++ succ :: Δc)) succ
          (fun x hx => by
            rcases List.mem_append.mp hx with h | h
            · exact List.mem_append_left _ h
            · refine List.mem_append_right _ ?_
              rcases List.mem_cons.mp h with h2 | h2
              · exact List.mem_cons.mpr (Or.inl h2)
              · exact List.mem_cons.mpr (Or.inr (List.mem_append_left _ h2)))
          hsk hv
          (by
            refine List.mem_append_right _ ?_
            refine List.mem_cons.mpr (Or.inr ?_)
            refine List.mem_append_right _ ?_
            exact List.mem_cons_self _ _)
        omega
      obtain ⟨Δ₁, nE₁, he, hi, hs⟩ :=
        ihl (Δ₀ ++ succ :: Δc) (nE₀ ++ (n, succ) :: nEc)
          (fun s hs => hl s (List.mem_cons_of_mem _ hs)) hInv2 hfuel2
      have harr : ((V ++ n :: Δ₀) ++ succ :: Δc, (E ++ nE₀ ++ [(n, succ)]) ++ nEc) =
          (V ++ n :: (Δ₀ ++ succ :: Δc), E ++ (nE₀ ++ (n, succ) :: nEc)) := by
        simp
      refine ⟨(succ :: Δc) ++ Δ₁, ((n, succ) :: nEc) ++ nE₁, ?_, ?_, ?_⟩
      · rw [hstep, harr, he]
        simp
      · have : Δ₀ ++ (succ :: Δc) ++ Δ₁ = Δ₀ ++ ((succ :: Δc) ++ Δ₁) := by simp
        rw [← this]
        have h2 : nE₀ ++ ((n, succ) :: nEc) ++ nE₁ = nE₀ ++ (((n, succ) :: nEc) ++ nE₁) := by
          simp
        rw [← h2]
        exact hi
      · intro s hs2
        rcases List.mem_cons.mp hs2 with rfl | hs3
        · refine List.mem_append_right _ ?_
          refine List.mem_cons.mpr (Or.inr ?_)
          simp
        · have := hs s hs3
          simpa using this

theorem explore_master (g : Directed)
    (Hout : ∀ k x, x ∈ outboundOf g k → x ∈ ndKeys g.nodes) :
    ∀ (fuel : ℕ) (V : List ℕ) (E : List (ℕ × ℕ)) (n : ℕ),
    n ∉ V → n ∈ ndKeys g.nodes → remCount g V < fuel →
    ∃ Δ nE,
      explore g fuel (V, E) n = (V ++ n :: Δ, E ++ nE) ∧
      ExpInv g V n Δ nE ∧
      (∀ s ∈ outboundOf g n, s ∈ V ++ n :: Δ) := by
  intro fuel
  induction fuel with
  | zero => intro V E n _ _ hf; exact absurd hf (Nat.not_lt_zero _)
  | succ F IH =>
    intro V E n hnV hnk hf
    have hInv0 : ExpInv g V n [] [] := by
      refine ⟨by simp, ?_, by simp, rfl, by simp, ?_, by simp⟩
      · intro x hx
        rcases List.mem_cons.mp hx with rfl | h
        · exact hnV
        · simp at h
      · intro l1 e l2 h
        exact absurd h (by simp)
    have hfuel0 : remCount g (V ++ n :: ([] : List ℕ)) < F := by
      have hlt := @remCount_lt g V (V ++ [n]) n
        (fun x hx => List.mem_append_left _ hx) hnk hnV
        (List.mem_append_right _ (List.mem_cons_self _ _))
      omega
    obtain ⟨Δ₁, nE₁, he, hi, hsout⟩ :=
      explore_fold_aux g Hout F IH n V E (outboundOf g n) [] []
        (fun s hs => hs) hInv0 hfuel0
    rw [explore_succ_eq]
    refine ⟨Δ₁, nE₁, ?_, ?_, ?_⟩
    · have h2 : (V ++ [n], E) = (V ++ n :: ([] : List ℕ), E ++ ([] : List (ℕ × ℕ))) := by simp
      rw [h2, he]
      simp
    · simpa using hi
    · intro s hs
      have := hsout s hs
      simpa using this

theorem indexOf_decomp_self {l P M Q : List ℕ} {x : ℕ} (hnd : l.Nodup)
    (hd : l = P ++ x :: M ++ Q) : l.indexOf x = P.length := by
  subst hd
  rw [List.nodup_append] at hnd
  have hin : (P ++ x :: M).Nodup := hnd.1
  rw [List.nodup_append] at hin
  have hxP : x ∉ P := fun hp => hin.2.2 hp (List.mem_cons_self _ _)
  rw [List.indexOf_append_of_mem (List.mem_append_right _ (List.mem_cons_self _ _)),
    List.indexOf_append_of_not_mem hxP, List.indexOf_cons_self]
  omega

theorem indexOf_decomp_mid {l P M Q : List ℕ} {x y : ℕ} (hnd : l.Nodup)
    (hd : l = P ++ x :: M ++ Q) (hy : y ∈ M) :
    P.length < l.indexOf y ∧ l.indexOf y ≤ P.length + M.length := by
  subst hd
  rw [List.nodup_append] at hnd
  have hin : (P ++ x :: M).Nodup := hnd.1
  rw [List.nodup_append] at hin
  have hyP : y ∉ P := fun hp => hin.2.2 hp (List.mem_cons_of_mem _ hy)
  have hyx : y ≠ x := by
    intro hc
    subst hc
    exact (List.nodup_cons.mp hin.2.1).1 hy
  rw [List.indexOf_append_of_mem (List.mem_append_right _ (List.mem_cons_of_mem _ hy)),
    List.indexOf_append_of_not_mem hyP, List.indexOf_cons_ne _ (Ne.symm hyx)]
  have hlt : M.indexOf y < M.length := List.indexOf_lt_length.mpr hy
  omega

theorem mem_mid_of_indexOf {l P M Q : List ℕ} {x y : ℕ} (hnd : l.Nodup)
    (hd : l = P ++ x :: M ++ Q) (hy : y ∈ l)
    (h1 : P.length < l.indexOf y) (h2 : l.indexOf y ≤ P.length + M.length) : y ∈ M := by
  subst hd
  have hnd2 := hnd
  rw [List.nodup_append] at hnd2
  have hin : (P ++ x :: M).Nodup := hnd2.1
  rw [List.nodup_append] at hin
  rcases List.mem_append.mp hy with hPM | hQ
  · rcases List.mem_append.mp hPM with hP | hxM
    · exfalso
      rw [List.indexOf_append_of_mem (List.mem_append_left _ hP),
        List.indexOf_append_of_mem hP] at h1
      have := List.indexOf_lt_length.mpr hP
      omega
    · rcases List.mem_cons.mp hxM with rfl | hM
      · exfalso
        have := indexOf_decomp_self hnd rfl
        omega
      · exact hM
  · exfalso
    have hyPM : y ∉ P ++ x :: M := fun hp => hnd2.2.2 hp hQ
    rw [List.indexOf_append_of_not_mem hyPM] at h2
    simp only [List.length_append, List.length_cons] at h2
    omega

theorem explore_facts (g : Directed)
    (Hout : ∀ k x, x ∈ outboundOf g k → x ∈ ndKeys g.nodes)
    (r : ℕ) (hr : r ∈ ndKeys g.nodes) (fuel : ℕ) (hf : remCount g [] < fuel) :
    ∃ Δ nE, explore g fuel ([], []) r = (r :: Δ, nE) ∧ DfsFacts g r (r :: Δ) nE := by
  obtain ⟨Δ, nE, he, hInv, hsout⟩ := explore_master g Hout fuel [] [] r (by simp) hr hf
  obtain ⟨i1, i2, i3, i4, i5, i6, i7⟩ := hInv
  have hsrc : ∀ e ∈ nE, e.1 ∈ r :: Δ := by
    have h := srcs_mem_of_split i6
    rwa [i4] at h
  have hdst : ∀ e ∈ nE, e.2 ∈ Δ := by
    intro e he2
    rw [← i4]
    exact List.mem_map_of_mem Prod.snd he2
  refine ⟨Δ, nE, by simpa using he, ?_⟩
  refine ⟨i1, by rw [i4], i5, hsrc, ?_, ?_, ?_, ?_⟩
  · -- edge_idx
    intro e he2
    obtain ⟨l1, l2, rfl⟩ := List.append_of_mem he2
    have h6 := i6 l1 e l2 rfl
    have hkeq : r :: Δ = (r :: l1.map Prod.snd) ++ e.2 :: l2.map Prod.snd ++ [] := by
      rw [← i4]
      simp
    have hidx2 : (r :: Δ).indexOf e.2 = (r :: l1.map Prod.snd).length :=
      indexOf_decomp_self i1 hkeq
    have hmem1 : e.1 ∈ r :: l1.map Prod.snd := h6
    have hidx1 : (r :: Δ).indexOf e.1 < (r :: l1.map Prod.snd).length := by
      have hpre : r :: Δ = (r :: l1.map Prod.snd) ++ (e.2 :: l2.map Prod.snd) := by
        rw [← i4]
        simp
      rw [hpre, List.indexOf_append_of_mem hmem1]
      exact List.indexOf_lt_length.mpr hmem1
    omega
  · -- closed
    intro x hx s hs
    rcases List.mem_cons.mp hx with rfl | hxΔ
    · have := hsout s hs
      simpa using this
    · obtain ⟨P, M, Q, hdec, _, _, hB3⟩ := i7 x hxΔ
      have h2 := hB3 s hs
      simp only [List.nil_append] at h2
      rw [hdec]
      simp only [List.mem_append, List.mem_cons] at h2 ⊢
      tauto
  · -- keysmem
    intro x hx
    rcases List.mem_cons.mp hx with rfl | hxΔ
    · exact hr
    · exact i3 x hxΔ
  · -- blocks
    intro x hx
    rcases List.mem_cons.mp hx with rfl | hxΔ
    · refine ⟨[], Δ, [], by simp, ?_, ?_, ?_⟩
      · intro e he2 _
        exact hsrc e he2
      · intro e he2 _
        exact hdst e he2
      · intro s hs
        have := hsout s hs
        simpa using this
    · obtain ⟨P, M, Q, hdec, hB1, hB2, hB3⟩ := i7 x hxΔ
      refine ⟨P, M, Q, hdec, hB1, hB2, ?_⟩
      intro s hs
      have h2 := hB3 s hs
      simpa using h2

theorem parentE_mem {E₀ : List (ℕ × ℕ)} {c p : ℕ} (h : parentE E₀ c = some p) :
    ∃ e ∈ E₀, e.1 = p ∧ e.2 = c := by
  unfold parentE at h
  cases hh : (E₀.filter (fun e => decide (e.2 = c))).head? with
  | none => rw [hh] at h; simp at h
  | some e =>
    rw [hh] at h
    simp at h
    have hmem : e ∈ E₀.filter (fun e => decide (e.2 = c)) := List.mem_of_mem_head? hh
    rw [List.mem_filter] at hmem
    exact ⟨e, hmem.1, by simpa using h, by simpa using hmem.2⟩

theorem parentE_eq {E₀ : List (ℕ × ℕ)} (hnd : (E₀.map Prod.snd).Nodup) :
    ∀ e ∈ E₀, parentE E₀ e.2 = some e.1 := by
  induction E₀ with
  | nil => simp
  | cons f rest ih =>
    intro e he
    rcases List.mem_cons.mp he with rfl | he2
    · simp [parentE, List.filter_cons]
    · have hnd2 : (rest.map Prod.snd).Nodup := (List.nodup_cons.mp (by simpa using hnd)).2
      have hne : f.2 ≠ e.2 := by
        intro hc
        have h2 : e.2 ∈ rest.map Prod.snd := List.mem_map_of_mem _ he2
        rw [← hc] at h2
        exact (List.nodup_cons.mp (by simpa using hnd)).1 h2
      have hrec := ih hnd2 e he2
      unfold parentE at hrec ⊢
      rw [List.filter_cons]
      have hcond : (decide (f.2 = e.2)) = false := decide_eq_false hne
      rw [hcond]
      simpa using hrec

theorem DfsFacts.dsts_nodup {g : Directed} {r : ℕ} {keys : List ℕ} {E₀ : List (ℕ × ℕ)}
    (hF : DfsFacts g r keys E₀) : (E₀.map Prod.snd).Nodup := by
  have h := hF.nodup
  rw [hF.headEq] at h
  exact (List.nodup_cons.mp h).2

theorem DfsFacts.dst_mem_keys {g : Directed} {r : ℕ} {keys : List ℕ} {E₀ : List (ℕ × ℕ)}
    (hF : DfsFacts g r keys E₀) {e : ℕ × ℕ} (he : e ∈ E₀) : e.2 ∈ keys := by
  rw [hF.headEq]
  exact List.mem_cons_of_mem _ (List.mem_map_of_mem _ he)

theorem DfsFacts.parent_exists {g : Directed} {r : ℕ} {keys : List ℕ} {E₀ : List (ℕ × ℕ)}
    (hF : DfsFacts g r keys E₀) {c : ℕ} (hc : c ∈ keys) (hcr : c ≠ r) :
    ∃ e ∈ E₀, e.2 = c ∧ parentE E₀ c = some e.1 := by
  rw [hF.headEq] at hc
  rcases List.mem_cons.mp hc with rfl | hdst
  · exact absurd rfl hcr
  · obtain ⟨e, he, he2⟩ := List.mem_map.mp hdst
    refine ⟨e, he, he2, ?_⟩
    rw [← he2]
    exact parentE_eq hF.dsts_nodup e he

theorem DfsFacts.parent_ne_root {g : Directed} {r : ℕ} {keys : List ℕ} {E₀ : List (ℕ × ℕ)}
    (hF : DfsFacts g r keys E₀) {c p : ℕ} (h : parentE E₀ c = some p) : c ≠ r := by
  obtain ⟨e, he, _, he2⟩ := parentE_mem h
  intro hc
  subst hc
  have hcd : c ∈ E₀.map Prod.snd := by
    rw [← he2]
    exact List.mem_map_of_mem _ he
  have hnd := hF.nodup
  rw [hF.headEq] at hnd
  exact (List.nodup_cons.mp hnd).1 hcd

theorem DfsFacts.anc_mem {g : Directed} {r : ℕ} {keys : List ℕ} {E₀ : List (ℕ × ℕ)}
    (hF : DfsFacts g r keys E₀) {a b : ℕ} (h : AncE E₀ a b) : a ∈ keys ∧ b ∈ keys := by
  induction h with
  | parent hp =>
    obtain ⟨e, he, h1, h2⟩ := parentE_mem hp
    exact ⟨h1 ▸ hF.src_mem e he, h2 ▸ hF.dst_mem_keys he⟩
  | step hp _ ih =>
    obtain ⟨e, he, _, h2⟩ := parentE_mem hp
    exact ⟨ih.1, h2 ▸ hF.dst_mem_keys he⟩

theorem DfsFacts.anc_idx {g : Directed} {r : ℕ} {keys : List ℕ} {E₀ : List (ℕ × ℕ)}
    (hF : DfsFacts g r keys E₀) {a b : ℕ} (h : AncE E₀ a b) :
    keys.indexOf a < keys.indexOf b := by
  induction h with
  | parent hp =>
    obtain ⟨e, he, h1, h2⟩ := parentE_mem hp
    have := hF.edge_idx e he
    rw [h1, h2] at this
    exact this
  | step hp _ ih =>
    obtain ⟨e, he, h1, h2⟩ := parentE_mem hp
    have := hF.edge_idx e he
    rw [h1, h2] at this
    omega

theorem DfsFacts.anc_child {g : Directed} {r : ℕ} {keys : List ℕ} {E₀ : List (ℕ × ℕ)}
    (hF : DfsFacts g r keys E₀) {a b : ℕ} (h : AncE E₀ a b) :
    ∃ c, parentE E₀ c = some a ∧ c ∈ keys ∧ c ≠ r ∧
      keys.indexOf c ≤ keys.indexOf b := by
  induction h with
  | parent hp =>
    obtain ⟨e, he, _, h2⟩ := parentE_mem hp
    exact ⟨_, hp, h2 ▸ hF.dst_mem_keys he, hF.parent_ne_root hp, le_refl _⟩
  | step hp hanc ih =>
    obtain ⟨c, hc1, hc2, hc3, hc4⟩ := ih
    refine ⟨c, hc1, hc2, hc3, ?_⟩
    obtain ⟨e, he, h1, h2⟩ := parentE_mem hp
    have h3 := hF.edge_idx e he
    rw [h1, h2] at h3
    omega

theorem indexOf_injOn {l : List ℕ} {a b : ℕ} (ha : a ∈ l) (hb : b ∈ l)
    (h : l.indexOf a = l.indexOf b) : a = b := by
  have h1 : l.indexOf a < l.length := List.indexOf_lt_length.mpr ha
  have h2 : l.indexOf b < l.length := List.indexOf_lt_length.mpr hb
  have e1 := List.indexOf_get h1
  have e2 := List.indexOf_get h2
  rw [← e1, ← e2]
  congr 1
  exact Fin.ext h

theorem DfsFacts.mid_to_anc {g : Directed} {r : ℕ} {keys : List ℕ} {E₀ : List (ℕ × ℕ)}
    (hF : DfsFacts g r keys E₀) {x : ℕ} {P M Q : List ℕ}
    (hdec : keys = P ++ x :: M ++ Q)
    (hB1 : ∀ e ∈ E₀, e.2 ∈ M → e.1 ∈ x :: M) :
    ∀ c ∈ M, AncE E₀ x c := by
  have hidxr : keys.indexOf r = 0 := by
    rw [hF.headEq]
    exact List.indexOf_cons_self _ _
  have main : ∀ N, ∀ c ∈ M, keys.indexOf c < N → AncE E₀ x c := by
    intro N
    induction N with
    | zero => intro c _ h; omega
    | succ N ihN =>
      intro c hc hlt
      have hck : c ∈ keys := by
        rw [hdec]
        simp [hc]
      have hgt : P.length < keys.indexOf c := (indexOf_decomp_mid hF.nodup hdec hc).1
      have hcr : c ≠ r := by
        intro hc2
        subst hc2
        omega
      obtain ⟨e, he, he2, hpar⟩ := hF.parent_exists hck hcr
      have hsrc := hB1 e he (he2 ▸ hc)
      rcases List.mem_cons.mp hsrc with hx | hM
      · exact AncE.parent (hx ▸ hpar)
      · have hidx := hF.edge_idx e he
        rw [he2] at hidx
        exact AncE.step hpar (ihN e.1 hM (by omega))
  intro c hc
  exact main (keys.indexOf c + 1) c hc (by omega)

theorem DfsFacts.anc_to_mid {g : Directed} {r : ℕ} {keys : List ℕ} {E₀ : List (ℕ × ℕ)}
    (hF : DfsFacts g r keys E₀) {x : ℕ} {P M Q : List ℕ}
    (hdec : keys = P ++ x :: M ++ Q)
    (hB2 : ∀ e ∈ E₀, e.1 ∈ x :: M → e.2 ∈ M) :
    ∀ {c : ℕ}, AncE E₀ x c → c ∈ M := by
  intro c h
  induction h with
  | parent hp =>
    obtain ⟨e, he, h1, h2⟩ := parentE_mem hp
    have h3 := hB2 e he (by rw [h1]; exact List.mem_cons_self _ _)
    rwa [h2] at h3
  | step hp hanc ih =>
    obtain ⟨e, he, h1, h2⟩ := parentE_mem hp
    have h3 := hB2 e he (by rw [h1]; exact List.mem_cons_of_mem _ ih)
    rwa [h2] at h3

theorem DfsFacts.edge_anc {g : Directed} {r : ℕ} {keys : List ℕ} {E₀ : List (ℕ × ℕ)}
    (hF : DfsFacts g r keys E₀) {u w : ℕ} (hu : u ∈ keys) (hw : w ∈ outboundOf g u)
    (hidx : keys.indexOf u < keys.indexOf w) : AncE E₀ u w := by
  obtain ⟨P, M, Q, hdec, hB1, hB2, hB3⟩ := hF.blocks u hu
  have hwP := hB3 w hw
  rcases List.mem_append.mp hwP with hP | hcons
  · exfalso
    have h1 : keys.indexOf w < P.length := by
      rw [hdec, List.indexOf_append_of_mem (List.mem_append_left _ hP),
        List.indexOf_append_of_mem hP]
      exact List.indexOf_lt_length.mpr hP
    have h2 : keys.indexOf u = P.length := indexOf_decomp_self hF.nodup hdec
    omega
  · rcases List.mem_cons.mp hcons with rfl | hM
    · omega
    · exact hF.mid_to_anc hdec hB1 w hM

theorem DfsFacts.between {g : Directed} {r : ℕ} {keys : List ℕ} {E₀ : List (ℕ × ℕ)}
    (hF : DfsFacts g r keys E₀) {a b c : ℕ} (hanc : AncE E₀ a c) (hb : b ∈ keys)
    (h1 : keys.indexOf a < keys.indexOf b) (h2 : keys.indexOf b ≤ keys.indexOf c) :
    AncE E₀ a b := by
  have ha : a ∈ keys := (hF.anc_mem hanc).1
  obtain ⟨P, M, Q, hdec, hB1, hB2, _⟩ := hF.blocks a ha
  have hcM : c ∈ M := hF.anc_to_mid hdec hB2 hanc
  have hcb := indexOf_decomp_mid hF.nodup hdec hcM
  have hxa : keys.indexOf a = P.length := indexOf_decomp_self hF.nodup hdec
  have hbM : b ∈ M := mem_mid_of_indexOf hF.nodup hdec hb (by omega) (by omega)
  exact hF.mid_to_anc hdec hB1 b hbM

theorem DfsFacts.path_anc_aux {g : Directed} {r : ℕ} {keys : List ℕ} {E₀ : List (ℕ × ℕ)}
    (hF : DfsFacts g r keys E₀) {a b : ℕ} (hab : keys.indexOf a < keys.indexOf b) :
    ∀ (L : List ℕ) (cur : ℕ), GPath g cur L b → cur ∈ keys →
    (cur = a ∨ AncE E₀ a cur) →
    (∀ z ∈ L, keys.indexOf b < keys.indexOf z) →
    AncE E₀ a b := by
  intro L
  induction L with
  | nil =>
    intro cur hpath hck hcur _
    cases hpath with
    | single hedge =>
      have hbk : b ∈ keys := hF.closed cur hck b hedge
      rcases hcur with rfl | hanc
      · exact hF.edge_anc hck hedge hab
      · rcases lt_trichotomy (keys.indexOf cur) (keys.indexOf b) with h | h | h
        · exact AncE_trans hanc (hF.edge_anc hck hedge h)
        · have heq : cur = b := indexOf_injOn hck hbk h
          exact heq ▸ hanc
        · exact hF.between hanc hbk hab (le_of_lt h)
  | cons z L2 ihL =>
    intro cur hpath hck hcur hint
    cases hpath with
    | cons hedge hrest =>
      have hzk : z ∈ keys := hF.closed cur hck z hedge
      have hzb : keys.indexOf b < keys.indexOf z := hint z (List.mem_cons_self _ _)
      have hz : z = a ∨ AncE E₀ a z := by
        rcases hcur with rfl | hanc
        · exact Or.inr (hF.edge_anc hck hedge (by omega))
        · rcases lt_trichotomy (keys.indexOf cur) (keys.indexOf z) with h | h | h
          · exact Or.inr (AncE_trans hanc (hF.edge_anc hck hedge h))
          · have heq : cur = z := indexOf_injOn hck hzk h
            exact Or.inr (heq ▸ hanc)
          · exact Or.inr (hF.between hanc hzk (by omega) (le_of_lt h))
      exact ihL z hrest hzk hz (fun w hw => hint w (List.mem_cons_of_mem _ hw))

theorem DfsFacts.path_anc {g : Directed} {r : ℕ} {keys : List ℕ} {E₀ : List (ℕ × ℕ)}
    (hF : DfsFacts g r keys E₀) {a b : ℕ} {L : List ℕ} (hpath : GPath g a L b)
    (ha : a ∈ keys) (hab : keys.indexOf a < keys.indexOf b)
    (hint : ∀ z ∈ L, keys.indexOf b < keys.indexOf z) : AncE E₀ a b :=
  hF.path_anc_aux hab L a hpath ha (Or.inl rfl) hint


/-! ### From `explore` to `mkDFST` -/

theorem lookup_map_entries (nd : NodeMap) (f : GNode → GNode) (k : ℕ) :
    List.lookup k (nd.map (fun p => (p.1, f p.2))) = (List.lookup k nd).map f := by
  induction nd with
  | nil => simp [List.lookup]
  | cons p rest ih =>
    simp only [List.map_cons, List.lookup]
    cases hb : (k == p.1) <;> simp [ih]

theorem ndKeys_map_entries (nd : NodeMap) (f : GNode → GNode) :
    ndKeys (nd.map (fun p => (p.1, f p.2))) = ndKeys nd := by
  simp [ndKeys, List.map_map, Function.comp]

theorem decorate_foldl (l : List ℕ) : ∀ (i : ℕ) (nd : NodeMap), l.Nodup →
    (∀ k ∈ l, k ∈ ndKeys nd) →
    ∀ k, dfnumOf ((l.enumFrom i).foldl
        (fun nd p => alUpdate nd p.2 (fun m => { m with dfnum := p.1 })) nd) k
      = if k ∈ l then i + l.indexOf k else dfnumOf nd k := by
  induction l with
  | nil => intro i nd _ _ k; simp
  | cons x rest ih =>
    intro i nd hnd hpres k
    have hxk : x ∈ ndKeys nd := hpres x (List.mem_cons_self _ _)
    obtain ⟨m, hm⟩ := Option.isSome_iff_exists.mp ((lookup_isSome_iff_mem _ _).mpr hxk)
    have hstep : (List.enumFrom i (x :: rest)).foldl
        (fun nd p => alUpdate nd p.2 (fun m => { m with dfnum := p.1 })) nd
        = (rest.enumFrom (i + 1)).foldl
            (fun nd p => alUpdate nd p.2 (fun m => { m with dfnum := p.1 }))
            (alUpdate nd x (fun m => { m with dfnum := i })) := by
      simp [List.enumFrom]
    rw [hstep, ih (i + 1) _ (List.nodup_cons.mp hnd).2
      (fun k2 hk2 => by rw [ndKeys_alUpdate]; exact hpres k2 (List.mem_cons_of_mem _ hk2))]
    by_cases hk1 : k ∈ rest
    · have hkx : k ≠ x := by
        intro hc
        subst hc
        exact (List.nodup_cons.mp hnd).1 hk1
      rw [if_pos hk1, if_pos (List.mem_cons_of_mem _ hk1),
        List.indexOf_cons_ne _ (Ne.symm hkx)]
      omega
    · by_cases hk2 : k = x
      · subst hk2
        rw [if_neg hk1, if_pos (List.mem_cons_self _ _), List.indexOf_cons_self]
        rw [dfnumOf_alUpdate_self _ _ _ m hm]
        simp
      · rw [if_neg hk1, if_neg (by simp [hk1, hk2]),
          dfnumOf_alUpdate_ne _ _ _ _ hk2]

theorem decorate_foldl_ndIn (l : List (ℕ × ℕ)) : ∀ (nd : NodeMap) (k : ℕ),
    ndIn (l.foldl (fun nd p => alUpdate nd p.2 (fun m => { m with dfnum := p.1 })) nd) k
      = ndIn nd k := by
  induction l with
  | nil => intro nd k; rfl
  | cons p rest ih =>
    intro nd k
    rw [List.foldl_cons, ih]
    exact ndIn_alUpdate_frame _ p.2 (fun m => { m with dfnum := p.1 }) (fun m => rfl) _

theorem decorate_foldl_ndKeys (l : List (ℕ × ℕ)) : ∀ (nd : NodeMap),
    ndKeys (l.foldl (fun nd p => alUpdate nd p.2 (fun m => { m with dfnum := p.1 })) nd)
      = ndKeys nd := by
  induction l with
  | nil => intro nd; rfl
  | cons p rest ih =>
    intro nd
    rw [List.foldl_cons, ih, ndKeys_alUpdate]

theorem remCount_nil (g : Directed) : remCount g [] = g.nodes.length := by
  simp [remCount, ndKeys]

theorem mkDFST_spec (g : Directed) (r : ℕ) (hroot : g.root = some r)
    (Hout : ∀ k x, x ∈ outboundOf g k → x ∈ ndKeys g.nodes)
    (hr : r ∈ ndKeys g.nodes) :
    ∃ E₀, DfsFacts g r (mkDFST g).keysDfs E₀ ∧
      (∀ k ∈ (mkDFST g).keysDfs,
        dfnumOf (mkDFST g).dir.nodes k = (mkDFST g).keysDfs.indexOf k) ∧
      (∀ k, ndIn (mkDFST g).dir.nodes k = (E₀.filter (fun e => e.2 = k)).map Prod.fst) ∧
      (∀ k, k ∈ ndKeys (mkDFST g).dir.nodes ↔ k ∈ (mkDFST g).keysDfs) := by
  obtain ⟨Δ, E₀, hexp, hF⟩ := explore_facts g Hout r hr (g.nodes.length + 1)
    (by rw [remCount_nil]; omega)
  have hT : mkDFST g = ⟨{ (mkDirected (r :: Δ) E₀ ((r :: Δ).headD 0)) with
      nodes := (((r :: Δ).enum).foldl
        (fun nd p => alUpdate nd p.2 (fun n => { n with dfnum := p.1 }))
        (mkDirected (r :: Δ) E₀ ((r :: Δ).headD 0)).nodes) }, r :: Δ⟩ := by
    unfold mkDFST
    rw [hroot]
    simp only [hexp]
  have hkeys : (mkDFST g).keysDfs = r :: Δ := by rw [hT]
  have hnodes : (mkDFST g).dir.nodes = ((r :: Δ).enum).foldl
      (fun nd p => alUpdate nd p.2 (fun n => { n with dfnum := p.1 }))
      (mkDirected (r :: Δ) E₀ ((r :: Δ).headD 0)).nodes := by rw [hT]
  have hpres : ∀ k ∈ r :: Δ, k ∈ ndKeys (mkDirected (r :: Δ) E₀ ((r :: Δ).headD 0)).nodes :=
    fun k hk => (mkDirected_mem_keys _ _ _ _).mpr hk
  have henum : (r :: Δ).enum = (r :: Δ).enumFrom 0 := rfl
  refine ⟨E₀, by rwa [hkeys], ?_, ?_, ?_⟩
  · intro k hk
    rw [hkeys] at hk
    rw [hnodes, hkeys, henum, decorate_foldl _ 0 _ hF.nodup hpres k, if_pos hk]
    omega
  · intro k
    rw [hnodes, decorate_foldl_ndIn]
    rw [show (mkDirected (r :: Δ) E₀ ((r :: Δ).headD 0)).nodes
      = (mkDirected (r :: Δ) E₀ ((r :: Δ).headD 0)).nodes from rfl]
    have := mkDirected_inbound (r :: Δ) E₀ ((r :: Δ).headD 0)
      (fun e he => hF.dst_mem_keys he) k
    rw [inboundOf_eq_ndIn] at this
    exact this
  · intro k
    rw [hnodes, decorate_foldl_ndKeys, hkeys]
    exact mkDirected_mem_keys _ _ _ _


/-! ### Invariants of the Lengauer–Tarjan main loop -/

theorem GPath_append {g : Directed} {a b c : ℕ} {L L2 : List ℕ}
    (h1 : GPath g a L b) (h2 : GPath g b L2 c) : GPath g a (L ++ b :: L2) c := by
  induction h1 with
  | single hedge => exact GPath.cons hedge h2
  | cons hedge _ ih => exact GPath.cons hedge (ih h2)

theorem GPath_snoc {g : Directed} {a b c : ℕ} {L : List ℕ}
    (h1 : GPath g a L b) (h2 : c ∈ outboundOf g b) : GPath g a (L ++ [b]) c :=
  GPath_append h1 (GPath.single h2)

theorem DfsFacts.tree_path {g : Directed} {r : ℕ} {keys : List ℕ} {E₀ : List (ℕ × ℕ)}
    (hF : DfsFacts g r keys E₀) {y v : ℕ} (h : AncE E₀ y v) :
    ∃ L, GPath g y L v ∧ ∀ z ∈ L, z ∈ keys ∧ keys.indexOf y < keys.indexOf z := by
  induction h with
  | parent hp =>
    obtain ⟨e, he, h1, h2⟩ := parentE_mem hp
    refine ⟨[], ?_, by simp⟩
    have := hF.gedge e he
    rw [h1, h2] at this
    exact GPath.single this
  | step hp hanc ih =>
    obtain ⟨L2, hpath, hint⟩ := ih
    obtain ⟨e, he, h1, h2⟩ := parentE_mem hp
    have hedge := hF.gedge e he
    rw [h1, h2] at hedge
    rename_i p b
    refine ⟨L2 ++ [p], GPath_snoc hpath hedge, ?_⟩
    intro z hz
    rcases List.mem_append.mp hz with h | h
    · exact hint z h
    · rcases List.mem_cons.mp h with rfl | h2b
      · exact ⟨(hF.anc_mem hanc).2, hF.anc_idx hanc⟩
      · simp at h2b

theorem AWLS_spec {g : Directed} {r : ℕ} {keys : List ℕ} {E₀ : List (ℕ × ℕ)}
    (hF : DfsFacts g r keys E₀) (i : ℕ) :
    ∀ (fuel : ℕ) (nd : NodeMap) (v : ℕ),
    Static keys E₀ nd → ScrInv g keys E₀ i nd →
    v ∈ keys → i ≤ keys.indexOf v →
    Static keys E₀ (AWLS fuel nd v).1 ∧
    ScrInv g keys E₀ i (AWLS fuel nd v).1 ∧
    (∀ k, semiOf (AWLS fuel nd v).1 k = semiOf nd k) ∧
    (∀ k, idomOf (AWLS fuel nd v).1 k = idomOf nd k) ∧
    (∀ k, samedomOf (AWLS fuel nd v).1 k = samedomOf nd k) ∧
    (∀ k, bucketOf (AWLS fuel nd v).1 k = bucketOf nd k) ∧
    (AWLS fuel nd v).2 ∈ keys ∧ i ≤ keys.indexOf (AWLS fuel nd v).2 ∧
    ((AWLS fuel nd v).2 = v ∨ AncE E₀ (AWLS fuel nd v).2 v) := by
  intro fuel
  induction fuel with
  | zero =>
    intro nd v hSt hScr hv hiv
    obtain ⟨b, hb, hbor, hbk, hbi⟩ := (hScr.1 v hv hiv).2.2
    have hres : AWLS 0 nd v = (nd, b) := by
      simp [AWLS, hb]
    rw [hres]
    exact ⟨hSt, hScr, fun k => rfl, fun k => rfl, fun k => rfl, fun k => rfl, hbk, hbi, hbor⟩
  | succ F ih =>
    intro nd v hSt hScr hv hiv
    obtain ⟨hsemv, hancv, hbestv⟩ := hScr.1 v hv hiv
    obtain ⟨b0, hb0, hb0or, hb0k, hb0i⟩ := hbestv
    obtain ⟨a, hav, hancav⟩ := hancv
    cases haa : ancestorOf nd a with
    | none =>
      have hres : AWLS (F + 1) nd v = (nd, b0) := by
        simp [AWLS, hav, haa, hb0]
      rw [hres]
      exact ⟨hSt, hScr, fun k => rfl, fun k => rfl, fun k => rfl, fun k => rfl,
        hb0k, hb0i, hb0or⟩
    | some a2 =>
      have haS : a ∈ keys ∧ i ≤ keys.indexOf a := by
        by_contra hc
        have := (hScr.2 a hc).2.1
        rw [this] at haa
        exact Option.noConfusion haa
      obtain ⟨hak, hai⟩ := haS
      obtain ⟨ihSt, ihScr, ihsemi, ihidom, ihsame, ihbuck, ihyk, ihyi, ihyor⟩ :=
        ih nd a hSt hScr hak hai
      have hres : AWLS (F + 1) nd v =
          (let nd1 := (AWLS F nd a).1
           let b := (AWLS F nd a).2
           let nd2 := alUpdate nd1 v fun n => { n with ancestor := ancestorOf nd1 a }
           let nd3 :=
             if dfnumOf nd2 ((semiOf nd2 b).getD 0) <
                dfnumOf nd2 ((semiOf nd2 ((bestOf nd2 v).getD v)).getD 0) then
               alUpdate nd2 v fun n => { n with best := some b }
             else nd2
           (nd3, (bestOf nd3 v).getD v)) := by
        simp only [AWLS, hav, haa]
      set nd1 := (AWLS F nd a).1 with hnd1
      set b := (AWLS F nd a).2 with hb
      set nd2 := alUpdate nd1 v (fun n => { n with ancestor := ancestorOf nd1 a }) with hnd2
      -- facts about nd2
      have hSt2 : Static keys E₀ nd2 := by
        refine ⟨?_, ?_, ?_⟩
        · intro k
          rw [hnd2, ndKeys_alUpdate]
          exact ihSt.1 k
        · intro k hk
          rw [hnd2, dfnumOf_alUpdate_frame _ v (fun n => { n with ancestor := ancestorOf nd1 a })
            (fun m => rfl)]
          exact ihSt.2.1 k hk
        · intro k
          rw [hnd2, ndIn_alUpdate_frame _ v (fun n => { n with ancestor := ancestorOf nd1 a })
            (fun m => rfl)]
          exact ihSt.2.2 k
      have hsem2 : ∀ k, semiOf nd2 k = semiOf nd k := by
        intro k
        rw [hnd2, semiOf_alUpdate_frame _ v (fun n => { n with ancestor := ancestorOf nd1 a })
          (fun m => rfl)]
        exact ihsemi k
      have hido2 : ∀ k, idomOf nd2 k = idomOf nd k := by
        intro k
        rw [hnd2, idomOf_alUpdate_frame _ v (fun n => { n with ancestor := ancestorOf nd1 a })
          (fun m => rfl)]
        exact ihidom k
      have hsam2 : ∀ k, samedomOf nd2 k = samedomOf nd k := by
        intro k
        rw [hnd2, samedomOf_alUpdate_frame _ v
          (fun n => { n with ancestor := ancestorOf nd1 a }) (fun m => rfl)]
        exact ihsame k
      have hbuc2 : ∀ k, bucketOf nd2 k = bucketOf nd k := by
        intro k
        rw [hnd2, bucketOf_alUpdate_frame _ v (fun n => { n with ancestor := ancestorOf nd1 a })
          (fun m => rfl)]
        exact ihbuck k
      -- the compressed ancestor of v is still a tree ancestor
      obtain ⟨a3, ha3, hanc3⟩ := (ihScr.1 a hak hai).2.1
      have hvp : (List.lookup v nd1).isSome = true := by
        rw [lookup_isSome_iff_mem]
        exact (ihSt.1 v).mpr hv
      obtain ⟨mv, hmv⟩ := Option.isSome_iff_exists.mp hvp
      have hScr2 : ScrInv g keys E₀ i nd2 := by
        constructor
        · intro k hk hik
          obtain ⟨hs1, hs2, hs3⟩ := ihScr.1 k hk hik
          by_cases hkv : k = v
          · subst hkv
            refine ⟨?_, ?_, ?_⟩
            · obtain ⟨s, hs, hrest⟩ := hs1
              exact ⟨s, by rw [hsem2, ← ihsemi]; exact hs, hrest⟩
            · refine ⟨a3, ?_, AncE_trans hanc3 hancav⟩
              rw [hnd2]
              rw [ancestorOf_alUpdate_self _ _ _ mv hmv]
              exact ha3
            · obtain ⟨b2, hb2, hrest⟩ := hs3
              refine ⟨b2, ?_, hrest⟩
              rw [hnd2, bestOf_alUpdate_frame _ k
                (fun n => { n with ancestor := ancestorOf nd1 a }) (fun m => rfl)]
              exact hb2
          · refine ⟨?_, ?_, ?_⟩
            · obtain ⟨s, hs, hrest⟩ := hs1
              exact ⟨s, by rw [hsem2, ← ihsemi]; exact hs, hrest⟩
            · obtain ⟨a4, ha4, hrest⟩ := hs2
              refine ⟨a4, ?_, hrest⟩
              rw [hnd2, ancestorOf_alUpdate_ne _ _ _ _ hkv]
              exact ha4
            · obtain ⟨b2, hb2, hrest⟩ := hs3
              refine ⟨b2, ?_, hrest⟩
              rw [hnd2, bestOf_alUpdate_ne _ _ _ _ hkv]
              exact hb2
        · intro k hk
          have hkv : k ≠ v := by
            intro hc
            subst hc
            exact hk ⟨hv, hiv⟩
          obtain ⟨h1, h2, h3⟩ := ihScr.2 k hk
          refine ⟨?_, ?_, ?_⟩
          · rw [hsem2, ← ihsemi]
            exact h1
          · rw [hnd2, ancestorOf_alUpdate_ne _ _ _ _ hkv]
            exact h2
          · rw [hnd2, bestOf_alUpdate_ne _ _ _ _ hkv]
            exact h3
      -- the best candidate is valid for v
      have hbor2 : b = v ∨ AncE E₀ b v := by
        rcases ihyor with h | h
        · exact Or.inr (h ▸ hancav)
        · exact Or.inr (AncE_trans h hancav)
      have hv2p : (List.lookup v nd2).isSome = true := by
        rw [lookup_isSome_iff_mem]
        exact (hSt2.1 v).mpr hv
      obtain ⟨mv2, hmv2⟩ := Option.isSome_iff_exists.mp hv2p
      by_cases hcond : dfnumOf nd2 ((semiOf nd2 b).getD 0) <
          dfnumOf nd2 ((semiOf nd2 ((bestOf nd2 v).getD v)).getD 0)
      · -- best is replaced by b
        have hres2 : AWLS (F + 1) nd v =
            (alUpdate nd2 v (fun n => { n with best := some b }),
             (bestOf (alUpdate nd2 v (fun n => { n with best := some b })) v).getD v) := by
          rw [hres]
          simp only [← hnd1, ← hb, ← hnd2, if_pos hcond]
        have hbset : bestOf (alUpdate nd2 v (fun n => { n with best := some b })) v = some b :=
          bestOf_alUpdate_self _ _ _ mv2 hmv2
        rw [hres2]
        refine ⟨?_, ?_, ?_, ?_, ?_, ?_, ?_, ?_, ?_⟩
        · refine ⟨?_, ?_, ?_⟩
          · intro k
            rw [ndKeys_alUpdate]
            exact hSt2.1 k
          · intro k hk
            rw [dfnumOf_alUpdate_frame _ v (fun n => { n with best := some b })
              (fun m => rfl)]
            exact hSt2.2.1 k hk
          · intro k
            rw [ndIn_alUpdate_frame _ v (fun n => { n with best := some b }) (fun m => rfl)]
            exact hSt2.2.2 k
        · constructor
          · intro k hk hik
            obtain ⟨hs1, hs2, hs3⟩ := hScr2.1 k hk hik
            by_cases hkv : k = v
            · subst hkv
              refine ⟨?_, ?_, ?_⟩
              · obtain ⟨s, hs, hrest⟩ := hs1
                refine ⟨s, ?_, hrest⟩
                rw [semiOf_alUpdate_frame _ k (fun n => { n with best := some b })
                  (fun m => rfl)]
                exact hs
              · obtain ⟨a4, ha4, hrest⟩ := hs2
                refine ⟨a4, ?_, hrest⟩
                rw [ancestorOf_alUpdate_frame _ k (fun n => { n with best := some b })
                  (fun m => rfl)]
                exact ha4
              · exact ⟨b, hbset, hbor2, ihyk, ihyi⟩
            · refine ⟨?_, ?_, ?_⟩
              · obtain ⟨s, hs, hrest⟩ := hs1
                refine ⟨s, ?_, hrest⟩
                rw [semiOf_alUpdate_frame _ v (fun n => { n with best := some b })
                  (fun m => rfl)]
                exact hs
              · obtain ⟨a4, ha4, hrest⟩ := hs2
                refine ⟨a4, ?_, hrest⟩
                rw [ancestorOf_alUpdate_ne _ _ _ _ hkv]
                exact ha4
              · obtain ⟨b2, hb2, hrest⟩ := hs3
                refine ⟨b2, ?_, hrest⟩
                rw [bestOf_alUpdate_ne _ _ _ _ hkv]
                exact hb2
          · intro k hk
            have hkv : k ≠ v := by
              intro hc
              subst hc
              exact hk ⟨hv, hiv⟩
            obtain ⟨h1, h2, h3⟩ := hScr2.2 k hk
            refine ⟨?_, ?_, ?_⟩
            · rw [semiOf_alUpdate_frame _ v (fun n => { n with best := some b })
                (fun m => rfl)]
              exact h1
            · rw [ancestorOf_alUpdate_ne _ _ _ _ hkv]
              exact h2
            · rw [bestOf_alUpdate_ne _ _ _ _ hkv]
              exact h3
        · intro k
          rw [semiOf_alUpdate_frame _ v (fun n => { n with best := some b }) (fun m => rfl)]
          exact hsem2 k
        · intro k
          rw [idomOf_alUpdate_frame _ v (fun n => { n with best := some b }) (fun m => rfl)]
          exact hido2 k
        · intro k
          rw [samedomOf_alUpdate_frame _ v (fun n => { n with best := some b }) (fun m => rfl)]
          exact hsam2 k
        · intro k
          rw [bucketOf_alUpdate_frame _ v (fun n => { n with best := some b }) (fun m => rfl)]
          exact hbuc2 k
        · rw [hbset]
          exact ihyk
        · rw [hbset]
          exact ihyi
        · rw [hbset]
          exact hbor2
      · -- best is kept
        have hres2 : AWLS (F + 1) nd v = (nd2, (bestOf nd2 v).getD v) := by
          rw [hres]
          simp only [← hnd1, ← hb, ← hnd2, if_neg hcond]
        rw [hres2]
        obtain ⟨b3, hb3, hb3or, hb3k, hb3i⟩ := (hScr2.1 v hv hiv).2.2
        rw [hb3]
        exact ⟨hSt2, hScr2, hsem2, hido2, hsam2, hbuc2, hb3k, hb3i, hb3or⟩

theorem drainBucket_spec {g : Directed} {r : ℕ} {keys : List ℕ} {E₀ : List (ℕ × ℕ)}
    (hF : DfsFacts g r keys E₀) (i : ℕ) (hi : 1 ≤ i) (fuelA : ℕ) :
    ∀ (fuel : ℕ) (nd : NodeMap) (p : ℕ),
    (bucketOf nd p).length ≤ fuel →
    Static keys E₀ nd → ScrInv g keys E₀ i nd →
    (∀ k ∈ keys, i ≤ keys.indexOf k → ResStatus keys nd k) →
    (∀ k, ¬(k ∈ keys ∧ i ≤ keys.indexOf k) → idomOf nd k = none ∧ samedomOf nd k = none) →
    BuckEntries keys i nd →
    (∀ s, (bucketOf nd s).Nodup) →
    Static keys E₀ (drainBucket fuelA fuel nd p) ∧
    ScrInv g keys E₀ i (drainBucket fuelA fuel nd p) ∧
    (∀ k, semiOf (drainBucket fuelA fuel nd p) k = semiOf nd k) ∧
    bucketOf (drainBucket fuelA fuel nd p) p = [] ∧
    (∀ s, s ≠ p → bucketOf (drainBucket fuelA fuel nd p) s = bucketOf nd s) ∧
    (∀ s, (bucketOf (drainBucket fuelA fuel nd p) s).Nodup) ∧
    (∀ k ∈ keys, i ≤ keys.indexOf k → ResStatus keys (drainBucket fuelA fuel nd p) k) ∧
    (∀ k, ¬(k ∈ keys ∧ i ≤ keys.indexOf k) →
      idomOf (drainBucket fuelA fuel nd p) k = none ∧
      samedomOf (drainBucket fuelA fuel nd p) k = none) ∧
    BuckEntries keys i (drainBucket fuelA fuel nd p) ∧
    (∀ k, k ∉ bucketOf nd p →
      idomOf (drainBucket fuelA fuel nd p) k = idomOf nd k ∧
      samedomOf (drainBucket fuelA fuel nd p) k = samedomOf nd k) := by
  intro fuel
  induction fuel with
  | zero =>
    intro nd p hlen hSt hScr hResP hResN hBE hND
    have hempty : bucketOf nd p = [] := List.length_eq_zero.mp (Nat.le_zero.mp hlen)
    have hres : drainBucket fuelA 0 nd p = nd := rfl
    rw [hres]
    exact ⟨hSt, hScr, fun k => rfl, hempty, fun s _ => rfl, hND, hResP, hResN, hBE,
      fun k _ => ⟨rfl, rfl⟩⟩
  | succ F ihF =>
    intro nd p hlen hSt hScr hResP hResN hBE hND
    cases hlast : (bucketOf nd p).getLast? with
    | none =>
      have hempty : bucketOf nd p = [] := by
        cases hb : bucketOf nd p with
        | nil => rfl
        | cons x xs =>
          rw [hb] at hlast
          simp [List.getLast?] at hlast
      have hres : drainBucket fuelA (F + 1) nd p = nd := by
        show (match (bucketOf nd p).getLast? with
          | none => nd
          | some v => _) = nd
        rw [hlast]
      rw [hres]
      exact ⟨hSt, hScr, fun k => rfl, hempty, fun s _ => rfl, hND, hResP, hResN, hBE,
        fun k _ => ⟨rfl, rfl⟩⟩
    | some v =>
      have hvmem : v ∈ bucketOf nd p := List.mem_of_mem_getLast? hlast
      obtain ⟨hvk, hvi, hvsem, hvid, hvsd⟩ := hBE p v hvmem
      have hsplit : (bucketOf nd p).dropLast ++ [v] = bucketOf nd p :=
        List.dropLast_append_getLast? v hlast
      have hvnotdl : v ∉ (bucketOf nd p).dropLast := by
        have hnd2 := hND p
        rw [← hsplit, List.nodup_append] at hnd2
        exact fun hc => hnd2.2.2 hc (List.mem_cons_self _ _)
      have hpk : (List.lookup p nd).isSome = true := by
        cases hl : List.lookup p nd with
        | some m => rfl
        | none =>
          exfalso
          have hb : bucketOf nd p = [] := by simp [bucketOf, hl]
          rw [hb] at hvmem
          simp at hvmem
      obtain ⟨mp, hmp⟩ := Option.isSome_iff_exists.mp hpk
      -- step 1: pop the bucket
      set nd1 := alUpdate nd p (fun n => { n with bucket := n.bucket.dropLast }) with hnd1
      have hb1p : bucketOf nd1 p = (bucketOf nd p).dropLast := by
        rw [hnd1, bucketOf_alUpdate_self _ _ _ mp hmp]
        simp [bucketOf, hmp]
      have hb1ne : ∀ s, s ≠ p → bucketOf nd1 s = bucketOf nd s := by
        intro s hs
        rw [hnd1, bucketOf_alUpdate_ne _ _ _ _ hs]
      have hSt1 : Static keys E₀ nd1 := by
        refine ⟨?_, ?_, ?_⟩
        · intro k
          rw [hnd1, ndKeys_alUpdate]
          exact hSt.1 k
        · intro k hk
          rw [hnd1, dfnumOf_alUpdate_frame _ p (fun n => { n with bucket := n.bucket.dropLast })
            (fun m => rfl)]
          exact hSt.2.1 k hk
        · intro k
          rw [hnd1, ndIn_alUpdate_frame _ p (fun n => { n with bucket := n.bucket.dropLast })
            (fun m => rfl)]
          exact hSt.2.2 k
      have hsem1 : ∀ k, semiOf nd1 k = semiOf nd k := fun k => by
        rw [hnd1, semiOf_alUpdate_frame _ p (fun n => { n with bucket := n.bucket.dropLast })
          (fun m => rfl)]
      have hanc1 : ∀ k, ancestorOf nd1 k = ancestorOf nd k := fun k => by
        rw [hnd1, ancestorOf_alUpdate_frame _ p
          (fun n => { n with bucket := n.bucket.dropLast }) (fun m => rfl)]
      have hbest1 : ∀ k, bestOf nd1 k = bestOf nd k := fun k => by
        rw [hnd1, bestOf_alUpdate_frame _ p (fun n => { n with bucket := n.bucket.dropLast })
          (fun m => rfl)]
      have hid1 : ∀ k, idomOf nd1 k = idomOf nd k := fun k => by
        rw [hnd1, idomOf_alUpdate_frame _ p (fun n => { n with bucket := n.bucket.dropLast })
          (fun m => rfl)]
      have hsd1 : ∀ k, samedomOf nd1 k = samedomOf nd k := fun k => by
        rw [hnd1, samedomOf_alUpdate_frame _ p (fun n => { n with bucket := n.bucket.dropLast })
          (fun m => rfl)]
      have hScr1 : ScrInv g keys E₀ i nd1 := by
        constructor
        · intro k hk hik
          obtain ⟨h1, h2, h3⟩ := hScr.1 k hk hik
          refine ⟨?_, ?_, ?_⟩
          · obtain ⟨s, hs, hrest⟩ := h1
            exact ⟨s, by rw [hsem1]; exact hs, hrest⟩
          · obtain ⟨a, ha, hrest⟩ := h2
            exact ⟨a, by rw [hanc1]; exact ha, hrest⟩
          · obtain ⟨b, hb, hrest⟩ := h3
            exact ⟨b, by rw [hbest1]; exact hb, hrest⟩
        · intro k hk
          obtain ⟨h1, h2, h3⟩ := hScr.2 k hk
          exact ⟨by rw [hsem1]; exact h1, by rw [hanc1]; exact h2, by rw [hbest1]; exact h3⟩
      -- step 2: AWLS on v
      obtain ⟨aSt, aScr, asem, aid, asd, abuc, hyk, hyi, hyor⟩ :=
        AWLS_spec hF i fuelA nd1 v hSt1 hScr1 hvk hvi
      set nd2 := (AWLS fuelA nd1 v).1 with hnd2
      set y := (AWLS fuelA nd1 v).2 with hy
      -- step 3: set idom or samedom of v
      set nd3 := (if semiOf nd2 y = semiOf nd2 v then
          alUpdate nd2 v (fun n => { n with idom := some p })
        else
          alUpdate nd2 v (fun n => { n with samedom := some y })) with hnd3
      have hres : drainBucket fuelA (F + 1) nd p = drainBucket fuelA F nd3 p := by
        show (match (bucketOf nd p).getLast? with
          | none => nd
          | some v => _) = _
        rw [hlast]
      -- facts about the popped node and the semidominator p
      have hsv1 : semiOf nd1 v = some p := by rw [hsem1]; exact hvsem
      obtain ⟨s9, hs9, hs9k, hs9idx, hs9anc, _⟩ := (hScr1.1 v hvk hvi).1
      have hs9p : s9 = p := by
        rw [hs9] at hsv1
        exact Option.some.injEq _ _ ▸ hsv1.symm ▸ rfl
      have hpk2 : p ∈ keys := hs9p ▸ hs9k
      have hpidx : keys.indexOf p < keys.indexOf v := hs9p ▸ hs9idx
      have hpanc : AncE E₀ p v := hs9p ▸ hs9anc
      have hpnev : p ≠ v := fun hc => by rw [hc] at hpidx; omega
      have hvp2 : (List.lookup v nd2).isSome = true := by
        rw [lookup_isSome_iff_mem]
        exact (aSt.1 v).mpr hvk
      obtain ⟨mv2, hmv2⟩ := Option.isSome_iff_exists.mp hvp2
      have hsem2 : ∀ k, semiOf nd2 k = semiOf nd k := fun k => by rw [asem, hsem1]
      have hid2 : ∀ k, idomOf nd2 k = idomOf nd k := fun k => by rw [aid, hid1]
      have hsd2 : ∀ k, samedomOf nd2 k = samedomOf nd k := fun k => by rw [asd, hsd1]
      have hbuc2p : bucketOf nd2 p = (bucketOf nd p).dropLast := by rw [abuc]; exact hb1p
      have hbuc2ne : ∀ s, s ≠ p → bucketOf nd2 s = bucketOf nd s := fun s hs => by
        rw [abuc]; exact hb1ne s hs
      -- branch-independent description of nd3
      have hstep : ∃ f : GNode → GNode,
          nd3 = alUpdate nd2 v f ∧ (∀ m, (f m).semi = m.semi) ∧
          (∀ m, (f m).ancestor = m.ancestor) ∧ (∀ m, (f m).best = m.best) ∧
          (∀ m, (f m).bucket = m.bucket) ∧ (∀ m, (f m).dfnum = m.dfnum) ∧
          (∀ m, (f m).inbound = m.inbound) ∧
          ResStatus keys nd3 v := by
        by_cases hcond : semiOf nd2 y = semiOf nd2 v
        · refine ⟨fun n => { n with idom := some p }, by rw [hnd3, if_pos hcond], ?_, ?_, ?_,
            ?_, ?_, ?_, ?_⟩
          · intro m; rfl
          · intro m; rfl
          · intro m; rfl
          · intro m; rfl
          · intro m; rfl
          · intro m; rfl
          · left
            refine ⟨p, ?_, hpk2, hpidx, ?_⟩
            · rw [hnd3, if_pos hcond]
              exact idomOf_alUpdate_self _ _ _ mv2 hmv2
            · rw [hnd3, if_pos hcond, samedomOf_alUpdate_frame _ v
                (fun n => { n with idom := some p }) (fun m => rfl), hsd2]
              exact hvsd
        · refine ⟨fun n => { n with samedom := some y }, by rw [hnd3, if_neg hcond], ?_, ?_,
            ?_, ?_, ?_, ?_, ?_⟩
          · intro m; rfl
          · intro m; rfl
          · intro m; rfl
          · intro m; rfl
          · intro m; rfl
          · intro m; rfl
          · right; left
            have hyv : y ≠ v := by
              intro hc
              rw [hc] at hcond
              exact hcond rfl
            have hanc : AncE E₀ y v := by
              rcases hyor with h | h
              · exact absurd h hyv
              · exact h
            refine ⟨y, ?_, hyk, by omega, hF.anc_idx hanc⟩
            rw [hnd3, if_neg hcond]
            exact samedomOf_alUpdate_self _ _ _ mv2 hmv2
      obtain ⟨f3, hnd3f, hf3s, hf3a, hf3b, hf3bk, hf3d, hf3in, hv3res⟩ := hstep
      have hSt3 : Static keys E₀ nd3 := by
        refine ⟨?_, ?_, ?_⟩
        · intro k
          rw [hnd3f, ndKeys_alUpdate]
          exact aSt.1 k
        · intro k hk
          rw [hnd3f, dfnumOf_alUpdate_frame _ v f3 hf3d]
          exact aSt.2.1 k hk
        · intro k
          rw [hnd3f, ndIn_alUpdate_frame _ v f3 hf3in]
          exact aSt.2.2 k
      have hsem3 : ∀ k, semiOf nd3 k = semiOf nd k := fun k => by
        rw [hnd3f, semiOf_alUpdate_frame _ v f3 hf3s]
        exact hsem2 k
      have hbuc3p : bucketOf nd3 p = (bucketOf nd p).dropLast := by
        rw [hnd3f, bucketOf_alUpdate_frame _ v f3 hf3bk]
        exact hbuc2p
      have hbuc3ne : ∀ s, s ≠ p → bucketOf nd3 s = bucketOf nd s := fun s hs => by
        rw [hnd3f, bucketOf_alUpdate_frame _ v f3 hf3bk]
        exact hbuc2ne s hs
      have hid3ne : ∀ k, k ≠ v → idomOf nd3 k = idomOf nd k := fun k hk => by
        rw [hnd3f, idomOf_alUpdate_ne _ _ _ _ hk]
        exact hid2 k
      have hsd3ne : ∀ k, k ≠ v → samedomOf nd3 k = samedomOf nd k := fun k hk => by
        rw [hnd3f, samedomOf_alUpdate_ne _ _ _ _ hk]
        exact hsd2 k
      have hScr3 : ScrInv g keys E₀ i nd3 := by
        constructor
        · intro k hk hik
          obtain ⟨h1, h2, h3⟩ := aScr.1 k hk hik
          refine ⟨?_, ?_, ?_⟩
          · obtain ⟨s, hs, hrest⟩ := h1
            refine ⟨s, ?_, hrest⟩
            rw [hnd3f, semiOf_alUpdate_frame _ v f3 hf3s]
            exact hs
          · obtain ⟨a, ha, hrest⟩ := h2
            refine ⟨a, ?_, hrest⟩
            rw [hnd3f, ancestorOf_alUpdate_frame _ v f3 hf3a]
            exact ha
          · obtain ⟨b, hb, hrest⟩ := h3
            refine ⟨b, ?_, hrest⟩
            rw [hnd3f, bestOf_alUpdate_frame _ v f3 hf3b]
            exact hb
        · intro k hk
          obtain ⟨h1, h2, h3⟩ := aScr.2 k hk
          refine ⟨?_, ?_, ?_⟩
          · rw [hnd3f, semiOf_alUpdate_frame _ v f3 hf3s]
            exact h1
          · rw [hnd3f, ancestorOf_alUpdate_frame _ v f3 hf3a]
            exact h2
          · rw [hnd3f, bestOf_alUpdate_frame _ v f3 hf3b]
            exact h3
      have hmemdl : ∀ k, k ∈ (bucketOf nd p).dropLast → k ∈ bucketOf nd p := by
        intro k hk
        rw [← hsplit]
        exact List.mem_append_left _ hk
      have hmemdl2 : ∀ k, k ∈ bucketOf nd p → k ≠ v → k ∈ (bucketOf nd p).dropLast := by
        intro k hk hkv
        rw [← hsplit] at hk
        rcases List.mem_append.mp hk with h | h
        · exact h
        · exact absurd (by simpa using h) hkv
      have hResP3 : ∀ k ∈ keys, i ≤ keys.indexOf k → ResStatus keys nd3 k := by
        intro k hk hik
        by_cases hkv : k = v
        · exact hkv ▸ hv3res
        · rcases hResP k hk hik with ⟨q, hq, hq1, hq2, hq3⟩ | ⟨yy, hyy, hrest⟩ |
            ⟨h1, h2, s, hs, hbk⟩
          · exact Or.inl ⟨q, by rw [hid3ne k hkv]; exact hq, hq1, hq2,
              by rw [hsd3ne k hkv]; exact hq3⟩
          · exact Or.inr (Or.inl ⟨yy, by rw [hsd3ne k hkv]; exact hyy, hrest⟩)
          · refine Or.inr (Or.inr ⟨by rw [hid3ne k hkv]; exact h1,
              by rw [hsd3ne k hkv]; exact h2, s, by rw [hsem3]; exact hs, ?_⟩)
            by_cases hsp : s = p
            · subst hsp
              rw [hbuc3p]
              exact hmemdl2 k hbk hkv
            · rw [hbuc3ne s hsp]
              exact hbk
      have hResN3 : ∀ k, ¬(k ∈ keys ∧ i ≤ keys.indexOf k) →
          idomOf nd3 k = none ∧ samedomOf nd3 k = none := by
        intro k hk
        have hkv : k ≠ v := by
          intro hc
          subst hc
          exact hk ⟨hvk, hvi⟩
        obtain ⟨h1, h2⟩ := hResN k hk
        exact ⟨by rw [hid3ne k hkv]; exact h1, by rw [hsd3ne k hkv]; exact h2⟩
      have hBE3 : BuckEntries keys i nd3 := by
        intro s k hks
        have hkbnd : k ∈ bucketOf nd s ∧ k ≠ v := by
          by_cases hsp : s = p
          · subst hsp
            rw [hbuc3p] at hks
            exact ⟨hmemdl k hks, by
              intro hc
              subst hc
              exact hvnotdl hks⟩
          · rw [hbuc3ne s hsp] at hks
            refine ⟨hks, ?_⟩
            intro hc
            subst hc
            obtain ⟨_, _, hsem, _, _⟩ := hBE s k hks
            rw [hvsem] at hsem
            exact hsp (Option.some.injEq _ _ ▸ hsem ▸ rfl)
        obtain ⟨hkb, hkv⟩ := hkbnd
        obtain ⟨hk1, hk2, hk3, hk4, hk5⟩ := hBE s k hkb
        exact ⟨hk1, hk2, by rw [hsem3]; exact hk3, by rw [hid3ne k hkv]; exact hk4,
          by rw [hsd3ne k hkv]; exact hk5⟩
      have hND3 : ∀ s, (bucketOf nd3 s).Nodup := by
        intro s
        by_cases hsp : s = p
        · subst hsp
          rw [hbuc3p]
          exact (hND _).sublist (List.dropLast_sublist _)
        · rw [hbuc3ne s hsp]
          exact hND s
      have hlen3 : (bucketOf nd3 p).length ≤ F := by
        rw [hbuc3p]
        have h2 : (bucketOf nd p).length = (bucketOf nd p).dropLast.length + 1 := by
          rw [← hsplit]
          simp
        omega
      obtain ⟨rSt, rScr, rsem, rbp, rbne, rND, rResP, rResN, rBE, rfr⟩ :=
        ihF nd3 p hlen3 hSt3 hScr3 hResP3 hResN3 hBE3 hND3
      rw [hres]
      refine ⟨rSt, rScr, ?_, rbp, ?_, rND, rResP, rResN, rBE, ?_⟩
      · intro k
        rw [rsem k, hsem3]
      · intro s hs
        rw [rbne s hs, hbuc3ne s hs]
      · intro k hk
        have hkv : k ≠ v := fun hc => hk (hc ▸ hvmem)
        have hkdl : k ∉ bucketOf nd3 p := by
          rw [hbuc3p]
          exact fun hc => hk (hmemdl k hc)
        obtain ⟨r1, r2⟩ := rfr k hkdl
        exact ⟨by rw [r1, hid3ne k hkv], by rw [r2, hsd3ne k hkv]⟩

theorem nodup_subset_length {l1 l2 : List ℕ} (h1 : l1.Nodup) (h2 : ∀ x ∈ l1, x ∈ l2) :
    l1.length ≤ l2.length :=
  (List.subperm_of_subset h1 h2).length_le

theorem indexOf_getD {l : List ℕ} {i : ℕ} (hnd : l.Nodup) (h : i < l.length) :
    l.indexOf (l.getD i 0) = i := by
  have h2 : l.getD i 0 = l.get ⟨i, h⟩ := by
    rw [List.getD_eq_getElem l 0 h]
    simp
  rw [h2]
  exact List.get_indexOf hnd _

theorem getD_mem {l : List ℕ} {i : ℕ} (h : i < l.length) : l.getD i 0 ∈ l := by
  rw [List.getD_eq_getElem l 0 h]
  exact List.getElem_mem h

theorem candFold_spec {g : Directed} {r : ℕ} {keys : List ℕ} {E₀ : List (ℕ × ℕ)}
    (hF : DfsFacts g r keys E₀) (i : ℕ) (N : ℕ) {n : ℕ} (hn : n ∈ keys)
    (hidxn : keys.indexOf n = i) :
    ∀ (l : List ℕ), (∀ x ∈ l, x ∈ keys ∧ n ∈ outboundOf g x) →
    ∀ (nd : NodeMap) (s : ℕ),
    Static keys E₀ nd → ScrInv g keys E₀ (i + 1) nd →
    s ∈ keys → keys.indexOf s < i →
    (∃ L, GPath g s L n ∧ ∀ z ∈ L, z ∈ keys ∧ i < keys.indexOf z) →
    Static keys E₀ (List.foldl (candStep g N n) (nd, s) l).1 ∧
    ScrInv g keys E₀ (i + 1) (List.foldl (candStep g N n) (nd, s) l).1 ∧
    (∀ k, semiOf (List.foldl (candStep g N n) (nd, s) l).1 k = semiOf nd k) ∧
    (∀ k, idomOf (List.foldl (candStep g N n) (nd, s) l).1 k = idomOf nd k) ∧
    (∀ k, samedomOf (List.foldl (candStep g N n) (nd, s) l).1 k = samedomOf nd k) ∧
    (∀ k, bucketOf (List.foldl (candStep g N n) (nd, s) l).1 k = bucketOf nd k) ∧
    (List.foldl (candStep g N n) (nd, s) l).2 ∈ keys ∧
    keys.indexOf (List.foldl (candStep g N n) (nd, s) l).2 < i ∧
    (∃ L, GPath g (List.foldl (candStep g N n) (nd, s) l).2 L n ∧
      ∀ z ∈ L, z ∈ keys ∧ i < keys.indexOf z) := by
  intro l
  induction l with
  | nil =>
    intro _ nd s hSt hScr hsk hsi hsp
    exact ⟨hSt, hScr, fun k => rfl, fun k => rfl, fun k => rfl, fun k => rfl, hsk, hsi, hsp⟩
  | cons pred rest ihl =>
    intro hl nd s hSt hScr hsk hsi hsp
    obtain ⟨hpk, hpe⟩ := hl pred (List.mem_cons_self _ _)
    rw [List.foldl_cons]
    have hrest : ∀ x ∈ rest, x ∈ keys ∧ n ∈ outboundOf g x :=
      fun x hx => hl x (List.mem_cons_of_mem _ hx)
    by_cases hcase : dfnumOf nd pred ≤ dfnumOf nd n
    · -- direct candidate
      have hstep : candStep g N n (nd, s) pred =
          (if dfnumOf nd pred < dfnumOf nd s then (nd, pred) else (nd, s)) := by
        simp only [candStep, if_pos hcase]
      by_cases h2 : dfnumOf nd pred < dfnumOf nd s
      · rw [hstep, if_pos h2]
        have hpidx : keys.indexOf pred < i := by
          have e1 := hSt.2.1 pred hpk
          have e2 := hSt.2.1 s hsk
          rw [e1, e2] at h2
          omega
        exact ihl hrest nd pred hSt hScr hpk hpidx
          ⟨[], GPath.single hpe, by simp⟩
      · rw [hstep, if_neg h2]
        exact ihl hrest nd s hSt hScr hsk hsi hsp
    · -- candidate through AncestorWithLowestSemi
      have hpgt : i < keys.indexOf pred := by
        have e1 := hSt.2.1 pred hpk
        have e2 := hSt.2.1 n hn
        rw [e1, e2, hidxn] at hcase
        omega
      obtain ⟨aSt, aScr, asem, aid, asd, abuc, hyk, hyi, hyor⟩ :=
        AWLS_spec hF (i + 1) N nd pred hSt hScr hpk (by omega)
      set nd1 := (AWLS N nd pred).1 with hnd1
      set y := (AWLS N nd pred).2 with hy
      obtain ⟨sy, hsy, hsyk, hsyidx, hsyanc, Ly, hLy, hLyint⟩ :=
        (aScr.1 y hyk hyi).1
      have hgety : (semiOf nd1 y).getD 0 = sy := by rw [hsy]; rfl
      have hstep : candStep g N n (nd, s) pred =
          (if dfnumOf nd1 sy < dfnumOf nd1 s then (nd1, sy) else (nd1, s)) := by
        simp only [candStep, if_neg hcase, ← hnd1, ← hy, hgety]
      -- path from sy to n
      have hsypath : ∃ L, GPath g sy L n ∧ ∀ z ∈ L, z ∈ keys ∧ i < keys.indexOf z := by
        rcases hyor with hyeq | hanc
        · -- y = pred
          refine ⟨Ly ++ [y], GPath_snoc hLy (by rw [hyeq]; exact hpe), ?_⟩
          intro z hz
          rcases List.mem_append.mp hz with h | h
          · obtain ⟨hz1, hz2⟩ := hLyint z h
            exact ⟨hz1, by omega⟩
          · rcases List.mem_cons.mp h with rfl | h3
            · exact ⟨hyk, by omega⟩
            · simp at h3
        · -- y is a proper ancestor of pred
          obtain ⟨Lt, hLt, hLtint⟩ := hF.tree_path hanc
          refine ⟨Ly ++ y :: (Lt ++ [pred]), GPath_append hLy (GPath_snoc hLt hpe), ?_⟩
          intro z hz
          rcases List.mem_append.mp hz with h | h
          · obtain ⟨hz1, hz2⟩ := hLyint z h
            exact ⟨hz1, by omega⟩
          · rcases List.mem_cons.mp h with rfl | h3
            · exact ⟨hyk, by omega⟩
            · rcases List.mem_append.mp h3 with h4 | h4
              · obtain ⟨hz1, hz2⟩ := hLtint z h4
                exact ⟨hz1, by omega⟩
              · rcases List.mem_cons.mp h4 with rfl | h5
                · exact ⟨hpk, hpgt⟩
                · simp at h5
      by_cases h2 : dfnumOf nd1 sy < dfnumOf nd1 s
      · rw [hstep, if_pos h2]
        have hsyidx2 : keys.indexOf sy < i := by
          have e1 := aSt.2.1 sy hsyk
          have e2 := aSt.2.1 s hsk
          rw [e1, e2] at h2
          omega
        obtain ⟨cSt, cScr, csem, cid, csd, cbuc, hrest2⟩ :=
          ihl hrest nd1 sy aSt aScr hsyk hsyidx2 hsypath
        exact ⟨cSt, cScr, fun k => by rw [csem k, asem k],
          fun k => by rw [cid k, aid k], fun k => by rw [csd k, asd k],
          fun k => by rw [cbuc k, abuc k], hrest2⟩
      · rw [hstep, if_neg h2]
        obtain ⟨cSt, cScr, csem, cid, csd, cbuc, hrest2⟩ :=
          ihl hrest nd1 s aSt aScr hsk hsi hsp
        exact ⟨cSt, cScr, fun k => by rw [csem k, asem k],
          fun k => by rw [cid k, aid k], fun k => by rw [csd k, asd k],
          fun k => by rw [cbuc k, abuc k], hrest2⟩

theorem ltStep_eq (g : Directed) (keys : List ℕ) (N i : ℕ) (nd : NodeMap) :
    ltStep g keys N nd i =
      (let n := keys.getD i 0
       let p := (parentOf nd n).getD 0
       let acc := (inboundOf g n).foldl (candStep g N n) (nd, p)
       let nd1 := alUpdate acc.1 n (fun m => { m with semi := some acc.2 })
       let nd2 := if n ∈ bucketOf nd1 acc.2 then nd1
         else alUpdate nd1 acc.2 (fun m => { m with bucket := m.bucket ++ [n] })
       let nd3 := alUpdate nd2 n (fun m => { m with ancestor := some p, best := some n })
       drainBucket N N nd3 p) := rfl

theorem ltStep_inv {g : Directed} {r : ℕ} {keys : List ℕ} {E₀ : List (ℕ × ℕ)}
    (hF : DfsFacts g r keys E₀)
    (Hpred : ∀ n ∈ keys, ∀ q ∈ inboundOf g n, q ∈ keys ∧ n ∈ outboundOf g q)
    (i : ℕ) (hi1 : 1 ≤ i) (hilen : i < keys.length)
    (nd : NodeMap) (hInv : LtInv g keys E₀ (i + 1) nd) :
    LtInv g keys E₀ i (ltStep g keys (keys.length + 1) nd i) := by
  obtain ⟨hSt, hScr, hRes, hBuck⟩ := hInv
  have hnk : keys.getD i 0 ∈ keys := getD_mem hilen
  have hnidx : keys.indexOf (keys.getD i 0) = i := indexOf_getD hF.nodup hilen
  have hidxr : keys.indexOf r = 0 := by rw [hF.headEq]; exact List.indexOf_cons_self _ _
  have hrmem : r ∈ keys := by rw [hF.headEq]; exact List.mem_cons_self _ _
  have hnr : keys.getD i 0 ≠ r := fun hc => by rw [hc, hidxr] at hnidx; omega
  obtain ⟨e, he, he2, hpar⟩ := hF.parent_exists hnk hnr
  have hparentOf : parentOf nd (keys.getD i 0) = some e.1 := by
    show (ndIn nd (keys.getD i 0)).head? = some e.1
    rw [hSt.2.2 (keys.getD i 0), List.head?_map]
    rw [← hpar]
    rfl
  have hpOf : (parentOf nd (keys.getD i 0)).getD 0 = e.1 := by rw [hparentOf]; rfl
  have hp_k : e.1 ∈ keys := hF.src_mem e he
  have hpidx : keys.indexOf e.1 < i := by
    have h2 := hF.edge_idx e he
    rw [he2, hnidx] at h2
    exact h2
  have hpanc : AncE E₀ e.1 (keys.getD i 0) := AncE.parent (he2 ▸ hpar)
  have hpedge : keys.getD i 0 ∈ outboundOf g e.1 := by
    have h2 := hF.gedge e he
    rwa [he2] at h2
  -- the candidate fold
  obtain ⟨fSt, fScr, fsem, fid, fsd, fbuc, hsFk, hsFidx, LF, hLF, hLFint⟩ :=
    candFold_spec hF i (keys.length + 1) hnk hnidx (inboundOf g (keys.getD i 0))
      (fun x hx => Hpred (keys.getD i 0) hnk x hx) nd e.1 hSt hScr hp_k hpidx
      ⟨[], GPath.single hpedge, by simp⟩
  set nA := (List.foldl (candStep g (keys.length + 1) (keys.getD i 0)) (nd, e.1)
    (inboundOf g (keys.getD i 0))).1 with hnA
  set sF := (List.foldl (candStep g (keys.length + 1) (keys.getD i 0)) (nd, e.1)
    (inboundOf g (keys.getD i 0))).2 with hsF
  have hAncsF : AncE E₀ sF (keys.getD i 0) := by
    refine hF.path_anc hLF hsFk ?_ ?_
    · rw [hnidx]; omega
    · intro z hz
      rw [hnidx]
      exact (hLFint z hz).2
  -- names for the update chain
  set nd1 := alUpdate nA (keys.getD i 0) (fun m => { m with semi := some sF }) with hnd1
  have hnp : (List.lookup (keys.getD i 0) nA).isSome = true := by
    rw [lookup_isSome_iff_mem]
    exact (fSt.1 _).mpr hnk
  obtain ⟨mn, hmn⟩ := Option.isSome_iff_exists.mp hnp
  have hbuck1 : ∀ k, bucketOf nd1 k = bucketOf nd k := fun k => by
    rw [hnd1, bucketOf_alUpdate_frame _ _ (fun m => { m with semi := some sF })
      (fun m => rfl)]
    exact fbuc k
  have hnotin : keys.getD i 0 ∉ bucketOf nd1 sF := by
    rw [hbuck1]
    intro hc
    obtain ⟨_, hik, _, _, _, _⟩ := hBuck.1 sF (keys.getD i 0) hc
    omega
  have hsFp : (List.lookup sF nd1).isSome = true := by
    rw [lookup_isSome_iff_mem, hnd1, ndKeys_alUpdate]
    exact (fSt.1 _).mpr hsFk
  obtain ⟨msf, hmsf⟩ := Option.isSome_iff_exists.mp hsFp
  set nd2 := alUpdate nd1 sF (fun m => { m with bucket := m.bucket ++ [keys.getD i 0] })
    with hnd2
  have hn2p : (List.lookup (keys.getD i 0) nd2).isSome = true := by
    rw [lookup_isSome_iff_mem, hnd2, ndKeys_alUpdate, hnd1, ndKeys_alUpdate]
    exact (fSt.1 _).mpr hnk
  obtain ⟨mn2, hmn2⟩ := Option.isSome_iff_exists.mp hn2p
  set nd3 := alUpdate nd2 (keys.getD i 0)
    (fun m => { m with ancestor := some e.1, best := some (keys.getD i 0) }) with hnd3
  have heq : ltStep g keys (keys.length + 1) nd i =
      drainBucket (keys.length + 1) (keys.length + 1) nd3 e.1 := by
    rw [ltStep_eq]
    show (let n := keys.getD i 0
          let p := (parentOf nd n).getD 0
          let acc := (inboundOf g n).foldl (candStep g (keys.length + 1) n) (nd, p)
          let nd1b := alUpdate acc.1 n (fun m => { m with semi := some acc.2 })
          let nd2b := if n ∈ bucketOf nd1b acc.2 then nd1b
            else alUpdate nd1b acc.2 (fun m => { m with bucket := m.bucket ++ [n] })
          let nd3b := alUpdate nd2b n (fun m => { m with ancestor := some p, best := some n })
          drainBucket (keys.length + 1) (keys.length + 1) nd3b p) = _
    simp only [hpOf]
    rw [if_neg hnotin]
  rw [heq]
  -- frame facts for the update chain nd → nA → nd1 → nd2 → nd3
  have hsem3n : semiOf nd3 (keys.getD i 0) = some sF := by
    rw [hnd3, semiOf_alUpdate_frame _ _
      (fun m => { m with ancestor := some e.1, best := some (keys.getD i 0) }) (fun m => rfl),
      hnd2, semiOf_alUpdate_frame _ _
      (fun m => { m with bucket := m.bucket ++ [keys.getD i 0] }) (fun m => rfl),
      hnd1, semiOf_alUpdate_self _ _ _ mn hmn]
  have hsem3 : ∀ k, k ≠ keys.getD i 0 → semiOf nd3 k = semiOf nd k := by
    intro k hk
    rw [hnd3, semiOf_alUpdate_frame _ _
      (fun m => { m with ancestor := some e.1, best := some (keys.getD i 0) }) (fun m => rfl),
      hnd2, semiOf_alUpdate_frame _ _
      (fun m => { m with bucket := m.bucket ++ [keys.getD i 0] }) (fun m => rfl),
      hnd1, semiOf_alUpdate_ne _ _ _ _ hk]
    exact fsem k
  have hanc3n : ancestorOf nd3 (keys.getD i 0) = some e.1 := by
    rw [hnd3, ancestorOf_alUpdate_self _ _ _ mn2 hmn2]
  have hbest3n : bestOf nd3 (keys.getD i 0) = some (keys.getD i 0) := by
    rw [hnd3, bestOf_alUpdate_self _ _ _ mn2 hmn2]
  have hanc3 : ∀ k, k ≠ keys.getD i 0 → ancestorOf nd3 k = ancestorOf nA k := by
    intro k hk
    rw [hnd3, ancestorOf_alUpdate_ne _ _ _ _ hk, hnd2, ancestorOf_alUpdate_frame _ _
      (fun m => { m with bucket := m.bucket ++ [keys.getD i 0] }) (fun m => rfl),
      hnd1, ancestorOf_alUpdate_frame _ _ (fun m => { m with semi := some sF })
      (fun m => rfl)]
  have hbest3 : ∀ k, k ≠ keys.getD i 0 → bestOf nd3 k = bestOf nA k := by
    intro k hk
    rw [hnd3, bestOf_alUpdate_ne _ _ _ _ hk, hnd2, bestOf_alUpdate_frame _ _
      (fun m => { m with bucket := m.bucket ++ [keys.getD i 0] }) (fun m => rfl),
      hnd1, bestOf_alUpdate_frame _ _ (fun m => { m with semi := some sF }) (fun m => rfl)]
  have hid3 : ∀ k, idomOf nd3 k = idomOf nd k := by
    intro k
    rw [hnd3, idomOf_alUpdate_frame _ _
      (fun m => { m with ancestor := some e.1, best := some (keys.getD i 0) }) (fun m => rfl),
      hnd2, idomOf_alUpdate_frame _ _
      (fun m => { m with bucket := m.bucket ++ [keys.getD i 0] }) (fun m => rfl),
      hnd1, idomOf_alUpdate_frame _ _ (fun m => { m with semi := some sF }) (fun m => rfl)]
    exact fid k
  have hsd3 : ∀ k, samedomOf nd3 k = samedomOf nd k := by
    intro k
    rw [hnd3, samedomOf_alUpdate_frame _ _
      (fun m => { m with ancestor := some e.1, best := some (keys.getD i 0) }) (fun m => rfl),
      hnd2, samedomOf_alUpdate_frame _ _
      (fun m => { m with bucket := m.bucket ++ [keys.getD i 0] }) (fun m => rfl),
      hnd1, samedomOf_alUpdate_frame _ _ (fun m => { m with semi := some sF }) (fun m => rfl)]
    exact fsd k
  have hb1sF : bucketOf nd1 sF = msf.bucket := by simp [bucketOf, hmsf]
  have hbuck3sF : bucketOf nd3 sF = bucketOf nd sF ++ [keys.getD i 0] := by
    rw [hnd3, bucketOf_alUpdate_frame _ _
      (fun m => { m with ancestor := some e.1, best := some (keys.getD i 0) }) (fun m => rfl),
      hnd2, bucketOf_alUpdate_self _ _ _ msf hmsf]
    show msf.bucket ++ [keys.getD i 0] = _
    rw [← hb1sF, hbuck1]
  have hbuck3ne : ∀ s, s ≠ sF → bucketOf nd3 s = bucketOf nd s := by
    intro s hs
    rw [hnd3, bucketOf_alUpdate_frame _ _
      (fun m => { m with ancestor := some e.1, best := some (keys.getD i 0) }) (fun m => rfl),
      hnd2, bucketOf_alUpdate_ne _ _ _ _ hs]
    exact hbuck1 s
  have hSt3 : Static keys E₀ nd3 := by
    refine ⟨?_, ?_, ?_⟩
    · intro k
      rw [hnd3, ndKeys_alUpdate, hnd2, ndKeys_alUpdate, hnd1, ndKeys_alUpdate]
      exact fSt.1 k
    · intro k hk
      rw [hnd3, dfnumOf_alUpdate_frame _ _
        (fun m => { m with ancestor := some e.1, best := some (keys.getD i 0) })
        (fun m => rfl),
        hnd2, dfnumOf_alUpdate_frame _ _
        (fun m => { m with bucket := m.bucket ++ [keys.getD i 0] }) (fun m => rfl),
        hnd1, dfnumOf_alUpdate_frame _ _ (fun m => { m with semi := some sF })
        (fun m => rfl)]
      exact fSt.2.1 k hk
    · intro k
      rw [hnd3, ndIn_alUpdate_frame _ _
        (fun m => { m with ancestor := some e.1, best := some (keys.getD i 0) })
        (fun m => rfl),
        hnd2, ndIn_alUpdate_frame _ _
        (fun m => { m with bucket := m.bucket ++ [keys.getD i 0] }) (fun m => rfl),
        hnd1, ndIn_alUpdate_frame _ _ (fun m => { m with semi := some sF }) (fun m => rfl)]
      exact fSt.2.2 k
  have hne_of_idx : ∀ k ∈ keys, k ≠ keys.getD i 0 → i ≤ keys.indexOf k →
      i + 1 ≤ keys.indexOf k := by
    intro k hk hkn hik
    rcases Nat.lt_or_ge (keys.indexOf k) (i + 1) with h | h
    · exfalso
      have : keys.indexOf k = i := by omega
      exact hkn (indexOf_injOn hk hnk (by rw [this, hnidx]))
    · exact h
  have hScr3 : ScrInv g keys E₀ i nd3 := by
    constructor
    · intro k hk hik
      by_cases hkn : k = keys.getD i 0
      · subst hkn
        refine ⟨⟨sF, hsem3n, hsFk, by omega, hAncsF, LF, hLF, ?_⟩,
          ⟨e.1, hanc3n, hpanc⟩, ⟨keys.getD i 0, hbest3n, Or.inl rfl, hnk, hik⟩⟩
        intro z hz
        obtain ⟨h1, h2⟩ := hLFint z hz
        rw [hnidx]
        exact ⟨h1, h2⟩
      · have hik2 := hne_of_idx k hk hkn hik
        obtain ⟨⟨s2, hs2, hs2r⟩, ⟨a2, ha2, ha2r⟩, ⟨b2, hb2, hb2r1, hb2r2, hb2r3⟩⟩ :=
          fScr.1 k hk hik2
        refine ⟨⟨s2, ?_, hs2r⟩, ⟨a2, ?_, ha2r⟩, ⟨b2, ?_, hb2r1, hb2r2, by omega⟩⟩
        · rw [hsem3 k hkn, ← fsem k]
          exact hs2
        · rw [hanc3 k hkn]
          exact ha2
        · rw [hbest3 k hkn]
          exact hb2
    · intro k hk
      have hkn : k ≠ keys.getD i 0 := by
        intro hc
        subst hc
        exact hk ⟨hnk, by omega⟩
      have hk2 : ¬(k ∈ keys ∧ i + 1 ≤ keys.indexOf k) := by
        intro ⟨h1, h2⟩
        exact hk ⟨h1, by omega⟩
      obtain ⟨h1, h2, h3⟩ := fScr.2 k hk2
      exact ⟨by rw [hsem3 k hkn, ← fsem k]; exact h1, by rw [hanc3 k hkn]; exact h2,
        by rw [hbest3 k hkn]; exact h3⟩
  have hid_n_none : idomOf nd (keys.getD i 0) = none := by
    have := hRes.2 (keys.getD i 0) (by
      intro ⟨_, h2⟩
      rw [hnidx] at h2
      omega)
    exact this.1
  have hsd_n_none : samedomOf nd (keys.getD i 0) = none := by
    have := hRes.2 (keys.getD i 0) (by
      intro ⟨_, h2⟩
      rw [hnidx] at h2
      omega)
    exact this.2
  have hn_notin_any : ∀ s, keys.getD i 0 ∉ bucketOf nd s := by
    intro s hc
    obtain ⟨_, hik, _, _, _, _⟩ := hBuck.1 s (keys.getD i 0) hc
    rw [hnidx] at hik
    omega
  have hResP3 : ∀ k ∈ keys, i ≤ keys.indexOf k → ResStatus keys nd3 k := by
    intro k hk hik
    by_cases hkn : k = keys.getD i 0
    · subst hkn
      refine Or.inr (Or.inr ⟨by rw [hid3]; exact hid_n_none,
        by rw [hsd3]; exact hsd_n_none, sF, hsem3n, ?_⟩)
      rw [hbuck3sF]
      exact List.mem_append_right _ (List.mem_cons_self _ _)
    · have hik2 := hne_of_idx k hk hkn hik
      rcases hRes.1 k hk hik2 with ⟨q, hq, hq1, hq2, hq3⟩ | ⟨y2, hy2, hy2r⟩ |
        ⟨h1, h2, s2, hs2, hbk2⟩
      · exact Or.inl ⟨q, by rw [hid3]; exact hq, hq1, hq2, by rw [hsd3]; exact hq3⟩
      · exact Or.inr (Or.inl ⟨y2, by rw [hsd3]; exact hy2, hy2r⟩)
      · refine Or.inr (Or.inr ⟨by rw [hid3]; exact h1, by rw [hsd3]; exact h2,
          s2, by rw [hsem3 k hkn]; exact hs2, ?_⟩)
        by_cases hs2f : s2 = sF
        · subst hs2f
          rw [hbuck3sF]
          exact List.mem_append_left _ hbk2
        · rw [hbuck3ne s2 hs2f]
          exact hbk2
  have hResN3 : ∀ k, ¬(k ∈ keys ∧ i ≤ keys.indexOf k) →
      idomOf nd3 k = none ∧ samedomOf nd3 k = none := by
    intro k hk
    have hk2 : ¬(k ∈ keys ∧ i + 1 ≤ keys.indexOf k) := by
      intro ⟨h1, h2⟩
      exact hk ⟨h1, by omega⟩
    obtain ⟨h1, h2⟩ := hRes.2 k hk2
    exact ⟨by rw [hid3]; exact h1, by rw [hsd3]; exact h2⟩
  have hBE3 : BuckEntries keys i nd3 := by
    intro s k hks
    by_cases hs2f : s = sF
    · subst hs2f
      rw [hbuck3sF] at hks
      rcases List.mem_append.mp hks with h | h
      · obtain ⟨h1, h2, h3, h4, h5, _⟩ := hBuck.1 sF k h
        have hkn : k ≠ keys.getD i 0 := by
          intro hc
          subst hc
          rw [hnidx] at h2
          omega
        exact ⟨h1, by omega, by rw [hsem3 k hkn]; exact h3, by rw [hid3]; exact h4,
          by rw [hsd3]; exact h5⟩
      · have hkeq : k = keys.getD i 0 := by simpa using h
        subst hkeq
        exact ⟨hnk, by omega, hsem3n, by rw [hid3]; exact hid_n_none,
          by rw [hsd3]; exact hsd_n_none⟩
    · rw [hbuck3ne s hs2f] at hks
      obtain ⟨h1, h2, h3, h4, h5, _⟩ := hBuck.1 s k hks
      have hkn : k ≠ keys.getD i 0 := by
        intro hc
        subst hc
        rw [hnidx] at h2
        omega
      exact ⟨h1, by omega, by rw [hsem3 k hkn]; exact h3, by rw [hid3]; exact h4,
        by rw [hsd3]; exact h5⟩
  have hND3 : ∀ s, (bucketOf nd3 s).Nodup := by
    intro s
    by_cases hs2f : s = sF
    · subst hs2f
      rw [hbuck3sF]
      rw [List.nodup_append]
      exact ⟨hBuck.2 _, List.nodup_singleton _, by
        intro a ha hb
        have : a = keys.getD i 0 := by simpa using hb
        subst this
        exact hn_notin_any _ ha⟩
    · rw [hbuck3ne s hs2f]
      exact hBuck.2 s
  have hlen3 : (bucketOf nd3 e.1).length ≤ keys.length + 1 := by
    have hsub : ∀ x ∈ bucketOf nd3 e.1, x ∈ keys := fun x hx => (hBE3 e.1 x hx).1
    have := nodup_subset_length (hND3 e.1) hsub
    omega
  obtain ⟨dSt, dScr, dsem, dbp, dbne, dND, dResP, dResN, dBE, dfr⟩ :=
    drainBucket_spec hF i hi1 (keys.length + 1) (keys.length + 1) nd3 e.1 hlen3
      hSt3 hScr3 hResP3 hResN3 hBE3 hND3
  refine ⟨dSt, dScr, ⟨dResP, dResN⟩, ?_, dND⟩
  -- bucket invariant with pending-drain witnesses
  intro s k hks
  by_cases hsp : s = e.1
  · subst hsp
    rw [dbp] at hks
    simp at hks
  · rw [dbne s hsp] at hks
    obtain ⟨h1, h2, h3, h4, h5⟩ := dBE s k (by rw [dbne s hsp]; exact hks)
    refine ⟨h1, h2, h3, h4, h5, ?_⟩
    -- pending witness
    by_cases hs2f : s = sF
    · subst hs2f
      rw [hbuck3sF] at hks
      rcases List.mem_append.mp hks with h | h
      · obtain ⟨_, _, _, _, _, c, hc1, hc2, hc3, hc4, hc5⟩ := hBuck.1 sF k h
        refine ⟨c, hc1, hc2, hc3, ?_, hc5⟩
        rcases Nat.lt_or_ge (keys.indexOf c) i with h6 | h6
        · exact h6
        · exfalso
          have hceq : keys.indexOf c = i := by omega
          have : c = keys.getD i 0 := indexOf_injOn hc2 hnk (by rw [hceq, hnidx])
          subst this
          have h7 := hpar.symm.trans hc1
          exact hsp (Option.some_inj.mp h7).symm
      · have hkeq : k = keys.getD i 0 := by simpa using h
        subst hkeq
        obtain ⟨c, hc1, hc2, hc3, hc4⟩ := hF.anc_child hAncsF
        refine ⟨c, hc1, hc2, ?_, ?_, by rw [hnidx] at hc4 ⊢; omega⟩
        · rcases Nat.eq_or_lt_of_le (Nat.zero_le (keys.indexOf c)) with h6 | h6
          · exfalso
            have hc0 : keys.indexOf c = 0 := h6.symm
            have hcr : c = r := indexOf_injOn hc2 hrmem (by rw [hc0, hidxr])
            exact hc3 hcr
          · omega
        · rcases Nat.lt_or_ge (keys.indexOf c) i with h6 | h6
          · exact h6
          · exfalso
            have hle : keys.indexOf c ≤ i := by rw [hnidx] at hc4; omega
            have hceq : keys.indexOf c = i := by omega
            have : c = keys.getD i 0 := indexOf_injOn hc2 hnk (by rw [hceq, hnidx])
            subst this
            have h7 := hpar.symm.trans hc1
            exact hsp (Option.some_inj.mp h7).symm
    · rw [hbuck3ne s hs2f] at hks
      obtain ⟨_, _, _, _, _, c, hc1, hc2, hc3, hc4, hc5⟩ := hBuck.1 s k hks
      refine ⟨c, hc1, hc2, hc3, ?_, hc5⟩
      rcases Nat.lt_or_ge (keys.indexOf c) i with h6 | h6
      · exact h6
      · exfalso
        have hceq : keys.indexOf c = i := by omega
        have : c = keys.getD i 0 := indexOf_injOn hc2 hnk (by rw [hceq, hnidx])
        subst this
        have h7 := hpar.symm.trans hc1
        exact hsp (Option.some_inj.mp h7).symm

theorem ltInit_lookup (t : DFSpanningTree) (k : ℕ) :
    List.lookup k (ltInit t) = (List.lookup k t.dir.nodes).map
      (fun p => { p with semi := none, ancestor := none, best := none,
                         idom := none, samedom := none, bucket := [] }) := by
  unfold ltInit
  exact lookup_map_entries t.dir.nodes
    (fun n => { n with semi := none, ancestor := none, best := none,
                       idom := none, samedom := none, bucket := [] }) k

theorem ltInit_base {g : Directed} {r : ℕ} {keys : List ℕ} {E₀ : List (ℕ × ℕ)}
    (hF : DfsFacts g r keys E₀) (t : DFSpanningTree)
    (hdf : ∀ k ∈ keys, dfnumOf t.dir.nodes k = keys.indexOf k)
    (hin : ∀ k, ndIn t.dir.nodes k = (E₀.filter (fun e => e.2 = k)).map Prod.fst)
    (hmem : ∀ k, k ∈ ndKeys t.dir.nodes ↔ k ∈ keys) :
    LtInv g keys E₀ keys.length (ltInit t) := by
  have hsemi : ∀ k, semiOf (ltInit t) k = none := by
    intro k
    rw [semiOf, ltInit_lookup]
    cases List.lookup k t.dir.nodes <;> simp
  have hanc : ∀ k, ancestorOf (ltInit t) k = none := by
    intro k
    rw [ancestorOf, ltInit_lookup]
    cases List.lookup k t.dir.nodes <;> simp
  have hbest : ∀ k, bestOf (ltInit t) k = none := by
    intro k
    rw [bestOf, ltInit_lookup]
    cases List.lookup k t.dir.nodes <;> simp
  have hidom : ∀ k, idomOf (ltInit t) k = none := by
    intro k
    rw [idomOf, ltInit_lookup]
    cases List.lookup k t.dir.nodes <;> simp
  have hsd : ∀ k, samedomOf (ltInit t) k = none := by
    intro k
    rw [samedomOf, ltInit_lookup]
    cases List.lookup k t.dir.nodes <;> simp
  have hbuc : ∀ k, bucketOf (ltInit t) k = [] := by
    intro k
    rw [bucketOf, ltInit_lookup]
    cases List.lookup k t.dir.nodes <;> simp
  have hnotproc : ∀ k, ¬(k ∈ keys ∧ keys.length ≤ keys.indexOf k) := by
    intro k ⟨h1, h2⟩
    have := List.indexOf_lt_length.mpr h1
    omega
  refine ⟨⟨?_, ?_, ?_⟩, ⟨?_, ?_⟩, ⟨?_, ?_⟩, ⟨?_, ?_⟩⟩
  · intro k
    rw [show ndKeys (ltInit t) = ndKeys t.dir.nodes from by
      unfold ltInit
      exact ndKeys_map_entries t.dir.nodes
        (fun n => { n with semi := none, ancestor := none, best := none,
                           idom := none, samedom := none, bucket := [] })]
    exact hmem k
  · intro k hk
    have : dfnumOf (ltInit t) k = dfnumOf t.dir.nodes k := by
      rw [dfnumOf, ltInit_lookup, dfnumOf]
      cases List.lookup k t.dir.nodes <;> simp
    rw [this]
    exact hdf k hk
  · intro k
    have : ndIn (ltInit t) k = ndIn t.dir.nodes k := by
      rw [ndIn, ltInit_lookup, ndIn]
      cases List.lookup k t.dir.nodes <;> simp
    rw [this]
    exact hin k
  · intro k hk hik
    exact absurd ⟨hk, hik⟩ (hnotproc k)
  · intro k _
    exact ⟨hsemi k, hanc k, hbest k⟩
  · intro k hk hik
    exact absurd ⟨hk, hik⟩ (hnotproc k)
  · intro k _
    exact ⟨hidom k, hsd k⟩
  · intro s k hk
    rw [hbuc s] at hk
    simp at hk
  · intro s
    rw [hbuc s]
    exact List.nodup_nil

theorem fold_ltStep {g : Directed} {r : ℕ} {keys : List ℕ} {E₀ : List (ℕ × ℕ)}
    (hF : DfsFacts g r keys E₀)
    (Hpred : ∀ n ∈ keys, ∀ q ∈ inboundOf g n, q ∈ keys ∧ n ∈ outboundOf g q)
    (nd0 : NodeMap) (h0 : LtInv g keys E₀ keys.length nd0) :
    ∀ (d i : ℕ), i + d = keys.length → 1 ≤ i →
    LtInv g keys E₀ i (List.foldl (ltStep g keys (keys.length + 1))
      nd0 (((List.range keys.length).drop i).reverse)) := by
  intro d
  induction d with
  | zero =>
    intro i hid hi1
    have hieq : i = keys.length := by omega
    subst hieq
    rw [List.drop_length_le (by simp)]
    simpa using h0
  | succ d ihd =>
    intro i hid hi1
    have hilen : i < keys.length := by omega
    have hsplit : ((List.range keys.length).drop i).reverse
        = (((List.range keys.length).drop (i + 1)).reverse) ++ [i] := by
      rw [List.drop_eq_getElem_cons (by simpa using hilen)]
      simp
    rw [hsplit, List.foldl_append]
    simp only [List.foldl_cons, List.foldl_nil]
    exact ltStep_inv hF Hpred i hi1 hilen _ (ihd (i + 1) (by omega) (by omega))

theorem ltRun_inv {g : Directed} {r : ℕ} {keys : List ℕ} {E₀ : List (ℕ × ℕ)}
    (hF : DfsFacts g r keys E₀)
    (Hpred : ∀ n ∈ keys, ∀ q ∈ inboundOf g n, q ∈ keys ∧ n ∈ outboundOf g q)
    (nd0 : NodeMap) (h0 : LtInv g keys E₀ keys.length nd0) (hlen : 1 ≤ keys.length) :
    LtInv g keys E₀ 1 (ltRun g keys (keys.length + 1) keys.length nd0) := by
  have := fold_ltStep hF Hpred nd0 h0 (keys.length - 1) 1 (by omega) (by omega)
  exact this

theorem buckets_empty {keys : List ℕ} {E₀ : List (ℕ × ℕ)} {nd : NodeMap}
    (hB : BuckInv keys E₀ 1 1 nd) : ∀ s k, k ∉ bucketOf nd s := by
  intro s k hk
  obtain ⟨_, _, _, _, _, c, _, _, hc1, hc2, _⟩ := hB.1 s k hk
  omega

theorem ltResolveStep_none (keys : List ℕ) (nd : NodeMap) (es : List (ℕ × ℕ)) (i : ℕ)
    (h : samedomOf nd (keys.getD i 0) = none) :
    ltResolveStep keys (nd, es) i
      = (nd, es ++ [((idomOf nd (keys.getD i 0)).getD 0, keys.getD i 0)]) := by
  simp only [ltResolveStep, h]

theorem ltResolveStep_some (keys : List ℕ) (nd : NodeMap) (es : List (ℕ × ℕ)) (i sd : ℕ)
    (h : samedomOf nd (keys.getD i 0) = some sd) :
    ltResolveStep keys (nd, es) i
      = (alUpdate nd (keys.getD i 0) (fun m => { m with idom := idomOf nd sd }),
         es ++ [((idomOf (alUpdate nd (keys.getD i 0)
             (fun m => { m with idom := idomOf nd sd })) (keys.getD i 0)).getD 0,
           keys.getD i 0)]) := by
  simp only [ltResolveStep, h]

theorem ltResolveStep_inv {keys : List ℕ} {nd1 : NodeMap}
    (hnd : keys.Nodup)
    (hRes2 : ∀ k ∈ keys, 1 ≤ keys.indexOf k →
      (∃ q, idomOf nd1 k = some q ∧ q ∈ keys ∧ keys.indexOf q < keys.indexOf k ∧
         samedomOf nd1 k = none) ∨
      (∃ y, samedomOf nd1 k = some y ∧ y ∈ keys ∧ 1 ≤ keys.indexOf y ∧
         keys.indexOf y < keys.indexOf k))
    (hmem : ∀ k, k ∈ ndKeys nd1 ↔ k ∈ keys)
    {j : ℕ} (hjlen : j + 1 < keys.length)
    {acc : NodeMap × List (ℕ × ℕ)} (hacc : Res2Inv keys nd1 j acc) :
    Res2Inv keys nd1 (j + 1) (ltResolveStep keys acc (j + 1)) := by
  obtain ⟨nd, es⟩ := acc
  obtain ⟨hK, hIdm, hFrm, hFil, hFil0⟩ := hacc
  have hnmem : keys.getD (j + 1) 0 ∈ keys := getD_mem hjlen
  have hnidx : keys.indexOf (keys.getD (j + 1) 0) = j + 1 := indexOf_getD hnd hjlen
  have hout : ¬(keys.getD (j + 1) 0 ∈ keys ∧ 1 ≤ keys.indexOf (keys.getD (j + 1) 0) ∧
      keys.indexOf (keys.getD (j + 1) 0) ≤ j) := by
    intro hcon
    have := hcon.2.2
    rw [hnidx] at this
    omega
  have hfrn := hFrm (keys.getD (j + 1) 0) hout
  have h1n : 1 ≤ keys.indexOf (keys.getD (j + 1) 0) := by rw [hnidx]; omega
  have hesn : es.filter (fun e => e.2 = keys.getD (j + 1) 0) = [] := hFil0 _ hout
  rcases hRes2 (keys.getD (j + 1) 0) hnmem h1n with
    ⟨q, hq, hqk, hqi, hsdn⟩ | ⟨y, hy, hyk, hy1, hyi⟩
  · -- samedom is unset: the node already carries its idom
    have hsd' : samedomOf nd (keys.getD (j + 1) 0) = none := by rw [hfrn.2, hsdn]
    have hid' : idomOf nd (keys.getD (j + 1) 0) = some q := by rw [hfrn.1, hq]
    rw [ltResolveStep_none keys nd es (j + 1) hsd', hid']
    rw [hnidx] at hqi
    refine ⟨hK, ?_, ?_, ?_, ?_⟩
    · intro k hk hk1 hk2
      rcases Nat.lt_or_ge (keys.indexOf k) (j + 1) with hlt | hge
      · exact hIdm k hk hk1 (by omega)
      · have hkn : k = keys.getD (j + 1) 0 :=
          indexOf_injOn hk hnmem (by rw [hnidx]; omega)
        exact ⟨q, by rw [hkn]; exact hid', hqk, by rw [hkn, hnidx]; omega⟩
    · intro k hkout
      refine hFrm k ?_
      intro hcon
      exact hkout ⟨hcon.1, hcon.2.1, by omega⟩
    · intro k hk hk1 hk2
      rw [List.filter_append]
      rcases Nat.lt_or_ge (keys.indexOf k) (j + 1) with hlt | hge
      · obtain ⟨p, hfp, hpk, hpi⟩ := hFil k hk hk1 (by omega)
        have hne : ¬(keys.getD (j + 1) 0 = k) := by
          intro hcon
          rw [hcon] at hnidx
          omega
        refine ⟨p, ?_, hpk, hpi⟩
        rw [hfp]
        simp [Option.getD_some, List.filter_cons]
        simpa [List.getD_eq_getElem?_getD] using hne
      · have hkn : k = keys.getD (j + 1) 0 :=
          indexOf_injOn hk hnmem (by rw [hnidx]; omega)
        subst hkn
        rw [hesn]
        exact ⟨q, by simp [Option.getD_some, List.filter_cons], hqk, by rw [hnidx]; omega⟩
    · intro k hkout
      rw [List.filter_append]
      have hne : ¬(keys.getD (j + 1) 0 = k) := by
        intro hcon
        rw [← hcon] at hkout
        exact hkout ⟨hnmem, h1n, by rw [hnidx]⟩
      rw [hFil0 k (fun hcon => hkout ⟨hcon.1, hcon.2.1, by omega⟩)]
      simp [Option.getD_some, List.filter_cons]
      simpa [List.getD_eq_getElem?_getD] using hne
  · -- samedom is set: resolve it from the already-resolved lower node
    have hsd' : samedomOf nd (keys.getD (j + 1) 0) = some y := by rw [hfrn.2, hy]
    rw [hnidx] at hyi
    obtain ⟨p, hp, hpk, hpi⟩ := hIdm y hyk hy1 (by omega)
    have hnnd : keys.getD (j + 1) 0 ∈ ndKeys nd := (hK _).mpr ((hmem _).mpr hnmem)
    obtain ⟨m, hm⟩ := Option.isSome_iff_exists.mp ((lookup_isSome_iff_mem _ _).mpr hnnd)
    have hid' : idomOf (alUpdate nd (keys.getD (j + 1) 0)
        (fun m => { m with idom := idomOf nd y })) (keys.getD (j + 1) 0) = some p := by
      rw [idomOf_alUpdate_self nd (keys.getD (j + 1) 0) _ m hm]
      exact hp
    rw [ltResolveStep_some keys nd es (j + 1) y hsd', hid']
    refine ⟨?_, ?_, ?_, ?_, ?_⟩
    · intro k
      rw [show ndKeys (alUpdate nd (keys.getD (j + 1) 0)
            (fun m => { m with idom := idomOf nd y })) = ndKeys nd from
          ndKeys_alUpdate nd _ _]
      exact hK k
    · intro k hk hk1 hk2
      rcases Nat.lt_or_ge (keys.indexOf k) (j + 1) with hlt | hge
      · obtain ⟨p2, hp2, hp2k, hp2i⟩ := hIdm k hk hk1 (by omega)
        have hne : k ≠ keys.getD (j + 1) 0 := by
          intro hcon
          rw [hcon, hnidx] at hlt
          omega
        exact ⟨p2, by rw [idomOf_alUpdate_ne nd _ k _ hne]; exact hp2, hp2k, hp2i⟩
      · have hkn : k = keys.getD (j + 1) 0 :=
          indexOf_injOn hk hnmem (by rw [hnidx]; omega)
        refine ⟨p, by rw [hkn]; exact hid', hpk, ?_⟩
        rw [hkn, hnidx]
        omega
    · intro k hkout
      have hne : k ≠ keys.getD (j + 1) 0 := by
        intro hcon
        rw [← hcon] at hnmem hnidx
        exact hkout ⟨hnmem, by omega, by omega⟩
      have hold := hFrm k (fun hcon => hkout ⟨hcon.1, hcon.2.1, by omega⟩)
      constructor
      · rw [idomOf_alUpdate_ne nd _ k _ hne]
        exact hold.1
      · rw [samedomOf_alUpdate_frame nd (keys.getD (j + 1) 0)
            (fun m => { m with idom := idomOf nd y }) (fun m => rfl) k]
        exact hold.2
    · intro k hk hk1 hk2
      rw [List.filter_append]
      rcases Nat.lt_or_ge (keys.indexOf k) (j + 1) with hlt | hge
      · obtain ⟨p2, hfp2, hp2k, hp2i⟩ := hFil k hk hk1 (by omega)
        have hne : ¬(keys.getD (j + 1) 0 = k) := by
          intro hcon
          rw [hcon] at hnidx
          omega
        refine ⟨p2, ?_, hp2k, hp2i⟩
        rw [hfp2]
        simp [Option.getD_some, List.filter_cons]
        simpa [List.getD_eq_getElem?_getD] using hne
      · have hkn : k = keys.getD (j + 1) 0 :=
          indexOf_injOn hk hnmem (by rw [hnidx]; omega)
        subst hkn
        rw [hesn]
        refine ⟨p, by simp [Option.getD_some, List.filter_cons], hpk, ?_⟩
        rw [hnidx]
        omega
    · intro k hkout
      rw [List.filter_append]
      have hne : ¬(keys.getD (j + 1) 0 = k) := by
        intro hcon
        rw [← hcon] at hkout
        exact hkout ⟨hnmem, h1n, by rw [hnidx]⟩
      rw [hFil0 k (fun hcon => hkout ⟨hcon.1, hcon.2.1, by omega⟩)]
      simp [Option.getD_some, List.filter_cons]
      simpa [List.getD_eq_getElem?_getD] using hne

theorem ltResolve_fold {keys : List ℕ} {nd1 : NodeMap}
    (hnd : keys.Nodup)
    (hRes2 : ∀ k ∈ keys, 1 ≤ keys.indexOf k →
      (∃ q, idomOf nd1 k = some q ∧ q ∈ keys ∧ keys.indexOf q < keys.indexOf k ∧
         samedomOf nd1 k = none) ∨
      (∃ y, samedomOf nd1 k = some y ∧ y ∈ keys ∧ 1 ≤ keys.indexOf y ∧
         keys.indexOf y < keys.indexOf k))
    (hmem : ∀ k, k ∈ ndKeys nd1 ↔ k ∈ keys) :
    ∀ j, j ≤ keys.length - 1 →
      Res2Inv keys nd1 j ((List.range' 1 j).foldl (ltResolveStep keys) (nd1, [])) := by
  intro j
  induction j with
  | zero =>
    intro _
    refine ⟨fun k => Iff.rfl, ?_, fun k _ => ⟨rfl, rfl⟩, ?_, fun k _ => rfl⟩
    · intro k _ h1 h2
      omega
    · intro k _ h1 h2
      omega
  | succ j ih =>
    intro hj
    have hjlen : j + 1 < keys.length := by omega
    have hcat : List.range' 1 (j + 1) = List.range' 1 j ++ [1 + j] := by
      rw [List.range'_concat 1 j]
      norm_num
    rw [hcat, List.foldl_append, List.foldl_cons, List.foldl_nil, Nat.add_comm 1 j]
    exact ltResolveStep_inv hnd hRes2 hmem hjlen (ih (by omega))

theorem ltResolve_inv {keys : List ℕ} {nd1 : NodeMap}
    (hnd : keys.Nodup)
    (hRes2 : ∀ k ∈ keys, 1 ≤ keys.indexOf k →
      (∃ q, idomOf nd1 k = some q ∧ q ∈ keys ∧ keys.indexOf q < keys.indexOf k ∧
         samedomOf nd1 k = none) ∨
      (∃ y, samedomOf nd1 k = some y ∧ y ∈ keys ∧ 1 ≤ keys.indexOf y ∧
         keys.indexOf y < keys.indexOf k))
    (hmem : ∀ k, k ∈ ndKeys nd1 ↔ k ∈ keys)
    (hlen : 1 ≤ keys.length) :
    Res2Inv keys nd1 (keys.length - 1) (ltResolve keys keys.length nd1) := by
  have hdrop : (List.range keys.length).drop 1 = List.range' 1 (keys.length - 1) := by
    have h1 : keys.length = (keys.length - 1) + 1 := by omega
    conv_lhs => rw [List.range_eq_range', h1, List.range'_succ]
    simp
  unfold ltResolve
  rw [hdrop]
  exact ltResolve_fold hnd hRes2 hmem (keys.length - 1) le_rfl

theorem mkDominatorTree_dir_nodes (g : Directed) :
    (mkDominatorTree g).dir.nodes
      = (ltBase g).nodes.map (fun p => (p.1, { p.2 with idom := p.2.inbound.head? })) := rfl

theorem mkDominatorTree_dir_root (g : Directed) :
    (mkDominatorTree g).dir.root = (ltBase g).root := rfl

theorem idomOf_rebuild (nds : NodeMap) (k : ℕ) :
    idomOf (nds.map (fun p => (p.1, { p.2 with idom := p.2.inbound.head? }))) k
      = (ndIn nds k).head? := by
  rw [idomOf, lookup_map_entries nds (fun m => { m with idom := m.inbound.head? }) k, ndIn]
  cases List.lookup k nds <;> simp

theorem dominates_chain (dt : DominatorTree) (keys : List ℕ) (r : ℕ)
    (hroot : ∀ u, u ≠ r → some u ≠ dt.dir.root)
    (hstep : ∀ k ∈ keys, k ≠ r → ∃ q, idomOf dt.dir.nodes k = some q ∧ q ∈ keys ∧
       keys.indexOf q < keys.indexOf k) :
    ∀ fuel n, n ∈ keys → keys.indexOf n < fuel → dominates dt fuel r n = true := by
  intro fuel
  induction fuel with
  | zero =>
    intro n _ h
    omega
  | succ fuel ih =>
    intro n hn hf
    by_cases hnr : n = r
    · subst hnr
      simp [dominates]
    · obtain ⟨q, hq, hqk, hqi⟩ := hstep n hn hnr
      have hfu : keys.indexOf q < fuel := by omega
      show dominates dt (fuel + 1) r n = true
      simp only [dominates]
      rw [if_neg hnr, if_neg (hroot n hnr), hq]
      exact ih q hqk hfu

theorem mkDominatorTree_chain (g : Directed) (r : ℕ) (hroot : g.root = some r)
    (Hout : ∀ k x, x ∈ outboundOf g k → x ∈ ndKeys g.nodes)
    (hr : r ∈ ndKeys g.nodes)
    (Hpred : ∀ n ∈ (mkDFST g).keysDfs, ∀ q ∈ inboundOf g n,
       q ∈ (mkDFST g).keysDfs ∧ n ∈ outboundOf g q) :
    ∀ n ∈ (mkDFST g).keysDfs,
      dominates (mkDominatorTree g) ((mkDFST g).keysDfs.length) r n = true := by
  obtain ⟨E₀, hF, hdf, hin, hmemT⟩ := mkDFST_spec g r hroot Hout hr
  have hnd := hF.nodup
  have hhead := hF.headEq
  have hlen : 1 ≤ (mkDFST g).keysDfs.length := by rw [hhead]; simp
  have hrkeys : r ∈ (mkDFST g).keysDfs := by rw [hhead]; exact List.mem_cons_self _ _
  have hridx : (mkDFST g).keysDfs.indexOf r = 0 := by rw [hhead]; simp
  have hheadD : (mkDFST g).keysDfs.headD 0 = r := by rw [hhead]; rfl
  obtain ⟨hStatic, hScr, hRes, hBuck⟩ :=
    ltRun_inv hF Hpred (ltInit (mkDFST g)) (ltInit_base hF (mkDFST g) hdf hin hmemT) hlen
  have hbe := buckets_empty hBuck
  have hRes2 : ∀ k ∈ (mkDFST g).keysDfs, 1 ≤ (mkDFST g).keysDfs.indexOf k →
      (∃ q, idomOf (ltRun g (mkDFST g).keysDfs ((mkDFST g).keysDfs.length + 1)
          (mkDFST g).keysDfs.length (ltInit (mkDFST g))) k = some q ∧
         q ∈ (mkDFST g).keysDfs ∧
         (mkDFST g).keysDfs.indexOf q < (mkDFST g).keysDfs.indexOf k ∧
         samedomOf (ltRun g (mkDFST g).keysDfs ((mkDFST g).keysDfs.length + 1)
           (mkDFST g).keysDfs.length (ltInit (mkDFST g))) k = none) ∨
      (∃ y, samedomOf (ltRun g (mkDFST g).keysDfs ((mkDFST g).keysDfs.length + 1)
          (mkDFST g).keysDfs.length (ltInit (mkDFST g))) k = some y ∧
         y ∈ (mkDFST g).keysDfs ∧ 1 ≤ (mkDFST g).keysDfs.indexOf y ∧
         (mkDFST g).keysDfs.indexOf y < (mkDFST g).keysDfs.indexOf k) := by
    intro k hk h1
    rcases hRes.1 k hk h1 with h | h | h
    · exact Or.inl h
    · exact Or.inr h
    · obtain ⟨_, _, s, _, hkb⟩ := h
      exact absurd hkb (hbe s k)
  obtain ⟨hK2, hIdm2, hFrm2, hFil2, hFil02⟩ := ltResolve_inv hnd hRes2 hStatic.1 hlen
  have hesnd : ∀ e ∈ ltEdges g, e.2 ∈ (mkDFST g).keysDfs := by
    intro e he
    by_contra hke
    have h0 := hFil02 e.2 (fun hcon => hke hcon.1)
    have hmem2 : e ∈ (ltEdges g).filter (fun x => x.2 = e.2) :=
      List.mem_filter.mpr ⟨he, by simp⟩
    rw [show ((ltResolve (mkDFST g).keysDfs (mkDFST g).keysDfs.length
        (ltRun g (mkDFST g).keysDfs ((mkDFST g).keysDfs.length + 1)
          (mkDFST g).keysDfs.length (ltInit (mkDFST g)))).2) = ltEdges g from rfl] at h0
    rw [h0] at hmem2
    exact List.not_mem_nil e hmem2
  have hinb : ∀ k, inboundOf (ltBase g) k
      = ((ltEdges g).filter (fun e => e.2 = k)).map Prod.fst :=
    mkDirected_inbound _ _ _ hesnd
  have hroot2 : (mkDominatorTree g).dir.root
      = if r ≠ 0 ∧ r ∈ (mkDFST g).keysDfs then some r else none := by
    rw [mkDominatorTree_dir_root, ltBase, mkDirected_root, hheadD]
  have hidomC : ∀ k ∈ (mkDFST g).keysDfs, k ≠ r →
      ∃ q, idomOf (mkDominatorTree g).dir.nodes k = some q ∧ q ∈ (mkDFST g).keysDfs ∧
        (mkDFST g).keysDfs.indexOf q < (mkDFST g).keysDfs.indexOf k := by
    intro k hk hkr
    have h1k : 1 ≤ (mkDFST g).keysDfs.indexOf k := by
      rcases Nat.eq_zero_or_pos ((mkDFST g).keysDfs.indexOf k) with h0 | h1
      · exact absurd (indexOf_injOn hk hrkeys (by rw [h0, hridx])) hkr
      · exact h1
    have hjk : (mkDFST g).keysDfs.indexOf k ≤ (mkDFST g).keysDfs.length - 1 := by
      have := List.indexOf_lt_length.mpr hk
      omega
    obtain ⟨q, hfq, hqk, hqi⟩ := hFil2 k hk h1k hjk
    refine ⟨q, ?_, hqk, hqi⟩
    rw [mkDominatorTree_dir_nodes, idomOf_rebuild]
    have hib := hinb k
    rw [inboundOf_eq_ndIn] at hib
    rw [hib]
    rw [show ((ltResolve (mkDFST g).keysDfs (mkDFST g).keysDfs.length
        (ltRun g (mkDFST g).keysDfs ((mkDFST g).keysDfs.length + 1)
          (mkDFST g).keysDfs.length (ltInit (mkDFST g)))).2) = ltEdges g from rfl] at hfq
    rw [hfq]
    rfl
  intro n hn
  refine dominates_chain (mkDominatorTree g) (mkDFST g).keysDfs r ?_ hidomC
    (mkDFST g).keysDfs.length n hn (List.indexOf_lt_length.mpr hn)
  intro u hur
  rw [hroot2]
  by_cases h0 : r ≠ 0 ∧ r ∈ (mkDFST g).keysDfs
  · rw [if_pos h0]
    intro hcon
    exact hur (Option.some_inj.mp hcon)
  · rw [if_neg h0]
    simp

theorem c9_main (ns : List ℕ) (es : List (ℕ × ℕ)) (r : ℕ)
    (hr0 : r ≠ 0) (hrns : r ∈ ns)
    (hes : ∀ e ∈ es, e.1 ∈ ns ∧ e.2 ∈ ns)
    (hreach : ∀ k ∈ ns, k ∈ (mkDFST (mkDirected ns es r)).keysDfs) :
    ∀ n ∈ (mkDFST (mkDirected ns es r)).keysDfs,
      dominates (mkDominatorTree (mkDirected ns es r))
        ((mkDFST (mkDirected ns es r)).keysDfs.length) r n = true := by
  have hroot : (mkDirected ns es r).root = some r := by
    rw [mkDirected_root, if_pos ⟨hr0, hrns⟩]
  have Hout : ∀ k x, x ∈ outboundOf (mkDirected ns es r) k →
      x ∈ ndKeys (mkDirected ns es r).nodes := by
    intro k x hx
    rw [mkDirected_outbound ns es r (fun e he => (hes e he).1) k] at hx
    obtain ⟨e, he1, he2⟩ := List.mem_map.mp hx
    have hmf := List.mem_filter.mp he1
    rw [mkDirected_mem_keys, ← he2]
    exact (hes e hmf.1).2
  have hrk : r ∈ ndKeys (mkDirected ns es r).nodes := (mkDirected_mem_keys ns es r r).mpr hrns
  have Hpred : ∀ n ∈ (mkDFST (mkDirected ns es r)).keysDfs,
      ∀ q ∈ inboundOf (mkDirected ns es r) n,
        q ∈ (mkDFST (mkDirected ns es r)).keysDfs ∧ n ∈ outboundOf (mkDirected ns es r) q := by
    intro n hn q hq
    rw [mkDirected_inbound ns es r (fun e he => (hes e he).2) n] at hq
    obtain ⟨e, he1, he2⟩ := List.mem_map.mp hq
    have hmf := List.mem_filter.mp he1
    have he2n : e.2 = n := by simpa using hmf.2
    constructor
    · exact hreach q (by rw [← he2]; exact (hes e hmf.1).1)
    · rw [mkDirected_outbound ns es r (fun e he => (hes e he).1) q]
      exact List.mem_map.mpr ⟨e, List.mem_filter.mpr ⟨hmf.1, by simp [he2]⟩, he2n⟩
  exact mkDominatorTree_chain (mkDirected ns es r) r hroot Hout hrk Hpred

-- THEORY --

end CFG

namespace Claims

open CFG

set_option maxRecDepth 8000 in
/-- C4: on the diamond CFG with nodes A=1, B=2, C=3, D=4, edges A→B,
A→C, B→D, C→D and root A, the DominatorTree construction yields
idom(B) = A, idom(C) = A and idom(D) = A, and dominanceFrontier yields
DF(A) = ∅, DF(B) = {D}, DF(C) = {D} and DF(D) = ∅. -/
theorem c4_diamond_dominators :
    idomOf diamondDT.dir.nodes 2 = some 1 ∧
    idomOf diamondDT.dir.nodes 3 = some 1 ∧
    idomOf diamondDT.dir.nodes 4 = some 1 ∧
    dominanceFrontier diamondDT (diamondDT.dir.nodes.length + 1) 1 = [] ∧
    dominanceFrontier diamondDT (diamondDT.dir.nodes.length + 1) 2 = [4] ∧
    dominanceFrontier diamondDT (diamondDT.dir.nodes.length + 1) 3 = [4] ∧
    dominanceFrontier diamondDT (diamondDT.dir.nodes.length + 1) 4 = [] := by
  decide


/-- C9: for every input graph (nodes `ns`, edges `es`, nonzero root `r`
with all edge endpoints among the nodes) in which every node is reachable
from the root -- rendered as membership in the DFS preorder `keysDfs` of
the spanning tree, which is exactly the set the `explore` recursion
visits -- the `dominates` query on the constructed `DominatorTree`
returns `true` for `dominates(root, n)` for every reachable node `n`:
the chain of `idom` links from `n` always reaches the root. -/
theorem c9_dominator_root (ns : List ℕ) (es : List (ℕ × ℕ)) (r : ℕ)
    (hr0 : r ≠ 0) (hrns : r ∈ ns)
    (hes : ∀ e ∈ es, e.1 ∈ ns ∧ e.2 ∈ ns)
    (hreach : ∀ k ∈ ns, k ∈ (mkDFST (mkDirected ns es r)).keysDfs) :
    ∀ n ∈ (mkDFST (mkDirected ns es r)).keysDfs,
      dominates (mkDominatorTree (mkDirected ns es r))
        ((mkDFST (mkDirected ns es r)).keysDfs.length) r n = true :=
  c9_main ns es r hr0 hrns hes hreach

set_option maxRecDepth 4000 in
/-- Witness for C9: the two-node graph 1 -> 2 rooted at 1; both nodes are
reachable and the root dominates node 2. -/
theorem c9_dominator_root_witness :
    dominates (mkDominatorTree (mkDirected [1, 2] [(1, 2)] 1))
      ((mkDFST (mkDirected [1, 2] [(1, 2)] 1)).keysDfs.length) 1 2 = true :=
  c9_dominator_root [1, 2] [(1, 2)] 1 (by decide) (by decide) (by decide) (by decide)
    2 (by decide)


end Claims
